import Mathlib

/-! AHTVC: the AutoEQ Harman-to-VDSF curve pipeline of `main.go`

A shallow embedding of the numeric pipeline of `src/main.go` (parser, merge,
overlay interpolation, moving-average smoother, preamp normaliser, serialiser)
and theorems about it.

Modelling conventions.

* A Go `float64` is a value of `F64`: a finite value carried as a rational, or
  one of NaN, +Inf, -Inf.  Arithmetic on finite values follows IEEE 754
  binary64: the exact result is rounded to the nearest float64, ties to even
  (`roundNearest`), and overflows to an infinity when the rounded result is
  beyond `math.MaxFloat64`.  The sign of zero is not modelled.  Comparisons
  follow IEEE 754 (every comparison with NaN is false).
* A Go `map[int]float64` is an association list with distinct keys
  (`AList`); `m[k]` on a missing key is the zero value.
* A Go `string` is a list of characters (valid Unicode text).
* The library functions the program calls (`strings.TrimSpace`, `Fields`, `Split`,
  `HasPrefix`, `TrimPrefix`, `ReplaceAll`, `Join`, `strconv.Atoi`, `strconv.ParseFloat`,
  the verbs `%d` and `%.1f`) are defined here after the Go standard library; `int` is
  64 bits wide.
* `math.Log10` is not computable on rationals: `applyX2EQ` takes it as the
  parameter `log10`.
* `fmt.Printf` diagnostics have no effect on results and are left out.
-/

set_option autoImplicit false

namespace AHTVC

/-! ## Rounding to the nearest float64

IEEE 754 binary64 has 53 significant bits, exponents from -1022 to 1023 and subnormal
numbers below `2 ^ (-1022)`; every arithmetic operation returns the representable number
nearest to the exact result, ties going to the even significand. -/

/-- The rational `m * b ^ e` for an integer exponent. -/
def scale (m : Nat) (b : Nat) (e : Int) : ℚ :=
  if 0 ≤ e then (m : ℚ) * (b : ℚ) ^ e.toNat else (m : ℚ) / (b : ℚ) ^ (-e).toNat

/-- Rounding of a non-negative rational to the nearest integer, ties to even. -/
def roundHalfEven (r : ℚ) : Nat :=
  let n := r.floor.toNat
  let frac := r - n
  if frac < 1 / 2 then n
  else if 1 / 2 < frac then n + 1
  else if n % 2 = 0 then n else n + 1

/-- The number of halvings that take `n` below 2, at most `fuel` of them. -/
def halvings : Nat → Nat → Nat
  | 0, _ => 0
  | fuel + 1, n => if 2 ≤ n then halvings fuel (n / 2) + 1 else 0

/-- The binary logarithm of a positive natural number, rounded down. -/
def log2Floor (n : Nat) : Nat := halvings n n

/-- The exponent `e` with `2 ^ e ≤ |q| < 2 ^ (e + 1)`, for `q` other than 0. -/
def binExp (q : ℚ) : Int :=
  let e0 : Int := (log2Floor q.num.natAbs : Int) - (log2Floor q.den : Int)
  if scale 1 2 e0 ≤ |q| then e0 else e0 - 1

/-- The exponent of the unit in the last place of the float64 numbers around `q`: 52 below
the binary exponent of `q`, and -1074 in the subnormal range. -/
def ulpExp (q : ℚ) : Int := max (binExp q) (-1022) - 52

/-- The float64 nearest to `q`, ties to even, before the overflow test: the multiple of
`2 ^ ulpExp q` nearest to `q`. -/
def roundNearest (q : ℚ) : ℚ :=
  if q = 0 then 0
  else if q < 0 then
    -((roundHalfEven (|q| / scale 1 2 (ulpExp q)) : ℚ) * scale 1 2 (ulpExp q))
  else (roundHalfEven (|q| / scale 1 2 (ulpExp q)) : ℚ) * scale 1 2 (ulpExp q)

/-- The unit roundoff of float64, `2 ^ (-53)`. -/
def unitRoundoff : ℚ := 1 / 2 ^ 53

/-- The constant `math.SmallestNonzeroFloat64`, `2 ^ (-1074)`. -/
def minSubnormal : ℚ := 1 / 2 ^ 1074

/-! ## float64 -/

/-- A Go `float64`: a finite value, carried as a rational, or NaN, +Inf, -Inf. -/
inductive F64 where
  | fin (q : ℚ)
  | nan
  | pinf
  | ninf
  deriving DecidableEq

namespace F64

/-- The constant `math.MaxFloat64`, (2^53 - 1) * 2^971. -/
def maxFloat64 : ℚ := (2 ^ 53 - 1) * 2 ^ 971

/-- A rounded result of an arithmetic operation, overflowing to an infinity when it is
beyond `math.MaxFloat64`. -/
def ofRat (q : ℚ) : F64 :=
  if maxFloat64 < q then pinf else if q < -maxFloat64 then ninf else fin q

/-- The float64 of an exact result: rounding to nearest, then the overflow test. -/
def round (q : ℚ) : F64 := ofRat (roundNearest q)

/-- A decimal floating-point literal of the source: the float64 nearest to it. -/
def lit (q : ℚ) : F64 := fin (roundNearest q)

instance : OfNat F64 0 := ⟨fin 0⟩

/-- The function `math.IsNaN`. -/
def isNaN : F64 → Bool
  | nan => true
  | _ => false

/-- The function `math.IsInf(x, 0)`. -/
def isInf : F64 → Bool
  | pinf => true
  | ninf => true
  | _ => false

/-- Go `x < y` on float64. -/
def lt : F64 → F64 → Bool
  | fin a, fin b => decide (a < b)
  | fin _, pinf => true
  | ninf, fin _ => true
  | ninf, pinf => true
  | _, _ => false

/-- Go `x > y` on float64. -/
def gt (x y : F64) : Bool := lt y x

/-- Go `x == y` on float64. -/
def eq : F64 → F64 → Bool
  | fin a, fin b => decide (a = b)
  | pinf, pinf => true
  | ninf, ninf => true
  | _, _ => false

/-- Go `x <= y` on float64. -/
def le (x y : F64) : Bool := lt x y || eq x y

/-- Go `x >= y` on float64. -/
def ge (x y : F64) : Bool := le y x

/-- Go `-x` on float64. -/
def neg : F64 → F64
  | fin a => fin (-a)
  | nan => nan
  | pinf => ninf
  | ninf => pinf

/-- Go `x + y` on float64. -/
def add : F64 → F64 → F64
  | fin a, fin b => round (a + b)
  | nan, _ => nan
  | _, nan => nan
  | pinf, ninf => nan
  | ninf, pinf => nan
  | pinf, _ => pinf
  | _, pinf => pinf
  | ninf, _ => ninf
  | _, ninf => ninf

/-- Go `x - y` on float64. -/
def sub (x y : F64) : F64 := add x (neg y)

/-- The sign of a product or quotient with an infinite operand. -/
def signed (positive : Bool) : F64 := if positive then pinf else ninf

/-- Go `x * y` on float64. -/
def mul : F64 → F64 → F64
  | fin a, fin b => round (a * b)
  | nan, _ => nan
  | _, nan => nan
  | fin a, pinf => if a = 0 then nan else signed (decide (0 < a))
  | fin a, ninf => if a = 0 then nan else signed (decide (a < 0))
  | pinf, fin b => if b = 0 then nan else signed (decide (0 < b))
  | ninf, fin b => if b = 0 then nan else signed (decide (b < 0))
  | pinf, pinf => pinf
  | ninf, ninf => pinf
  | pinf, ninf => ninf
  | ninf, pinf => ninf

/-- Go `x / y` on float64 (a zero divisor is taken as +0). -/
def div : F64 → F64 → F64
  | fin a, fin b =>
    if b = 0 then (if a = 0 then nan else signed (decide (0 < a))) else round (a / b)
  | nan, _ => nan
  | _, nan => nan
  | fin _, pinf => fin 0
  | fin _, ninf => fin 0
  | pinf, fin b => signed (decide (0 ≤ b))
  | ninf, fin b => signed (decide (b < 0))
  | pinf, pinf => nan
  | ninf, ninf => nan
  | pinf, ninf => nan
  | ninf, pinf => nan

/-- The conversion `float64(n)` of a Go `int`: the float64 nearest to `n`. -/
def ofInt (n : Int) : F64 := fin (roundNearest n)

/-- A value that is neither NaN nor an infinity. -/
def isFinite (x : F64) : Bool := !(x.isNaN || x.isInf)

end F64

/-! ## AutoEQData -/

/-- The type `AutoEQData`, a `map[int]float64`. -/
abbrev AutoEQData := AList (fun _ : Int => F64)

/-- Equality of two association lists is decided on their entries. -/
instance instDecidableEqAutoEQData : DecidableEq AutoEQData := fun a b =>
  decidable_of_iff (a.entries = b.entries) ⟨AList.ext, fun h => congrArg AList.entries h⟩

/-- The Go map index `m[k]`: the zero value when the key is absent. -/
def AutoEQData.get (m : AutoEQData) (k : Int) : F64 := (m.lookup k).getD 0

/-- The literal `1e-9`. -/
def eps : F64 := F64.lit (1 / 10 ^ 9)

/-! ## applyNoPreamp -/

/-- State of the first loop of `applyNoPreamp`: `outputEQ`, `maxGain`, `hasData`. -/
structure NoPreampScan where
  outputEQ : AutoEQData
  maxGain : F64
  hasData : Bool

/-- One iteration of the scan `for _, freq := range sortedFreqs` of `applyNoPreamp`. -/
def noPreampStep (inputEQ : AutoEQData) (st : NoPreampScan) (freq : Int) : NoPreampScan :=
  match inputEQ.lookup freq with
  | some gain0 =>
    let gain := if gain0.isNaN || gain0.isInf then (0 : F64) else gain0
    { outputEQ := st.outputEQ.insert freq gain
      maxGain := if F64.gt gain st.maxGain then gain else st.maxGain
      hasData := true }
  | none => st

/-- One iteration of the shift loop `for freq := range outputEQ` of `applyNoPreamp`. -/
def noPreampShift (shift : F64) (outputEQ : AutoEQData) (freq : Int) : AutoEQData :=
  let newValue := F64.sub (outputEQ.get freq) shift
  if newValue.isNaN || newValue.isInf then outputEQ.insert freq 0
  else outputEQ.insert freq newValue

/-- The state before the scan of `applyNoPreamp`: empty output, `maxGain = -math.MaxFloat64`,
`hasData = false`. -/
def scanInit : NoPreampScan :=
  { outputEQ := ∅, maxGain := F64.fin (-F64.maxFloat64), hasData := false }

/-- The function `applyNoPreamp`. -/
def applyNoPreamp (inputEQ : AutoEQData) (sortedFreqs : List Int) : AutoEQData :=
  let st := sortedFreqs.foldl (noPreampStep inputEQ) scanInit
  if !st.hasData then st.outputEQ
  else if st.maxGain.isNaN || st.maxGain.isInf then st.outputEQ
  else
    let shift := if F64.gt st.maxGain eps then st.maxGain else (0 : F64)
    st.outputEQ.keys.foldl (noPreampShift shift) st.outputEQ

/-- The gain the scan of `applyNoPreamp` stores: NaN and infinities become 0. -/
def sanitize (g : F64) : F64 := if g.isNaN || g.isInf then (0 : F64) else g

/-- The value the shift loop of `applyNoPreamp` stores for an entry `v`. -/
def shifted (shift v : F64) : F64 :=
  if (F64.sub v shift).isNaN || (F64.sub v shift).isInf then (0 : F64) else F64.sub v shift

/-- Invariant of the scan of `applyNoPreamp`: `maxGain` is finite and bounds every stored gain. -/
def ScanInv (st : NoPreampScan) : Prop :=
  ∃ m, st.maxGain = F64.fin m ∧
    ∀ k v, st.outputEQ.lookup k = some v → ∃ q, v = F64.fin q ∧ q ≤ m


/-! ## Strings: the functions of package `strings` the parser uses

A Go `string` is modelled as a `List Char`. -/

/-- The string type of the model. -/
abbrev Str := List Char

/-- The predicate `unicode.IsSpace`. -/
def isSpace (c : Char) : Bool :=
  let n := c.toNat
  (9 ≤ n && n ≤ 13) || n = 32 || n = 0x85 || n = 0xA0 || n = 0x1680 ||
    (0x2000 ≤ n && n ≤ 0x200A) || n = 0x2028 || n = 0x2029 || n = 0x202F ||
    n = 0x205F || n = 0x3000

/-- The function `strings.TrimSpace`. -/
def trimSpace (s : Str) : Str :=
  ((s.dropWhile isSpace).reverse.dropWhile isSpace).reverse

/-- Helper of `fields`: `cur` is the field being read, reversed. -/
def fieldsAux : Str → Str → List Str
  | [], cur => if cur = [] then [] else [cur.reverse]
  | c :: cs, cur =>
    if isSpace c then
      (if cur = [] then fieldsAux cs [] else cur.reverse :: fieldsAux cs [])
    else fieldsAux cs (c :: cur)

/-- The function `strings.Fields`: the maximal runs of non-space characters. -/
def fields (s : Str) : List Str := fieldsAux s []

/-- The function `strings.HasPrefix`. -/
def hasPrefix (s p : Str) : Bool := p.isPrefixOf s

/-- The function `strings.TrimPrefix`. -/
def trimPrefix (s p : Str) : Str := if hasPrefix s p then s.drop p.length else s

/-- The call `strings.ReplaceAll(s, "\r\n", "\n")`. -/
def replaceCRLF : Str → Str
  | [] => []
  | [c] => [c]
  | c :: d :: rest =>
    if c = '\r' ∧ d = '\n' then '\n' :: replaceCRLF rest else c :: replaceCRLF (d :: rest)

/-- The call `strings.Split(s, sep)` for a one-character separator. -/
def split (s : Str) (sep : Char) : List Str := s.splitOn sep

/-- The function `strings.Join`. -/
def join (parts : List Str) (sep : Str) : Str := sep.intercalate parts

/-! ## Numbers: `strconv.Atoi`, `strconv.ParseFloat`, and the verbs `%d`, `%.1f` -/

/-- An ASCII decimal digit. -/
def isDigit (c : Char) : Bool := 48 ≤ c.toNat && c.toNat ≤ 57

/-- An ASCII hexadecimal digit. -/
def isHexDigit (c : Char) : Bool :=
  isDigit c || (97 ≤ c.toNat && c.toNat ≤ 102) || (65 ≤ c.toNat && c.toNat ≤ 70)

/-- The value of a decimal or hexadecimal digit. -/
def digitVal (c : Char) : Nat :=
  if isDigit c then c.toNat - 48
  else if 97 ≤ c.toNat then c.toNat - 87
  else c.toNat - 55

/-- The number a string of digits denotes in the given base. -/
def digitsToNat (base : Nat) (ds : Str) : Nat :=
  ds.foldl (fun acc c => acc * base + digitVal c) 0

/-- The function `strconv.Atoi` on a 64-bit platform; `none` stands for a non-nil error
(syntax or range). -/
def atoi (s : Str) : Option Int :=
  let neg := s.head? = some '-'
  let ds := if s.head? = some '-' ∨ s.head? = some '+' then s.tail else s
  if ds = [] ∨ ¬ ds.all isDigit then none
  else
    let v : Int := if neg then -(digitsToNat 10 ds : Int) else (digitsToNat 10 ds : Int)
    if v < -2 ^ 63 ∨ 2 ^ 63 - 1 < v then none else some v

/-- ASCII lower-casing, as `strconv` does before comparing letters. -/
def lower (c : Char) : Char :=
  if 65 ≤ c.toNat ∧ c.toNat ≤ 90 then Char.ofNat (c.toNat + 32) else c

/-- The function `special` of `strconv`: the spellings of infinity and NaN. -/
def special (s : Str) : Option F64 :=
  let l := s.map lower
  if l = "inf".toList ∨ l = "infinity".toList ∨ l = "+inf".toList ∨ l = "+infinity".toList then
    some F64.pinf
  else if l = "-inf".toList ∨ l = "-infinity".toList then some F64.ninf
  else if l = "nan".toList then some F64.nan
  else none

/-- The function `underscoreOK` of `strconv` after the optional sign and base prefix:
`saw` is the class of the previous character (`0` digit, `_` underscore, `!` other). -/
def underscoreScan (hex : Bool) : Char → Str → Bool
  | saw, [] => saw ≠ '_'
  | saw, c :: cs =>
    if isDigit c || (hex && isHexDigit c) then underscoreScan hex '0' cs
    else if c = '_' then (if saw ≠ '0' then false else underscoreScan hex '_' cs)
    else if saw = '_' then false
    else underscoreScan hex '!' cs

/-- The function `underscoreOK` of `strconv`: underscores only between digits, or between
a base prefix and a digit. -/
def underscoreOK (s : Str) : Bool :=
  match (if s.head? = some '-' ∨ s.head? = some '+' then s.tail else s) with
  | '0' :: b :: rest =>
    if lower b = 'b' ∨ lower b = 'o' ∨ lower b = 'x' then
      underscoreScan (lower b = 'x') '0' rest
    else underscoreScan false '^' ('0' :: b :: rest)
  | s1 => underscoreScan false '^' s1

/-- The exponent part read by `readFloat` of `strconv`: `none` is a syntax error, the
accumulated exponent stops growing at 10000. -/
def readExp (hex : Bool) (r : Str) : Option Int :=
  match r with
  | [] => if hex then none else some 0
  | c :: rest =>
    if lower c = (if hex then 'p' else 'e') then
      let neg := rest.head? = some '-'
      let ds := if rest.head? = some '-' ∨ rest.head? = some '+' then rest.tail else rest
      if ds = [] ∨ ¬ ds.all isDigit then none
      else
        let e := ds.foldl (fun e d => if e < 10000 then e * 10 + digitVal d else e) 0
        some (if neg then -(e : Int) else (e : Int))
    else none

/-- The test of `readFloat` for a `0x` prefix with at least one character after it. -/
def hasHexPrefix : Str → Bool
  | '0' :: x :: _ :: _ => lower x = 'x'
  | _ => false

/-- The digits `readFloat` reads after the point, if there is one. -/
def fracDigits (isDig : Char → Bool) : Str → Str
  | '.' :: r => r.takeWhile isDig
  | _ => []

/-- What `readFloat` has left to read after the mantissa. -/
def afterMantissa (isDig : Char → Bool) : Str → Str
  | '.' :: r => r.dropWhile isDig
  | r1 => r1

/-- The function `readFloat` of `strconv` followed by the conversion, for a string without
underscores: sign, decimal or `0x` hexadecimal mantissa with an optional point, exponent
(required for hexadecimal).  The value is rounded to the nearest float64; a rounded value
beyond `math.MaxFloat64` is a range error. -/
def readFloat (s : Str) : Option F64 :=
  let neg := s.head? = some '-'
  let s1 := if s.head? = some '-' ∨ s.head? = some '+' then s.tail else s
  let hex := hasHexPrefix s1
  let s2 := if hex then s1.drop 2 else s1
  let isDig := if hex then isHexDigit else isDigit
  let ip := s2.takeWhile isDig
  let fp := fracDigits isDig (s2.dropWhile isDig)
  let r2 := afterMantissa isDig (s2.dropWhile isDig)
  if ip = [] ∧ fp = [] then none
  else
    match readExp hex r2 with
    | none => none
    | some e =>
      let m := digitsToNat (if hex then 16 else 10) (ip ++ fp)
      let v := if hex then scale m 2 (e - 4 * fp.length) else scale m 10 (e - fp.length)
      if F64.maxFloat64 < roundNearest v then none
      else some (F64.fin (if neg then -roundNearest v else roundNearest v))

/-- The function `strconv.ParseFloat(s, 64)`; `none` stands for a non-nil error (syntax
or range).  Underscores are accepted where `underscoreOK` allows them. -/
def parseFloat (s : Str) : Option F64 :=
  match special s with
  | some v => some v
  | none =>
    if s.contains '_' then
      (if underscoreOK s then readFloat (s.filter (fun c => c ≠ '_')) else none)
    else readFloat s

/-- The decimal digits of a natural number, as `%d` prints them. -/
def natToStr (n : Nat) : Str := Nat.toDigits 10 n

/-- The verb `%d` of `fmt.Sprintf` on an `int`. -/
def fmtInt (n : Int) : Str :=
  if n < 0 then '-' :: natToStr n.natAbs else natToStr n.toNat

/-- The verb `%.1f` of `fmt.Sprintf` on a `float64`: sign, integer digits, a point and one
fractional digit, rounded to nearest with ties to even. -/
def fmtF1 : F64 → Str
  | F64.fin q =>
    let t := roundHalfEven (|q| * 10)
    let body := natToStr (t / 10) ++ '.' :: natToStr (t % 10)
    if q < 0 then '-' :: body else body
  | F64.nan => "NaN".toList
  | F64.pinf => "+Inf".toList
  | F64.ninf => "-Inf".toList

/-- The float64 `strconv.ParseFloat` returns for the text `%.1f` prints for a gain: the
float64 nearest to the gain rounded to one decimal place, ties to even. -/
def round1 : F64 → F64
  | F64.fin q =>
    if q < 0 then F64.fin (-roundNearest ((roundHalfEven (|q| * 10) : ℚ) / 10))
    else F64.fin (roundNearest ((roundHalfEven (|q| * 10) : ℚ) / 10))
  | x => x

/-- A finite value within the float64 range (every value a Go program can hold). -/
def F64.Valid : F64 → Prop
  | F64.fin q => |q| ≤ F64.maxFloat64
  | _ => True

/-! ## parseAutoEQ -/

/-- The errors `parseAutoEQ` returns. -/
inductive ParseError where
  /-- The error `line %d: GraphicEQ 라인에서 유효한 포인트를 찾을 수 없음: '%s'`. -/
  | noValidPointOnLine (lineNum : Nat) (line : Str)
  /-- The error `'GraphicEQ:' 라인을 찾을 수 없음`. -/
  | markerNotFound
  /-- The error `파싱된 유효한 EQ 데이터 포인트가 없음`. -/
  | noDataPoints
  deriving DecidableEq

instance instDecidableEqExcept {ε α : Type} [DecidableEq ε] [DecidableEq α] :
    DecidableEq (Except ε α) := fun a b =>
  match a, b with
  | Except.ok x, Except.ok y =>
    if h : x = y then isTrue (congrArg Except.ok h)
    else isFalse (fun h2 => h (Except.ok.inj h2))
  | Except.error x, Except.error y =>
    if h : x = y then isTrue (congrArg Except.error h)
    else isFalse (fun h2 => h (Except.error.inj h2))
  | Except.ok _, Except.error _ => isFalse (fun h => Except.noConfusion h)
  | Except.error _, Except.ok _ => isFalse (fun h => Except.noConfusion h)

/-- The marker `GraphicEQ:`. -/
def marker : Str := "GraphicEQ:".toList

/-- The body of the loop over `points` in `parseAutoEQ` for one token: the accepted
`(freq, gain)`, or `none` when the iteration ends in `continue`. -/
def parsePoint (point : Str) : Option (Int × F64) :=
  let point := trimSpace point
  if point = [] then none
  else
    let parts := fields point
    if parts.length ≠ 2 then none
    else
      match atoi (parts.getD 0 []), parseFloat (parts.getD 1 []) with
      | some freq, some gain =>
        if gain.isNaN || gain.isInf then none
        else if freq ≤ 0 ∨ freq > 30000 then none
        else some (freq, gain)
      | _, _ => none

/-- State of the loop over `points` in `parseAutoEQ`: `data` and `pointCount`. -/
structure PointsScan where
  data : AutoEQData
  pointCount : Nat

/-- One iteration of the loop over `points` in `parseAutoEQ`. -/
def pointStep (st : PointsScan) (point : Str) : PointsScan :=
  match parsePoint point with
  | some (freq, gain) => { data := st.data.insert freq gain, pointCount := st.pointCount + 1 }
  | none => st

/-- The loop over `lines` in `parseAutoEQ`; `lineNum` is the number of lines already read.
The result is an error (the early return), `none` when the loop ends with
`graphicEqFound = false`, or `some data` after the `break` on the first marker line. -/
def parseLines : List Str → Nat → Except ParseError (Option AutoEQData)
  | [], _ => Except.ok none
  | raw :: rest, lineNum =>
    let line := trimSpace raw
    if line = [] ∨ hasPrefix line "#".toList ∨ hasPrefix line "//".toList then
      parseLines rest (lineNum + 1)
    else if hasPrefix line marker then
      let pointsStr := trimSpace (trimPrefix line marker)
      let points := split pointsStr ';'
      let st := points.foldl pointStep { data := ∅, pointCount := 0 }
      if st.pointCount = 0 ∧ points.length > 0 ∧ trimSpace (points.getD 0 []) ≠ [] then
        Except.error (ParseError.noValidPointOnLine (lineNum + 1) line)
      else Except.ok (some st.data)
    else parseLines rest (lineNum + 1)

/-- The function `parseAutoEQ`. -/
def parseAutoEQ (content : Str) : Except ParseError AutoEQData :=
  let lines := split (replaceCRLF content) '\n'
  match parseLines lines 0 with
  | Except.error e => Except.error e
  | Except.ok none => Except.error ParseError.markerNotFound
  | Except.ok (some data) =>
    if data.keys.length = 0 then Except.error ParseError.noDataPoints
    else Except.ok data

/-! ## formatEQString -/

/-- The text `fmt.Sprintf("%d %.1f", freq, gain)` of one point. -/
def fmtPoint (freq : Int) (gain : F64) : Str := fmtInt freq ++ ' ' :: fmtF1 gain

/-- The slice `eqPoints` built by the loop of `formatEQString`. -/
def eqPoints (eqData : AutoEQData) (sortedFreqs : List Int) : List Str :=
  sortedFreqs.filterMap fun freq =>
    match eqData.lookup freq with
    | some gain => some (fmtPoint freq (if gain.isNaN || gain.isInf then (0 : F64) else gain))
    | none => none

/-- The function `formatEQString`. -/
def formatEQString (eqData : AutoEQData) (sortedFreqs : List Int) : Str :=
  if (eqPoints eqData sortedFreqs).length > 0 then
    "GraphicEQ: ".toList ++ join (eqPoints eqData sortedFreqs) "; ".toList
  else "GraphicEQ: (No valid points)".toList

/-! ## The merge of `handleConvert` -/

/-- The key set `allFreqsMap` of `handleConvert`: the keys of both curves, each once. -/
def allFreqsMap (sourceHarmanData harmanToVdsfEQ : AutoEQData) : List Int :=
  (sourceHarmanData.keys ++ harmanToVdsfEQ.keys).dedup

/-- The slice `allFreqs` of `handleConvert` after `sort.Ints`. -/
def allFreqs (sourceHarmanData harmanToVdsfEQ : AutoEQData) : List Int :=
  (allFreqsMap sourceHarmanData harmanToVdsfEQ).insertionSort (· ≤ ·)

/-- The curve `calculated_S_to_V_EQ` of `handleConvert`. -/
def mergeEQ (sourceHarmanData harmanToVdsfEQ : AutoEQData) : AutoEQData :=
  (allFreqs sourceHarmanData harmanToVdsfEQ).foldl
    (fun calculated freq =>
      calculated.insert freq (F64.add (sourceHarmanData.get freq) (harmanToVdsfEQ.get freq)))
    ∅

/-- The copy loop `for freq, gain := range m { out[freq] = gain }`. -/
def copyEQ (m : AutoEQData) : AutoEQData :=
  m.entries.foldl (fun out e => out.insert e.1 e.2) ∅

/-! ## applyX2EQ -/

/-- The type `eqPoint`. -/
structure eqPoint where
  Freq : Int
  Gain : F64
  deriving DecidableEq

/-- The loop `for i := 0; i < len(x2EQ)-1; i++` of `applyX2EQ` over the adjacent pairs of
the overlay: the value of `x2GainToAdd` when the loop ends (0 without a `break`).
`log10` stands for `math.Log10`. -/
def x2Scan (log10 : F64 → F64) (targetFreq : Int) : List eqPoint → F64
  | lowerPoint :: upperPoint :: rest =>
    if targetFreq = lowerPoint.Freq then lowerPoint.Gain
    else if targetFreq = upperPoint.Freq then upperPoint.Gain
    else if targetFreq > lowerPoint.Freq ∧ targetFreq < upperPoint.Freq then
      let logTarget := log10 (F64.ofInt targetFreq)
      let logLower := log10 (F64.ofInt lowerPoint.Freq)
      let logUpper := log10 (F64.ofInt upperPoint.Freq)
      if F64.lt (F64.sub logUpper logLower) eps then lowerPoint.Gain
      else
        let proportion := F64.div (F64.sub logTarget logLower) (F64.sub logUpper logLower)
        F64.add lowerPoint.Gain (F64.mul proportion (F64.sub upperPoint.Gain lowerPoint.Gain))
    else x2Scan log10 targetFreq (upperPoint :: rest)
  | _ => 0

/-- The value `x2GainToAdd` that `applyX2EQ` computes for `targetFreq` (0 for an empty
overlay, which `applyX2EQ` never evaluates). -/
def x2GainToAdd (log10 : F64 → F64) (x2EQ : List eqPoint) (targetFreq : Int) : F64 :=
  match x2EQ.head?, x2EQ.getLast? with
  | some first, some last =>
    if targetFreq < first.Freq then first.Gain
    else if targetFreq > last.Freq then last.Gain
    else
      let g := x2Scan log10 targetFreq x2EQ
      if F64.eq g 0 ∧ targetFreq = last.Freq then last.Gain else g
  | _, _ => 0

/-- One iteration of the loop over `allFreqs` in `applyX2EQ`. -/
def x2Step (log10 : F64 → F64) (x2EQ : List eqPoint) (resultEQ : AutoEQData)
    (targetFreq : Int) : AutoEQData :=
  match resultEQ.lookup targetFreq with
  | some baseGain =>
    let newGain := F64.add baseGain (x2GainToAdd log10 x2EQ targetFreq)
    if newGain.isNaN || newGain.isInf then resultEQ else resultEQ.insert targetFreq newGain
  | none => resultEQ

/-- The function `applyX2EQ`; `log10` stands for `math.Log10`. -/
def applyX2EQ (log10 : F64 → F64) (baseEQ : AutoEQData) (x2EQ : List eqPoint)
    (allFreqs : List Int) : AutoEQData :=
  if x2EQ.length = 0 then copyEQ baseEQ
  else allFreqs.foldl (x2Step log10 x2EQ) (copyEQ baseEQ)

/-! ## applyMovingAverageSmoothing -/

/-- The search for `startIndex`: the first position whose frequency is at least
`startFreq`, or `none` for -1. -/
def findStartIndex (sortedFreqs : List Int) (startFreq : F64) : Option Nat :=
  let i := sortedFreqs.findIdx (fun freq => F64.ge (F64.ofInt freq) startFreq)
  if i < sortedFreqs.length then some i else none

/-- The inner loop `for j := i - halfWindow; j <= i+halfWindow; j++`: `sum` and `count`
over the finite gains of the window; `j` is `i - halfWindow + k` for `k` from 0 to
`2 * halfWindow`. -/
def windowSum (tempGains : List F64) (i halfWindow : Nat) : F64 × Nat :=
  (List.range (2 * halfWindow + 1)).foldl
    (fun (acc : F64 × Nat) k =>
      let j : Int := (i : Int) - halfWindow + k
      if 0 ≤ j ∧ j < tempGains.length then
        (if !(tempGains.getD j.toNat 0).isNaN && !(tempGains.getD j.toNat 0).isInf then
          (F64.add acc.1 (tempGains.getD j.toNat 0), acc.2 + 1)
        else acc)
      else acc)
    (0, 0)

/-- One iteration of the loop over `i` in `applyMovingAverageSmoothing`. -/
def smoothStep (tempGains : List F64) (halfWindow : Nat) (smoothedOutputGains : List F64)
    (i : Nat) : List F64 :=
  let sc := windowSum tempGains i halfWindow
  if sc.2 > 0 then
    let avg := F64.div sc.1 (F64.ofInt sc.2)
    if !avg.isNaN && !avg.isInf then smoothedOutputGains.set i avg else smoothedOutputGains
  else smoothedOutputGains

/-- The function `applyMovingAverageSmoothing`. -/
def applyMovingAverageSmoothing (inputEQ : AutoEQData) (sortedFreqs : List Int)
    (windowSize : Int) (startFreq : F64) : AutoEQData :=
  let outputEQ := copyEQ inputEQ
  if windowSize ≤ 1 ∨ windowSize % 2 = 0 then outputEQ
  else if (sortedFreqs.length : Int) < windowSize then outputEQ
  else
    let halfWindow := (windowSize / 2).toNat
    match findStartIndex sortedFreqs startFreq with
    | none => outputEQ
    | some startIndex =>
      if ((sortedFreqs.length : Int) - startIndex) < windowSize then outputEQ
      else
        let tempGains := sortedFreqs.map (fun freq => inputEQ.get freq)
        let smoothedOutputGains :=
          (List.range' (startIndex + halfWindow)
            (sortedFreqs.length - halfWindow - (startIndex + halfWindow))).foldl
            (smoothStep tempGains halfWindow) tempGains
        (sortedFreqs.zip smoothedOutputGains).foldl
          (fun out p => out.insert p.1 p.2) outputEQ

/-! ## The constants and the pipeline of `handleConvert` -/

/-- The text of the constant `harmanToVdsfEQ`. -/
def harmanToVdsfText : Str :=
  "\nGraphicEQ: 20 -0.7; 21 -0.8; 22 -0.9; 23 -1.0; 24 -1.1; 26 -1.2; 27 -1.3; 29 -1.3; 30 -1.4; 32 -1.4; 34 -1.4; 36 -1.3; 38 -1.2; 40 -1.1; 43 -1.0; 45 -0.9; 48 -0.8; 50 -0.7; 53 -0.6; 56 -0.3; 59 -0.2; 63 -0.0; 66 0.2; 70 0.3; 74 0.5; 78 0.8; 83 1.0; 87 1.2; 92 1.4; 97 1.7; 103 1.9; 109 2.3; 115 2.6; 121 2.7; 128 3.0; 136 3.3; 143 3.5; 151 3.7; 160 3.8; 169 4.0; 178 4.0; 188 4.1; 199 4.1; 210 4.2; 222 4.3; 235 4.4; 248 4.5; 262 4.6; 277 4.7; 292 4.7; 309 4.8; 326 4.7; 345 4.7; 364 4.7; 385 4.7; 406 4.7; 429 4.7; 453 4.7; 479 4.8; 506 4.9; 534 4.9; 565 5.0; 596 5.0; 630 5.0; 665 5.1; 703 5.0; 743 5.0; 784 4.9; 829 4.8; 875 4.7; 924 4.6; 977 4.6; 1032 4.5; 1090 4.3; 1151 4.3; 1216 4.2; 1284 4.1; 1357 4.1; 1433 4.0; 1514 3.9; 1599 3.9; 1689 3.9; 1784 3.8; 1885 3.7; 1991 3.7; 2103 3.6; 2221 3.5; 2347 3.5; 2479 3.4; 2618 3.4; 2766 3.2; 2921 3.2; 3086 3.0; 3260 2.9; 3443 2.7; 3637 2.4; 3842 2.2; 4058 1.9; 4287 1.7; 4528 1.4; 4783 1.0; 5052 0.8; 5337 0.5; 5637 0.2; 5955 0.0; 6290 -0.1; 6644 -0.2; 7018 0.0; 7414 0.1; 7831 0.5; 8272 1.2; 8738 2.7; 9230 4.2; 9749 5.4; 10298 5.3; 10878 4.4; 11490 4.0; 12137 4.2; 12821 4.7; 13543 5.3; 14305 5.5; 15110 5.1; 15961 4.6; 16860 4.2; 17809 4.0; 18812 3.9; 19871 3.9\n".toList

/-- The function `parseConstantEQ`; `none` stands for the `log.Fatalf` exit. -/
def parseConstantEQ (content : Str) : Option AutoEQData :=
  match parseAutoEQ content with
  | Except.ok data => some data
  | Except.error _ => none

/-- The constant `harmanToVdsfEQ` (the empty map if the process had exited). -/
def harmanToVdsfEQ : AutoEQData := (parseConstantEQ harmanToVdsfText).getD ∅

/-- The constant `x2EQPoints`, after its `sort.Slice` by frequency. -/
def x2EQPoints : List eqPoint :=
  List.insertionSort (fun a b => a.Freq ≤ b.Freq)
    [⟨62, F64.lit (16 / 10)⟩, ⟨125, F64.lit (4 / 10)⟩, ⟨250, F64.lit (-6 / 10)⟩,
     ⟨500, F64.lit 0⟩, ⟨1000, F64.lit (-4 / 10)⟩, ⟨2000, F64.lit (-7 / 10)⟩,
     ⟨4000, F64.lit (-5 / 10)⟩, ⟨8000, F64.lit (-1 / 10)⟩, ⟨16000, F64.lit (3 / 10)⟩]

/-- The constant `smoothStartFreq`. -/
def smoothStartFreq : F64 := F64.fin 8000

/-- The constant `movingAverageWindow`. -/
def movingAverageWindow : Int := 5

/-- The calculation of `handleConvert` on a parsed input curve: the texts `result1Str` and
`result2Str`.  `log10` stands for `math.Log10`. -/
def handleConvert (log10 : F64 → F64) (sourceHarmanData : AutoEQData) : Str × Str :=
  let calculated := mergeEQ sourceHarmanData harmanToVdsfEQ
  let axis := allFreqs sourceHarmanData harmanToVdsfEQ
  let smoothed :=
    applyMovingAverageSmoothing calculated axis movingAverageWindow smoothStartFreq
  let result1EQ := applyNoPreamp smoothed axis
  let withX2 := applyX2EQ log10 smoothed x2EQPoints axis
  let smoothed2 := applyMovingAverageSmoothing withX2 axis movingAverageWindow smoothStartFreq
  let result2EQ := applyNoPreamp smoothed2 axis
  (formatEQString result1EQ axis, formatEQString result2EQ axis)

/-! ## Auxiliary notions used in the proofs -/

/-- A string with no leading and no trailing white space. -/
def Trimmed (s : Str) : Prop :=
  s = [] ∨ ((∃ c rest, s = c :: rest ∧ isSpace c = false) ∧
    ∃ init c, s = init ++ [c] ∧ isSpace c = false)

/-- The list of strings with `ws` appended to its last element. -/
def appendLast : List Str → Str → List Str
  | [], ws => [ws]
  | [x], ws => [x ++ ws]
  | x :: y :: r, ws => x :: appendLast (y :: r) ws

/-- The pairs the loop over `points` of `parseAutoEQ` accepts, in order. -/
def acceptedPoints (points : List Str) : List (Int × F64) := points.filterMap parsePoint

/-- The map obtained by storing the pairs in order (a later pair overwrites an earlier
one with the same frequency). -/
def buildData (xs : List (Int × F64)) : AutoEQData :=
  xs.foldl (fun d p => d.insert p.1 p.2) ∅

/-- The first line that, once trimmed, starts with the marker `GraphicEQ:`. -/
def firstMarkerLine (lines : List Str) : Option Str :=
  (lines.map trimSpace).find? (fun l => hasPrefix l marker)

/-- The number (from 1) of the first marker line. -/
def markerLineNum (lines : List Str) : Nat :=
  (lines.map trimSpace).findIdx (fun l => hasPrefix l marker) + 1

/-- The point tokens of a (trimmed) marker line. -/
def linePoints (line : Str) : List Str := split (trimSpace (trimPrefix line marker)) ';'

/-- The lines `parseAutoEQ` reads. -/
def contentLines (content : Str) : List Str := split (replaceCRLF content) '\n'

/-- A token the parser accepts, in the words of the specification: exactly two
whitespace-separated fields, an integer frequency in 1..30000 and a finite gain. -/
def AcceptedToken (tok : Str) : Prop :=
  ∃ a b f g, fields tok = [a, b] ∧ atoi a = some f ∧ parseFloat b = some g ∧
    (1 ≤ f ∧ f ≤ 30000) ∧ g.isFinite = true

/-- A malformed token, in the words of the specification: empty, not exactly two
whitespace-separated fields, or a field that fails numeric parsing. -/
def malformed (tok : Str) : Bool :=
  decide (trimSpace tok = []) || decide ((fields tok).length ≠ 2) ||
    (atoi ((fields tok).getD 0 [])).isNone || (parseFloat ((fields tok).getD 1 [])).isNone

/-- The text of a marker line with the given point tokens. -/
def markerLine (toks : List Str) : Str := marker ++ [';'].intercalate toks

/-- The value `applyX2EQ` stores for a base gain and an overlay value: the sum, or the base
gain itself when the sum is NaN or infinite. -/
def x2Add (x2Gain baseGain : F64) : F64 :=
  if (F64.add baseGain x2Gain).isNaN || (F64.add baseGain x2Gain).isInf then baseGain
  else F64.add baseGain x2Gain

/-- The items of the serialised text, in the words of the specification: for each axis
frequency present in the curve, in axis order, the frequency, a blank and the gain to one
decimal place (a NaN or infinite gain as 0). -/
def formatItems (eqData : AutoEQData) (sortedFreqs : List Int) : List Str :=
  (sortedFreqs.filter (fun f => decide (f ∈ eqData))).map
    (fun f => fmtInt f ++ " ".toList ++ fmtF1 (sanitize (eqData.get f)))

/-- The value the loop over `i` of `applyMovingAverageSmoothing` leaves at index `i`, where
`cur` is the value found there: the average `sum / float64(count)` of the finite gains of
the window if there is one and it is finite, else `cur`. -/
def smoothValue (tempGains : List F64) (halfWindow i : Nat) (cur : F64) : F64 :=
  if (windowSum tempGains i halfWindow).2 > 0 then
    (if !(F64.div (windowSum tempGains i halfWindow).1
          (F64.ofInt (windowSum tempGains i halfWindow).2)).isNaN &&
        !(F64.div (windowSum tempGains i halfWindow).1
          (F64.ofInt (windowSum tempGains i halfWindow).2)).isInf then
      F64.div (windowSum tempGains i halfWindow).1
        (F64.ofInt (windowSum tempGains i halfWindow).2)
    else cur)
  else cur

/-- The running float64 sum `sum += q` over a list of finite gains, from `a`. -/
def sumF (qs : List ℚ) (a : F64) : F64 := qs.foldl (fun acc q => F64.add acc (F64.fin q)) a

/-- The original gains of the window centred at index `i`, as rationals: `q` gives the
gain at each axis index. -/
def windowGains (q : Nat → ℚ) (i halfWindow : Nat) : List ℚ :=
  (List.range (2 * halfWindow + 1)).map (fun k => q (i - halfWindow + k))

/-! ## Concrete inputs -/

/-- The curve of the minimal-input scenario, `GraphicEQ: 100 3.0; 1000 3.0`. -/
def curveMinimal : AutoEQData :=
  AList.insert 100 (F64.fin 3) (AList.insert 1000 (F64.fin 3) ∅)


/-- A curve with one entry, at 100 Hz. -/
def curve100 : AutoEQData := AList.insert 100 (F64.fin (5 / 4)) ∅

/-- A curve with one entry, at 200 Hz. -/
def curve200 : AutoEQData := AList.insert 200 (F64.fin 1) ∅

/-- The single-point overlay of the extrapolation scenario, (1000 Hz, 2.0 dB). -/
def overlaySingle : List eqPoint := [⟨1000, F64.fin 2⟩]

/-- An overlay sorted ascending by frequency in which two control points share 100 Hz. -/
def overlayTie : List eqPoint := [⟨100, F64.fin 1⟩, ⟨100, F64.fin 2⟩]

/-- A base curve with entries at 50 Hz and 5000 Hz. -/
def curveEdges : AutoEQData := AList.insert 50 (F64.fin 1) (AList.insert 5000 (F64.fin 3) ∅)

/-- A five-point curve on the axis 1..5 Hz. -/
def curveFive : AutoEQData :=
  AList.insert 1 (F64.fin 1) (AList.insert 2 (F64.fin 2) (AList.insert 3 (F64.fin 6)
    (AList.insert 4 (F64.fin 4) (AList.insert 5 (F64.fin 7) ∅))))

/-- A map with one entry whose key, 40000, is above the frequency range of the parser. -/
def curve40000 : AutoEQData := AList.insert 40000 (F64.fin 1) ∅

/-- A three-point curve with two gains equal to `math.MaxFloat64`. -/
def curveHuge : AutoEQData :=
  AList.insert 1 (F64.fin F64.maxFloat64) (AList.insert 2 (F64.fin 0)
    (AList.insert 3 (F64.fin F64.maxFloat64) ∅))

/-- A stand-in for `math.Log10` on the frequencies of the examples: the number of decimal
digits minus one, which is the decimal logarithm at 1, 10, 100, 1000 and 10000 (NaN on
a negative argument, `-Inf` at 0). -/
def log10Digits : F64 → F64
  | F64.fin q =>
    if q < 0 then F64.nan
    else if q = 0 then F64.ninf
    else if q < 10 then F64.fin 0
    else if q < 100 then F64.fin 1
    else if q < 1000 then F64.fin 2
    else if q < 10000 then F64.fin 3
    else F64.fin 4
  | F64.pinf => F64.pinf
  | _ => F64.nan

/-- An overlay with control points at 10 Hz and 1000 Hz. -/
def overlayDecade : List eqPoint := [⟨10, F64.fin 1⟩, ⟨1000, F64.fin 5⟩]

/-- A base curve with one entry at 100 Hz. -/
def curveMid : AutoEQData := AList.insert 100 (F64.fin 1) ∅

/-- A curve whose only gain, 2^-40, is positive and below 1e-9. -/
def curveTiny : AutoEQData := AList.insert 100 (F64.fin (1 / 2 ^ 40)) ∅

/-- A curve holding `math.MaxFloat64` and `-math.MaxFloat64`. -/
def curveExtremes : AutoEQData :=
  AList.insert 1 (F64.fin F64.maxFloat64) (AList.insert 2 (F64.fin (-F64.maxFloat64)) ∅)

/-- An overlay whose two gains are `-math.MaxFloat64` and `math.MaxFloat64`. -/
def overlayExtremes : List eqPoint :=
  [⟨10, F64.fin (-F64.maxFloat64)⟩, ⟨1000, F64.fin F64.maxFloat64⟩]

/-- The float64 value of the literal `0.1`: 3602879701896397 / 2^55. -/
def tenth : ℚ := 3602879701896397 / 2 ^ 55

/-- The gains of `curveFive` by axis index. -/
def curveFiveGain (j : Nat) : ℚ :=
  if j = 0 then 1 else if j = 1 then 2 else if j = 2 then 6 else if j = 3 then 4 else 7

/-- A curve holding 1.0 and `-math.MaxFloat64`. -/
def curveOneAndLowest : AutoEQData :=
  AList.insert 1 (F64.fin 1) (AList.insert 2 (F64.fin (-F64.maxFloat64)) ∅)

/-- A three-point curve whose gains are all the float64 `0.1`. -/
def curveTenths : AutoEQData :=
  AList.insert 1 (F64.fin tenth) (AList.insert 2 (F64.fin tenth)
    (AList.insert 3 (F64.fin tenth) ∅))

/-- An overlay whose upper frequency `2 ^ 53 + 1` is not a float64. -/
def overlayWide : List eqPoint := [⟨1, F64.fin (-1)⟩, ⟨2 ^ 53 + 1, F64.fin (3 / 2 ^ 54)⟩]

/-- A curve with the single gain 0.75, at 100 Hz. -/
def curve075 : AutoEQData := AList.insert 100 (F64.fin (3 / 4)) ∅

/-! # Theorems -/

/-! ## Lemmas: maps -/

theorem AutoEQData.lookup_insert_eq (m : AutoEQData) (k k2 : Int) (v : F64) :
    (m.insert k v).lookup k2 = if k2 = k then some v else m.lookup k2 := by
  by_cases h : k2 = k
  · subst h; simp
  · simp [h, AList.lookup_insert_ne h]

theorem AutoEQData.mem_iff_lookup (m : AutoEQData) (k : Int) :
    k ∈ m ↔ ∃ v, m.lookup k = some v := by
  rw [← AList.lookup_isSome, Option.isSome_iff_exists]

/-! ## Lemmas: rounding to the nearest float64 -/

theorem floor_toNat_bounds (r : ℚ) (h0 : 0 ≤ r) :
    ((r.floor.toNat : Nat) : ℚ) ≤ r ∧ r < ((r.floor.toNat : Nat) : ℚ) + 1 := by
  have h1 : (0 : Int) ≤ r.floor := Rat.le_floor.2 (by simpa using h0)
  have h2 : ((r.floor.toNat : Nat) : Int) = r.floor := Int.toNat_of_nonneg h1
  have h3 : ((r.floor.toNat : Nat) : ℚ) = ((r.floor : Int) : ℚ) := by
    have h5 := congrArg (Int.cast : Int → ℚ) h2
    rw [Int.cast_natCast] at h5
    exact h5
  rw [h3]
  constructor
  · exact Rat.le_floor.1 (le_refl _)
  · by_contra hc
    have h4 : ((r.floor + 1 : Int) : ℚ) ≤ r := by push_cast; linarith
    have := Rat.le_floor.2 h4
    omega

theorem roundHalfEven_le (r : ℚ) (N : Nat) (h0 : 0 ≤ r) (h : r ≤ N) : roundHalfEven r ≤ N := by
  obtain ⟨hfl, _⟩ := floor_toNat_bounds r h0
  have hn : r.floor.toNat ≤ N := by exact_mod_cast le_trans hfl h
  unfold roundHalfEven
  simp only
  by_cases h1 : r - (r.floor.toNat : ℚ) < 1 / 2
  · rw [if_pos h1]; exact hn
  · rw [if_neg h1]
    have hlt : r.floor.toNat < N := by
      have : ((r.floor.toNat : Nat) : ℚ) < (N : ℚ) := by linarith
      exact_mod_cast this
    by_cases h2 : 1 / 2 < r - (r.floor.toNat : ℚ)
    · rw [if_pos h2]; exact hlt
    · rw [if_neg h2]
      by_cases h3 : r.floor.toNat % 2 = 0
      · rw [if_pos h3]; exact hn
      · rw [if_neg h3]; exact hlt

theorem roundHalfEven_near (r : ℚ) (h0 : 0 ≤ r) : |(roundHalfEven r : ℚ) - r| ≤ 1 / 2 := by
  obtain ⟨hfl, hfu⟩ := floor_toNat_bounds r h0
  unfold roundHalfEven
  simp only
  by_cases c1 : r - (r.floor.toNat : ℚ) < 1 / 2
  · rw [if_pos c1, abs_le]; constructor <;> linarith
  · rw [if_neg c1]
    by_cases c2 : 1 / 2 < r - (r.floor.toNat : ℚ)
    · rw [if_pos c2, abs_le]; push_cast; constructor <;> linarith
    · rw [if_neg c2]
      by_cases c3 : r.floor.toNat % 2 = 0
      · rw [if_pos c3, abs_le]; constructor <;> linarith
      · rw [if_neg c3, abs_le]; push_cast; constructor <;> linarith


theorem halvings_spec (fuel n : Nat) (h1 : 1 ≤ n) (hf : n ≤ fuel) :
    2 ^ halvings fuel n ≤ n ∧ n < 2 ^ (halvings fuel n + 1) := by
  induction fuel generalizing n with
  | zero => omega
  | succ fuel ih =>
    unfold halvings
    by_cases h2 : 2 ≤ n
    · rw [if_pos h2]
      obtain ⟨ha, hb⟩ := ih (n / 2) (by omega) (by omega)
      constructor
      · rw [pow_succ]; omega
      · rw [pow_succ]; omega
    · rw [if_neg h2]
      have : n = 1 := by omega
      subst this
      exact ⟨by norm_num, by norm_num⟩

theorem log2Floor_spec (n : Nat) (h1 : 1 ≤ n) :
    2 ^ log2Floor n ≤ n ∧ n < 2 ^ (log2Floor n + 1) :=
  halvings_spec n n h1 (le_refl n)

theorem scale_one_two (e : Int) : scale 1 2 e = (2 : ℚ) ^ e := by
  unfold scale
  by_cases h : 0 ≤ e
  · rw [if_pos h]
    obtain ⟨n, rfl⟩ := Int.eq_ofNat_of_zero_le h
    simp
  · rw [if_neg h]
    obtain ⟨n, hn⟩ := Int.exists_eq_neg_ofNat (le_of_lt (not_le.1 h))
    subst hn
    simp

theorem two_zpow_pos (e : Int) : (0 : ℚ) < (2 : ℚ) ^ e := zpow_pos (by norm_num) e

theorem two_zpow_le {a b : Int} (h : a ≤ b) : (2 : ℚ) ^ a ≤ (2 : ℚ) ^ b :=
  zpow_le_zpow_right₀ (by norm_num) h

theorem two_zpow_lt_iff {a b : Int} : (2 : ℚ) ^ a < (2 : ℚ) ^ b ↔ a < b :=
  zpow_lt_zpow_iff_right₀ (by norm_num)

theorem two_zpow_succ (e : Int) : (2 : ℚ) ^ (e + 1) = 2 * (2 : ℚ) ^ e := by
  rw [zpow_add₀ (by norm_num : (2 : ℚ) ≠ 0), zpow_one, mul_comm]

/-- The binary exponent brackets the absolute value. -/
theorem binExp_spec (q : ℚ) (hq : q ≠ 0) :
    (2 : ℚ) ^ binExp q ≤ |q| ∧ |q| < (2 : ℚ) ^ (binExp q + 1) := by
  have hn1 : 1 ≤ q.num.natAbs := Nat.one_le_iff_ne_zero.2 (by simpa using hq)
  have hd1 : 1 ≤ q.den := q.den_pos
  obtain ⟨na, nb⟩ := log2Floor_spec q.num.natAbs hn1
  obtain ⟨da, db⟩ := log2Floor_spec q.den hd1
  have habs : |q| = (q.num.natAbs : ℚ) / (q.den : ℚ) := by
    have h1 : |q| = |(q.num : ℚ)| / (q.den : ℚ) := by
      conv_lhs => rw [← Rat.num_div_den q]
      rw [abs_div, abs_of_pos (show (0 : ℚ) < (q.den : ℚ) by exact_mod_cast q.den_pos)]
    rw [h1, ← Int.cast_abs, Int.abs_eq_natAbs, Int.cast_natCast]
  have hdpos : (0 : ℚ) < (q.den : ℚ) := by exact_mod_cast q.den_pos
  have na2 : ((2 : ℚ) ^ (log2Floor q.num.natAbs : Int)) ≤ (q.num.natAbs : ℚ) := by
    rw [zpow_natCast]; exact_mod_cast na
  have nb2 : (q.num.natAbs : ℚ) < ((2 : ℚ) ^ ((log2Floor q.num.natAbs : Int) + 1)) := by
    have : ((log2Floor q.num.natAbs : Int) + 1) = ((log2Floor q.num.natAbs + 1 : Nat) : Int) := by
      push_cast; ring
    rw [this, zpow_natCast]; exact_mod_cast nb
  have da2 : ((2 : ℚ) ^ (log2Floor q.den : Int)) ≤ (q.den : ℚ) := by
    rw [zpow_natCast]; exact_mod_cast da
  have db2 : (q.den : ℚ) < ((2 : ℚ) ^ ((log2Floor q.den : Int) + 1)) := by
    have : ((log2Floor q.den : Int) + 1) = ((log2Floor q.den + 1 : Nat) : Int) := by
      push_cast; ring
    rw [this, zpow_natCast]; exact_mod_cast db
  -- bounds of the quotient
  have hup : |q| < (2 : ℚ) ^ ((log2Floor q.num.natAbs : Int) - (log2Floor q.den : Int) + 1) := by
    rw [habs, div_lt_iff₀ hdpos]
    have e1 : (2 : ℚ) ^ ((log2Floor q.num.natAbs : Int) - (log2Floor q.den : Int) + 1) =
        (2 : ℚ) ^ ((log2Floor q.num.natAbs : Int) + 1) / (2 : ℚ) ^ (log2Floor q.den : Int) := by
      rw [← zpow_sub₀ (by norm_num : (2 : ℚ) ≠ 0)]
      congr 1; ring
    rw [e1, div_mul_eq_mul_div, lt_div_iff₀ (two_zpow_pos _)]
    calc (q.num.natAbs : ℚ) * (2 : ℚ) ^ (log2Floor q.den : Int)
        ≤ (q.num.natAbs : ℚ) * (q.den : ℚ) :=
          mul_le_mul_of_nonneg_left da2 (by positivity)
      _ < (2 : ℚ) ^ ((log2Floor q.num.natAbs : Int) + 1) * (q.den : ℚ) :=
          mul_lt_mul_of_pos_right nb2 hdpos
  have hlo : (2 : ℚ) ^ ((log2Floor q.num.natAbs : Int) - (log2Floor q.den : Int) - 1) < |q| := by
    rw [habs, lt_div_iff₀ hdpos]
    have e1 : (2 : ℚ) ^ ((log2Floor q.num.natAbs : Int) - (log2Floor q.den : Int) - 1) =
        (2 : ℚ) ^ (log2Floor q.num.natAbs : Int) / (2 : ℚ) ^ ((log2Floor q.den : Int) + 1) := by
      rw [← zpow_sub₀ (by norm_num : (2 : ℚ) ≠ 0)]
      congr 1; ring
    rw [e1, div_mul_eq_mul_div, div_lt_iff₀ (two_zpow_pos _)]
    calc (2 : ℚ) ^ (log2Floor q.num.natAbs : Int) * (q.den : ℚ)
        < (2 : ℚ) ^ (log2Floor q.num.natAbs : Int) * (2 : ℚ) ^ ((log2Floor q.den : Int) + 1) :=
          mul_lt_mul_of_pos_left db2 (two_zpow_pos _)
      _ ≤ (q.num.natAbs : ℚ) * (2 : ℚ) ^ ((log2Floor q.den : Int) + 1) :=
          mul_le_mul_of_nonneg_right na2 (le_of_lt (two_zpow_pos _))
  unfold binExp
  simp only [scale_one_two]
  by_cases hc : (2 : ℚ) ^ ((log2Floor q.num.natAbs : Int) - (log2Floor q.den : Int)) ≤ |q|
  · rw [if_pos hc]
    exact ⟨hc, hup⟩
  · rw [if_neg hc]
    refine ⟨le_of_lt hlo, ?_⟩
    rw [sub_add_cancel]
    exact not_le.1 hc

theorem binExp_lt_of_lt (q : ℚ) (hq : q ≠ 0) (k : Int) (h : |q| < (2 : ℚ) ^ k) :
    binExp q < k :=
  two_zpow_lt_iff.1 (lt_of_le_of_lt (binExp_spec q hq).1 h)

theorem le_binExp_of_le (q : ℚ) (hq : q ≠ 0) (k : Int) (h : (2 : ℚ) ^ k ≤ |q|) :
    k ≤ binExp q := by
  have := two_zpow_lt_iff.1 (lt_of_le_of_lt h (binExp_spec q hq).2)
  omega


theorem roundHalfEven_natCast (n : Nat) : roundHalfEven (n : ℚ) = n := by
  obtain ⟨h1, h2⟩ := floor_toNat_bounds (n : ℚ) (by positivity)
  have hfl : (n : ℚ).floor.toNat = n := by
    have a1 : (n : ℚ).floor.toNat ≤ n := by exact_mod_cast h1
    have a2 : n < (n : ℚ).floor.toNat + 1 := by exact_mod_cast h2
    omega
  unfold roundHalfEven
  simp only [hfl, sub_self]
  rw [if_pos (by norm_num)]

theorem roundHalfEven_floor (r : ℚ) :
    r.floor.toNat ≤ roundHalfEven r ∧ roundHalfEven r ≤ r.floor.toNat + 1 := by
  unfold roundHalfEven
  simp only
  split_ifs <;> omega

theorem roundHalfEven_mono (x y : ℚ) (h0 : 0 ≤ x) (h : x ≤ y) :
    roundHalfEven x ≤ roundHalfEven y := by
  obtain ⟨x1, x2⟩ := floor_toNat_bounds x h0
  obtain ⟨y1, y2⟩ := floor_toNat_bounds y (le_trans h0 h)
  have hfl : x.floor.toNat ≤ y.floor.toNat := by
    have : ((x.floor.toNat : Nat) : ℚ) < ((y.floor.toNat : Nat) : ℚ) + 1 := by linarith
    have : x.floor.toNat < y.floor.toNat + 1 := by exact_mod_cast this
    omega
  by_cases hlt : x.floor.toNat < y.floor.toNat
  · exact le_trans (roundHalfEven_floor x).2 (le_trans hlt (roundHalfEven_floor y).1)
  · have heq : x.floor.toNat = y.floor.toNat := by omega
    unfold roundHalfEven
    simp only [heq]
    by_cases a1 : x - (y.floor.toNat : ℚ) < 1 / 2
    · rw [if_pos a1]
      split_ifs <;> omega
    · rw [if_neg a1]
      have b1 : ¬ y - (y.floor.toNat : ℚ) < 1 / 2 := by
        intro hb; exact a1 (by linarith)
      rw [if_neg b1]
      by_cases a2 : 1 / 2 < x - (y.floor.toNat : ℚ)
      · rw [if_pos a2, if_pos (by linarith)]
      · rw [if_neg a2]
        split_ifs <;> omega

theorem le_roundHalfEven (r : ℚ) (N : Nat) (h : (N : ℚ) ≤ r) : N ≤ roundHalfEven r := by
  have := roundHalfEven_mono (N : ℚ) r (by positivity) h
  rwa [roundHalfEven_natCast] at this

theorem binExp_neg (q : ℚ) : binExp (-q) = binExp q := by
  unfold binExp
  simp only [Rat.neg_num, Rat.neg_den, Int.natAbs_neg, abs_neg]

theorem ulpExp_neg (q : ℚ) : ulpExp (-q) = ulpExp q := by
  unfold ulpExp
  rw [binExp_neg]

theorem roundNearest_zero : roundNearest 0 = 0 := by
  unfold roundNearest
  rw [if_pos rfl]

theorem roundNearest_pos (q : ℚ) (hq : 0 < q) :
    roundNearest q = (roundHalfEven (q / (2 : ℚ) ^ ulpExp q) : ℚ) * (2 : ℚ) ^ ulpExp q := by
  unfold roundNearest
  rw [if_neg (ne_of_gt hq), if_neg (not_lt.2 (le_of_lt hq)), scale_one_two, abs_of_pos hq]

theorem roundNearest_neg (q : ℚ) : roundNearest (-q) = -roundNearest q := by
  rcases lt_trichotomy q 0 with h | h | h
  · have h2 : 0 < -q := by linarith
    rw [roundNearest_pos _ h2, ulpExp_neg]
    unfold roundNearest
    rw [if_neg (ne_of_lt h), if_pos h, scale_one_two, abs_of_neg h, neg_neg]
  · subst h
    simp [roundNearest_zero]
  · have h2 : -q < 0 := by linarith
    rw [roundNearest_pos _ h]
    unfold roundNearest
    rw [if_neg (ne_of_lt h2), if_pos h2, scale_one_two, ulpExp_neg, abs_neg, abs_of_pos h]

theorem roundNearest_nonneg (q : ℚ) (hq : 0 ≤ q) : 0 ≤ roundNearest q := by
  rcases eq_or_lt_of_le hq with h | h
  · rw [← h, roundNearest_zero]
  · rw [roundNearest_pos _ h]
    exact mul_nonneg (by positivity) (le_of_lt (two_zpow_pos _))

theorem roundNearest_nonpos (q : ℚ) (hq : q ≤ 0) : roundNearest q ≤ 0 := by
  have := roundNearest_nonneg (-q) (by linarith)
  rw [roundNearest_neg] at this
  linarith

theorem ulpExp_ge (q : ℚ) : -1074 ≤ ulpExp q := by
  unfold ulpExp
  have := le_max_right (binExp q) (-1022)
  omega

theorem ulpExp_upper (q : ℚ) (hq : q ≠ 0) : |q| < (2 : ℚ) ^ (ulpExp q + 53) := by
  refine lt_of_lt_of_le (binExp_spec q hq).2 (two_zpow_le ?_)
  unfold ulpExp
  have := le_max_left (binExp q) (-1022)
  omega

theorem ulpExp_normal (q : ℚ) (h : -1022 ≤ binExp q) : ulpExp q = binExp q - 52 := by
  unfold ulpExp
  rw [max_eq_left h]

theorem ulpExp_subnormal (q : ℚ) (h : binExp q ≤ -1022) : ulpExp q = -1074 := by
  unfold ulpExp
  rw [max_eq_right h]
  rfl

theorem ulpExp_lower (q : ℚ) (hq : q ≠ 0) (h : -1022 ≤ binExp q) :
    (2 : ℚ) ^ (ulpExp q + 52) ≤ |q| := by
  rw [ulpExp_normal q h, sub_add_cancel]
  exact (binExp_spec q hq).1

/-- The scaled value `q / 2 ^ ulpExp q` is below `2 ^ 53`. -/
theorem scaled_lt (q : ℚ) (hq : 0 < q) : q / (2 : ℚ) ^ ulpExp q < ((2 ^ 53 : Nat) : ℚ) := by
  rw [div_lt_iff₀ (two_zpow_pos _)]
  have h := ulpExp_upper q (ne_of_gt hq)
  rw [abs_of_pos hq, add_comm, zpow_add₀ (by norm_num : (2 : ℚ) ≠ 0)] at h
  have e : ((2 ^ 53 : Nat) : ℚ) = (2 : ℚ) ^ (53 : Int) := by norm_num
  rw [e]
  exact h

theorem scaled_ge (q : ℚ) (hq : 0 < q) (h : -1022 ≤ binExp q) :
    ((2 ^ 52 : Nat) : ℚ) ≤ q / (2 : ℚ) ^ ulpExp q := by
  rw [le_div_iff₀ (two_zpow_pos _)]
  have h2 := ulpExp_lower q (ne_of_gt hq) h
  rw [abs_of_pos hq, add_comm, zpow_add₀ (by norm_num : (2 : ℚ) ≠ 0)] at h2
  have e : ((2 ^ 52 : Nat) : ℚ) = (2 : ℚ) ^ (52 : Int) := by norm_num
  rw [e]
  exact h2


theorem roundNearest_err_ulp (q : ℚ) (hq : q ≠ 0) :
    |roundNearest q - q| ≤ (2 : ℚ) ^ ulpExp q / 2 := by
  have hpos : ∀ x : ℚ, 0 < x → |roundNearest x - x| ≤ (2 : ℚ) ^ ulpExp x / 2 := by
    intro x hx
    have hp := two_zpow_pos (ulpExp x)
    have hy : 0 ≤ x / (2 : ℚ) ^ ulpExp x := div_nonneg (le_of_lt hx) (le_of_lt hp)
    have hnear := roundHalfEven_near (x / (2 : ℚ) ^ ulpExp x) hy
    have hx2 : x = x / (2 : ℚ) ^ ulpExp x * (2 : ℚ) ^ ulpExp x := by
      field_simp
    rw [roundNearest_pos x hx]
    have e1 : (roundHalfEven (x / (2 : ℚ) ^ ulpExp x) : ℚ) * (2 : ℚ) ^ ulpExp x - x =
        ((roundHalfEven (x / (2 : ℚ) ^ ulpExp x) : ℚ) - x / (2 : ℚ) ^ ulpExp x) *
          (2 : ℚ) ^ ulpExp x := by
      rw [sub_mul, ← hx2]
    rw [e1, abs_mul, abs_of_pos hp]
    calc |(roundHalfEven (x / (2 : ℚ) ^ ulpExp x) : ℚ) - x / (2 : ℚ) ^ ulpExp x| *
          (2 : ℚ) ^ ulpExp x ≤ 1 / 2 * (2 : ℚ) ^ ulpExp x :=
          mul_le_mul_of_nonneg_right hnear (le_of_lt hp)
      _ = (2 : ℚ) ^ ulpExp x / 2 := by ring
  rcases lt_or_gt_of_ne hq with h | h
  · have := hpos (-q) (by linarith)
    rw [roundNearest_neg, ulpExp_neg] at this
    have e : -roundNearest q - -q = -(roundNearest q - q) := by ring
    rwa [e, abs_neg] at this
  · exact hpos q h

theorem two_zpow_neg_nat (n : Nat) : (2 : ℚ) ^ (-(n : Int)) = 1 / 2 ^ n := by
  rw [zpow_neg, zpow_natCast, one_div]

/-- The rounding error of `roundNearest`: at most the unit roundoff times the absolute
value, or half the smallest subnormal number. -/
theorem roundNearest_err (q : ℚ) :
    |roundNearest q - q| ≤ |q| * unitRoundoff + minSubnormal / 2 := by
  have hu : (0 : ℚ) ≤ unitRoundoff := by unfold unitRoundoff; positivity
  have hm : (0 : ℚ) ≤ minSubnormal := by unfold minSubnormal; positivity
  by_cases hq : q = 0
  · subst hq
    rw [roundNearest_zero, sub_self, abs_zero, zero_mul, zero_add]
    linarith
  · have h1 := roundNearest_err_ulp q hq
    by_cases hb : -1022 ≤ binExp q
    · have h2 : (2 : ℚ) ^ ulpExp q / 2 ≤ |q| * unitRoundoff := by
        rw [ulpExp_normal q hb]
        have e : (2 : ℚ) ^ (binExp q - 52) = (2 : ℚ) ^ binExp q * (1 / 2 ^ 52) := by
          rw [sub_eq_add_neg, zpow_add₀ (by norm_num : (2 : ℚ) ≠ 0)]
          exact congrArg (fun t => (2 : ℚ) ^ binExp q * t) (two_zpow_neg_nat 52)
        rw [e]
        unfold unitRoundoff
        have := (binExp_spec q hq).1
        have e2 : (2 : ℚ) ^ binExp q * (1 / 2 ^ 52) / 2 = (2 : ℚ) ^ binExp q * (1 / 2 ^ 53) := by
          norm_num
          ring
        rw [e2]
        exact mul_le_mul_of_nonneg_right this (by positivity)
      have := abs_nonneg q
      linarith
    · have h2 : (2 : ℚ) ^ ulpExp q / 2 = minSubnormal / 2 := by
        rw [ulpExp_subnormal q (by omega)]
        have : (2 : ℚ) ^ (-1074 : Int) = 1 / 2 ^ 1074 := two_zpow_neg_nat 1074
        rw [this]
        rfl
      have h3 : 0 ≤ |q| * unitRoundoff := mul_nonneg (abs_nonneg q) hu
      linarith

theorem binExp_mono (x y : ℚ) (hx : 0 < x) (h : x ≤ y) : binExp x ≤ binExp y := by
  have hy : 0 < y := lt_of_lt_of_le hx h
  apply le_binExp_of_le y (ne_of_gt hy)
  rw [abs_of_pos hy]
  have := (binExp_spec x (ne_of_gt hx)).1
  rw [abs_of_pos hx] at this
  linarith

theorem ulpExp_mono (x y : ℚ) (hx : 0 < x) (h : x ≤ y) : ulpExp x ≤ ulpExp y := by
  unfold ulpExp
  have := binExp_mono x y hx h
  have := max_le_max this (le_refl (-1022 : Int))
  omega

theorem pow53_cast : ((2 ^ 53 : Nat) : ℚ) = (2 : ℚ) ^ (53 : Int) := by norm_num

theorem pow52_cast : ((2 ^ 52 : Nat) : ℚ) = (2 : ℚ) ^ (52 : Int) := by norm_num

theorem roundNearest_mono_pos (x y : ℚ) (hx : 0 < x) (h : x ≤ y) :
    roundNearest x ≤ roundNearest y := by
  have hy : 0 < y := lt_of_lt_of_le hx h
  rw [roundNearest_pos x hx, roundNearest_pos y hy]
  have he := ulpExp_mono x y hx h
  rcases eq_or_lt_of_le he with heq | hlt
  · rw [heq]
    apply mul_le_mul_of_nonneg_right _ (le_of_lt (two_zpow_pos _))
    have h0 : 0 ≤ x / (2 : ℚ) ^ ulpExp y := div_nonneg (le_of_lt hx) (le_of_lt (two_zpow_pos _))
    have hd : x / (2 : ℚ) ^ ulpExp y ≤ y / (2 : ℚ) ^ ulpExp y :=
      div_le_div_of_nonneg_right h (le_of_lt (two_zpow_pos _))
    exact_mod_cast roundHalfEven_mono _ _ h0 hd
  · have hby : -1022 ≤ binExp y := by
      by_contra hc
      have e1 := ulpExp_subnormal y (by omega)
      have e2 := ulpExp_ge x
      omega
    have hey := ulpExp_normal y hby
    have h1 : (roundHalfEven (x / (2 : ℚ) ^ ulpExp x) : ℚ) ≤ ((2 ^ 53 : Nat) : ℚ) := by
      exact_mod_cast roundHalfEven_le _ (2 ^ 53)
        (div_nonneg (le_of_lt hx) (le_of_lt (two_zpow_pos _))) (le_of_lt (scaled_lt x hx))
    have h2 : ((2 ^ 52 : Nat) : ℚ) ≤ (roundHalfEven (y / (2 : ℚ) ^ ulpExp y) : ℚ) := by
      exact_mod_cast le_roundHalfEven _ (2 ^ 52) (scaled_ge y hy hby)
    calc (roundHalfEven (x / (2 : ℚ) ^ ulpExp x) : ℚ) * (2 : ℚ) ^ ulpExp x
        ≤ ((2 ^ 53 : Nat) : ℚ) * (2 : ℚ) ^ ulpExp x :=
          mul_le_mul_of_nonneg_right h1 (le_of_lt (two_zpow_pos _))
      _ = (2 : ℚ) ^ (53 + ulpExp x) := by
          rw [pow53_cast, ← zpow_add₀ (by norm_num : (2 : ℚ) ≠ 0)]
      _ ≤ (2 : ℚ) ^ (52 + ulpExp y) := two_zpow_le (by omega)
      _ = ((2 ^ 52 : Nat) : ℚ) * (2 : ℚ) ^ ulpExp y := by
          rw [pow52_cast, ← zpow_add₀ (by norm_num : (2 : ℚ) ≠ 0)]
      _ ≤ (roundHalfEven (y / (2 : ℚ) ^ ulpExp y) : ℚ) * (2 : ℚ) ^ ulpExp y :=
          mul_le_mul_of_nonneg_right h2 (le_of_lt (two_zpow_pos _))

/-- Rounding to the nearest float64 is monotone. -/
theorem roundNearest_mono (x y : ℚ) (h : x ≤ y) : roundNearest x ≤ roundNearest y := by
  rcases lt_or_le 0 x with hx | hx
  · exact roundNearest_mono_pos x y hx h
  · rcases le_or_lt 0 y with hy | hy
    · exact le_trans (roundNearest_nonpos x hx) (roundNearest_nonneg y hy)
    · have := roundNearest_mono_pos (-y) (-x) (by linarith) (by linarith)
      rw [roundNearest_neg, roundNearest_neg] at this
      linarith

/-- A multiple `m * 2 ^ e` of a power of two not below the smallest subnormal, with at most
53 significant bits, is a float64: rounding leaves it as it is. -/
theorem roundNearest_of_multiple (m : Nat) (e : Int) (he : -1074 ≤ e) (hm : m ≤ 2 ^ 53) :
    roundNearest ((m : ℚ) * (2 : ℚ) ^ e) = (m : ℚ) * (2 : ℚ) ^ e := by
  rcases Nat.eq_zero_or_pos m with h0 | h0
  · subst h0
    simp [roundNearest_zero]
  have hp := two_zpow_pos e
  have hr : 0 < (m : ℚ) * (2 : ℚ) ^ e := mul_pos (by exact_mod_cast h0) hp
  have hne := ne_of_gt hr
  have hnat : ∃ k : Nat, (m : ℚ) * (2 : ℚ) ^ e / (2 : ℚ) ^ ulpExp ((m : ℚ) * (2 : ℚ) ^ e) = k := by
    rcases eq_or_lt_of_le hm with hmax | hlt
    · -- m = 2 ^ 53
      have hval : (m : ℚ) * (2 : ℚ) ^ e = (2 : ℚ) ^ (e + 53) := by
        rw [hmax, pow53_cast, ← zpow_add₀ (by norm_num : (2 : ℚ) ≠ 0), add_comm]
      have hb : binExp ((m : ℚ) * (2 : ℚ) ^ e) = e + 53 := by
        have h1 := le_binExp_of_le _ hne (e + 53) (by rw [abs_of_pos hr, hval])
        have h2 := binExp_lt_of_lt _ hne (e + 54)
          (by rw [abs_of_pos hr, hval]; exact two_zpow_lt_iff.2 (by omega))
        omega
      have hu : ulpExp ((m : ℚ) * (2 : ℚ) ^ e) = e + 1 := by
        rw [ulpExp_normal _ (by omega), hb]; ring
      refine ⟨2 ^ 52, ?_⟩
      rw [hu, hval, div_eq_iff (ne_of_gt (two_zpow_pos _)), pow52_cast,
        ← zpow_add₀ (by norm_num : (2 : ℚ) ≠ 0)]
      congr 1
      ring
    · have hlt2 : (m : ℚ) * (2 : ℚ) ^ e < (2 : ℚ) ^ (e + 53) := by
        have : (m : ℚ) < ((2 ^ 53 : Nat) : ℚ) := by exact_mod_cast hlt
        rw [pow53_cast] at this
        calc (m : ℚ) * (2 : ℚ) ^ e < (2 : ℚ) ^ (53 : Int) * (2 : ℚ) ^ e :=
              mul_lt_mul_of_pos_right this hp
          _ = (2 : ℚ) ^ (e + 53) := by
              rw [← zpow_add₀ (by norm_num : (2 : ℚ) ≠ 0), add_comm]
      have hb := binExp_lt_of_lt _ hne (e + 53) (by rw [abs_of_pos hr]; exact hlt2)
      have hu : ulpExp ((m : ℚ) * (2 : ℚ) ^ e) ≤ e := by
        unfold ulpExp
        have := max_le (show binExp ((m : ℚ) * (2 : ℚ) ^ e) ≤ e + 52 by omega)
          (show (-1022 : Int) ≤ e + 52 by omega)
        omega
      obtain ⟨n, hn⟩ := Int.eq_ofNat_of_zero_le (sub_nonneg.2 hu)
      refine ⟨m * 2 ^ n, ?_⟩
      rw [div_eq_iff (ne_of_gt (two_zpow_pos _))]
      push_cast
      rw [mul_assoc, ← zpow_natCast, ← hn, ← zpow_add₀ (by norm_num : (2 : ℚ) ≠ 0)]
      congr 2
      ring
  obtain ⟨k, hk⟩ := hnat
  rw [roundNearest_pos _ hr, hk, roundHalfEven_natCast, ← hk]
  field_simp

/-- The result of rounding is a float64: rounding it again changes nothing. -/
theorem roundNearest_idem (q : ℚ) : roundNearest (roundNearest q) = roundNearest q := by
  have hpos : ∀ x : ℚ, 0 < x → roundNearest (roundNearest x) = roundNearest x := by
    intro x hx
    rw [roundNearest_pos x hx]
    exact roundNearest_of_multiple _ _ (ulpExp_ge x)
      (roundHalfEven_le _ (2 ^ 53)
        (div_nonneg (le_of_lt hx) (le_of_lt (two_zpow_pos _))) (le_of_lt (scaled_lt x hx)))
  rcases lt_trichotomy q 0 with h | h | h
  · have := hpos (-q) (by linarith)
    rw [roundNearest_neg, roundNearest_neg] at this
    linarith
  · subst h
    rw [roundNearest_zero, roundNearest_zero]
  · exact hpos q h


/-! ## Lemmas: float64 arithmetic -/

theorem maxFloat64_pos : (1 : ℚ) < F64.maxFloat64 := by
  unfold F64.maxFloat64
  have h1 : (2 : ℚ) ≤ 2 ^ 53 - 1 := by norm_num
  have h2 : (1 : ℚ) ≤ 2 ^ 971 := one_le_pow₀ (by norm_num)
  nlinarith

theorem maxFloat64_eq : F64.maxFloat64 = ((2 ^ 53 - 1 : Nat) : ℚ) * (2 : ℚ) ^ (971 : Int) := by
  unfold F64.maxFloat64
  have e : (2 : ℚ) ^ (971 : Int) = (2 : ℚ) ^ (971 : Nat) := zpow_natCast 2 971
  rw [e, Nat.cast_sub (Nat.one_le_two_pow), Nat.cast_pow]
  simp only [Nat.cast_ofNat, Nat.cast_one]

/-- The constant `math.MaxFloat64` is a float64. -/
theorem roundNearest_maxFloat64 : roundNearest F64.maxFloat64 = F64.maxFloat64 := by
  rw [maxFloat64_eq]
  exact roundNearest_of_multiple (2 ^ 53 - 1) 971 (by norm_num) (Nat.sub_le _ _)

theorem roundNearest_natCast (n : Nat) (h : n ≤ 2 ^ 53) : roundNearest (n : ℚ) = n := by
  have := roundNearest_of_multiple n 0 (by norm_num) h
  rwa [zpow_zero, mul_one] at this

theorem roundNearest_one : roundNearest 1 = 1 := by
  have := roundNearest_natCast 1 (by norm_num)
  simpa using this

/-- Rounding keeps a value within the float64 range within it. -/
theorem roundNearest_abs_le (q : ℚ) (h : |q| ≤ F64.maxFloat64) :
    |roundNearest q| ≤ F64.maxFloat64 := by
  obtain ⟨h1, h2⟩ := abs_le.1 h
  rw [abs_le]
  constructor
  · have := roundNearest_mono _ _ h1
    rwa [roundNearest_neg, roundNearest_maxFloat64] at this
  · have := roundNearest_mono _ _ h2
    rwa [roundNearest_maxFloat64] at this

theorem ofRat_of_abs_le (x : ℚ) (h : |x| ≤ F64.maxFloat64) : F64.ofRat x = F64.fin x := by
  unfold F64.ofRat
  rw [if_neg (not_lt.2 (le_trans (le_abs_self x) h)),
    if_neg (not_lt.2 (by have := neg_abs_le x; linarith))]

theorem round_of_abs_le (q : ℚ) (h : |roundNearest q| ≤ F64.maxFloat64) :
    F64.round q = F64.fin (roundNearest q) :=
  ofRat_of_abs_le _ h

/-- A rounded result is a float64 within the range, or an infinity. -/
theorem round_cases (q : ℚ) :
    (F64.round q = F64.fin (roundNearest q) ∧ |roundNearest q| ≤ F64.maxFloat64) ∨
      (F64.round q = F64.pinf ∧ F64.maxFloat64 < roundNearest q) ∨
      (F64.round q = F64.ninf ∧ roundNearest q < -F64.maxFloat64) := by
  unfold F64.round F64.ofRat
  by_cases h1 : F64.maxFloat64 < roundNearest q
  · rw [if_pos h1]; exact Or.inr (Or.inl ⟨rfl, h1⟩)
  · rw [if_neg h1]
    by_cases h2 : roundNearest q < -F64.maxFloat64
    · rw [if_pos h2]; exact Or.inr (Or.inr ⟨rfl, h2⟩)
    · rw [if_neg h2]
      exact Or.inl ⟨rfl, abs_le.2 ⟨not_lt.1 h2, not_lt.1 h1⟩⟩

theorem add_fin_fin (a b : ℚ) : F64.add (F64.fin a) (F64.fin b) = F64.round (a + b) := rfl

theorem sub_fin_fin (a b : ℚ) : F64.sub (F64.fin a) (F64.fin b) = F64.round (a - b) := by
  show F64.round (a + -b) = F64.round (a - b)
  rw [sub_eq_add_neg]

theorem mul_fin_fin (a b : ℚ) : F64.mul (F64.fin a) (F64.fin b) = F64.round (a * b) := rfl

theorem div_fin_fin (a b : ℚ) (hb : b ≠ 0) :
    F64.div (F64.fin a) (F64.fin b) = F64.round (a / b) := by
  simp only [F64.div]
  rw [if_neg hb]

/-- The value of the literal `1e-9`: the float64 nearest to 10^-9. -/
theorem eps_value : roundNearest (1 / 10 ^ 9) = 4835703278458517 / 2 ^ 82 := by
  decide!

theorem eps_eq : eps = F64.fin (roundNearest (1 / 10 ^ 9)) := rfl

theorem eps_pos : (0 : ℚ) < roundNearest (1 / 10 ^ 9) := by
  rw [eps_value]; positivity

theorem eps_le_one : roundNearest (1 / 10 ^ 9) ≤ 1 := by
  have := roundNearest_mono (1 / 10 ^ 9) 1 (by norm_num)
  rwa [roundNearest_one] at this

theorem zero_eq_fin : (0 : F64) = F64.fin 0 := rfl

/-! ## Lemmas: applyNoPreamp -/

theorem noPreampStep_outputEQ_lookup (inputEQ : AutoEQData) (st : NoPreampScan) (freq k : Int) :
    (noPreampStep inputEQ st freq).outputEQ.lookup k =
      if k = freq ∧ k ∈ inputEQ then (inputEQ.lookup k).map sanitize
      else st.outputEQ.lookup k := by
  unfold noPreampStep
  by_cases hk : k = freq
  · subst hk
    cases hl : inputEQ.lookup k with
    | none =>
      have : k ∉ inputEQ := by rw [AutoEQData.mem_iff_lookup]; simp [hl]
      simp [this]
    | some g =>
      have : k ∈ inputEQ := by rw [AutoEQData.mem_iff_lookup]; exact ⟨g, hl⟩
      simp [this, sanitize]
  · cases hl : inputEQ.lookup freq with
    | none => simp [hk]
    | some g => simp [hk, AList.lookup_insert_ne hk]

theorem scan_outputEQ_lookup (inputEQ : AutoEQData) (fs : List Int) (st : NoPreampScan) (k : Int) :
    (fs.foldl (noPreampStep inputEQ) st).outputEQ.lookup k =
      if k ∈ fs ∧ k ∈ inputEQ then (inputEQ.lookup k).map sanitize
      else st.outputEQ.lookup k := by
  induction fs generalizing st with
  | nil => simp
  | cons f fs ih =>
    rw [List.foldl_cons, ih, noPreampStep_outputEQ_lookup]
    by_cases h1 : k ∈ fs ∧ k ∈ inputEQ
    · have h3 : k ∈ f :: fs ∧ k ∈ inputEQ := ⟨List.mem_cons_of_mem _ h1.1, h1.2⟩
      rw [if_pos h1, if_pos h3]
    · rw [if_neg h1]
      by_cases h2 : k = f ∧ k ∈ inputEQ
      · have h3 : k ∈ f :: fs ∧ k ∈ inputEQ := ⟨by simp [h2.1], h2.2⟩
        rw [if_pos h2, if_pos h3]
      · have h3 : ¬ (k ∈ f :: fs ∧ k ∈ inputEQ) := by
          rintro ⟨hm, hi⟩
          rcases List.mem_cons.1 hm with h | h
          · exact h2 ⟨h, hi⟩
          · exact h1 ⟨h, hi⟩
        rw [if_neg h2, if_neg h3]

theorem shiftLoop_lookup (shift : F64) (ks : List Int) (hnd : ks.Nodup) (m : AutoEQData) (k : Int) :
    (ks.foldl (noPreampShift shift) m).lookup k =
      if k ∈ ks then some (shifted shift (m.get k)) else m.lookup k := by
  induction ks generalizing m with
  | nil => simp
  | cons f fs ih =>
    have hf : f ∉ fs := (List.nodup_cons.1 hnd).1
    rw [List.foldl_cons, ih (List.nodup_cons.1 hnd).2]
    have hstep : ∀ k2, (noPreampShift shift m f).lookup k2 =
        if k2 = f then some (shifted shift (m.get f)) else m.lookup k2 := by
      intro k2
      unfold noPreampShift shifted
      by_cases hc : ((F64.sub (m.get f) shift).isNaN || (F64.sub (m.get f) shift).isInf) = true
      · simp only [hc, if_true]; exact AutoEQData.lookup_insert_eq _ _ _ _
      · simp only [hc, if_false]; exact AutoEQData.lookup_insert_eq _ _ _ _
    by_cases hk : k ∈ fs
    · have hne : k ≠ f := fun h => hf (h ▸ hk)
      simp [hk, AutoEQData.get, hstep, hne]
    · by_cases hkf : k = f
      · subst hkf; simp [hk, hstep]
      · simp [hk, hkf, hstep]


theorem sanitize_fin (g : F64) : ∃ q, sanitize g = F64.fin q := by
  cases g with
  | fin q => exact ⟨q, rfl⟩
  | nan => exact ⟨0, rfl⟩
  | pinf => exact ⟨0, rfl⟩
  | ninf => exact ⟨0, rfl⟩

theorem noPreampStep_inv (inputEQ : AutoEQData) (st : NoPreampScan) (freq : Int)
    (h : ScanInv st) : ScanInv (noPreampStep inputEQ st freq) := by
  obtain ⟨m, hm, hb⟩ := h
  unfold noPreampStep
  cases hl : inputEQ.lookup freq with
  | none => exact ⟨m, hm, hb⟩
  | some g0 =>
    obtain ⟨q, hq⟩ := sanitize_fin g0
    have hq2 : (if (g0.isNaN || g0.isInf) = true then (0 : F64) else g0) = F64.fin q := hq
    simp only [hq2, hm, F64.gt, F64.lt]
    by_cases hlt : m < q
    · refine ⟨q, by simp [hlt], ?_⟩
      intro k v hk
      rw [AutoEQData.lookup_insert_eq] at hk
      by_cases hkf : k = freq
      · rw [if_pos hkf] at hk
        exact ⟨q, (Option.some.inj hk).symm, le_refl _⟩
      · rw [if_neg hkf] at hk
        obtain ⟨q2, hv, hle⟩ := hb k v hk
        exact ⟨q2, hv, le_trans hle (le_of_lt hlt)⟩
    · refine ⟨m, by simp [hlt], ?_⟩
      intro k v hk
      rw [AutoEQData.lookup_insert_eq] at hk
      by_cases hkf : k = freq
      · rw [if_pos hkf] at hk
        exact ⟨q, (Option.some.inj hk).symm, not_lt.1 hlt⟩
      · rw [if_neg hkf] at hk
        exact hb k v hk

theorem scan_inv (inputEQ : AutoEQData) (fs : List Int) (st : NoPreampScan)
    (h : ScanInv st) : ScanInv (fs.foldl (noPreampStep inputEQ) st) := by
  induction fs generalizing st with
  | nil => exact h
  | cons f fs ih => exact ih _ (noPreampStep_inv inputEQ st f h)

theorem scan_hasData (inputEQ : AutoEQData) (fs : List Int) (st : NoPreampScan) :
    (fs.foldl (noPreampStep inputEQ) st).hasData = true ↔
      st.hasData = true ∨ ∃ f ∈ fs, f ∈ inputEQ := by
  induction fs generalizing st with
  | nil => simp
  | cons f fs ih =>
    rw [List.foldl_cons, ih]
    have hstep : (noPreampStep inputEQ st f).hasData = true ↔
        st.hasData = true ∨ f ∈ inputEQ := by
      unfold noPreampStep
      cases hl : inputEQ.lookup f with
      | none =>
        have : f ∉ inputEQ := by rw [AutoEQData.mem_iff_lookup]; simp [hl]
        simp [this]
      | some g =>
        have : f ∈ inputEQ := by rw [AutoEQData.mem_iff_lookup]; exact ⟨g, hl⟩
        simp [this]
    rw [hstep]
    simp only [List.mem_cons, exists_eq_or_imp]
    tauto

theorem scanInit_inv : ScanInv scanInit :=
  ⟨-F64.maxFloat64, rfl, by intro k v hk; simp [scanInit] at hk⟩

theorem shifted_le_eps (m q : ℚ) (hq : q ≤ m) :
    F64.le (shifted (if F64.gt (F64.fin m) eps then F64.fin m else (0 : F64)) (F64.fin q)) eps
      = true := by
  have hM := maxFloat64_pos
  have hepos := eps_pos
  have h0 : F64.le (0 : F64) eps = true := by
    rw [eps_eq]
    show F64.le (F64.fin 0) (F64.fin (roundNearest (1 / 10 ^ 9))) = true
    simp only [F64.le, F64.lt, F64.eq, Bool.or_eq_true, decide_eq_true_eq]
    exact Or.inl hepos
  have hkey : ∀ s : ℚ, roundNearest (q - s) ≤ roundNearest (1 / 10 ^ 9) →
      F64.le (shifted (F64.fin s) (F64.fin q)) eps = true := by
    intro s hs
    unfold shifted
    rw [sub_fin_fin]
    rcases round_cases (q - s) with ⟨h1, _⟩ | ⟨h1, _⟩ | ⟨h1, _⟩
    · rw [h1]
      simp only [F64.isNaN, F64.isInf, Bool.or_self, Bool.false_eq_true, if_false]
      rw [eps_eq]
      simp only [F64.le, F64.lt, F64.eq, Bool.or_eq_true, decide_eq_true_eq]
      exact lt_or_eq_of_le hs
    · rw [h1]; simpa [F64.isNaN, F64.isInf] using h0
    · rw [h1]; simpa [F64.isNaN, F64.isInf] using h0
  by_cases hgt : F64.gt (F64.fin m) eps = true
  · rw [if_pos hgt]
    apply hkey
    exact le_trans (roundNearest_nonpos _ (by linarith)) (le_of_lt hepos)
  · rw [if_neg hgt]
    have hm : m ≤ roundNearest (1 / 10 ^ 9) := by
      rw [eps_eq] at hgt
      simpa [F64.gt, F64.lt] using hgt
    rw [zero_eq_fin]
    apply hkey
    rw [sub_zero]
    have := roundNearest_mono q _ (le_trans hq hm)
    rwa [roundNearest_idem] at this


theorem applyNoPreamp_eq (inputEQ : AutoEQData) (sortedFreqs : List Int) :
    applyNoPreamp inputEQ sortedFreqs =
      let st := sortedFreqs.foldl (noPreampStep inputEQ) scanInit
      if !st.hasData then st.outputEQ
      else if st.maxGain.isNaN || st.maxGain.isInf then st.outputEQ
      else st.outputEQ.keys.foldl
        (noPreampShift (if F64.gt st.maxGain eps then st.maxGain else (0 : F64))) st.outputEQ :=
  rfl

theorem scan_mem (inputEQ : AutoEQData) (fs : List Int) (k : Int) :
    k ∈ (fs.foldl (noPreampStep inputEQ) scanInit).outputEQ ↔ k ∈ fs ∧ k ∈ inputEQ := by
  rw [AutoEQData.mem_iff_lookup]
  simp only [scan_outputEQ_lookup]
  by_cases h : k ∈ fs ∧ k ∈ inputEQ
  · rw [if_pos h]
    obtain ⟨v, hv⟩ := (AutoEQData.mem_iff_lookup _ _).1 h.2
    simp [h, hv]
  · rw [if_neg h]; simp [h, scanInit]

/-- Lookup in the result of `applyNoPreamp`: the curve's entries on the axis, sanitised and
shifted by the maximum found by the scan. -/
theorem applyNoPreamp_lookup (inputEQ : AutoEQData) (sortedFreqs : List Int) :
    ∃ m : ℚ, (∀ k2 v, k2 ∈ sortedFreqs → inputEQ.lookup k2 = some v →
        ∃ q, sanitize v = F64.fin q ∧ q ≤ m) ∧
      ∀ k, (applyNoPreamp inputEQ sortedFreqs).lookup k =
        if k ∈ sortedFreqs ∧ k ∈ inputEQ then
          (inputEQ.lookup k).map (fun v =>
            shifted (if F64.gt (F64.fin m) eps then F64.fin m else (0 : F64)) (sanitize v))
        else none := by
  have hinv := scan_inv inputEQ sortedFreqs scanInit scanInit_inv
  obtain ⟨m, hm, hb⟩ := hinv
  refine ⟨m, ?_, ?_⟩
  · intro k2 v hk2 hv
    have hmem : k2 ∈ inputEQ := (AutoEQData.mem_iff_lookup _ _).2 ⟨v, hv⟩
    have := hb k2 (sanitize v) (by rw [scan_outputEQ_lookup, if_pos ⟨hk2, hmem⟩, hv]; rfl)
    exact this
  · intro k
    rw [applyNoPreamp_eq]
    simp only
    by_cases hd : (sortedFreqs.foldl (noPreampStep inputEQ) scanInit).hasData = true
    · have hfin : ((sortedFreqs.foldl (noPreampStep inputEQ) scanInit).maxGain.isNaN ||
          (sortedFreqs.foldl (noPreampStep inputEQ) scanInit).maxGain.isInf) = false := by
        rw [hm]; rfl
      simp only [hd, hfin, Bool.not_true, Bool.false_eq_true, if_false]
      rw [shiftLoop_lookup _ _ (AList.keys_nodup _), hm]
      by_cases hk : k ∈ sortedFreqs ∧ k ∈ inputEQ
      · have hk2 : k ∈ (sortedFreqs.foldl (noPreampStep inputEQ) scanInit).outputEQ.keys :=
          AList.mem_keys.1 ((scan_mem _ _ _).2 hk)
        rw [if_pos hk2, if_pos hk]
        obtain ⟨v, hv⟩ := (AutoEQData.mem_iff_lookup _ _).1 hk.2
        simp only [AutoEQData.get, scan_outputEQ_lookup, if_pos hk, hv, Option.map_some',
          Option.getD_some]
      · have hk2 : k ∉ (sortedFreqs.foldl (noPreampStep inputEQ) scanInit).outputEQ.keys :=
          fun h => hk ((scan_mem _ _ _).1 (AList.mem_keys.2 h))
        rw [if_neg hk2, if_neg hk, scan_outputEQ_lookup, if_neg hk]
        rfl
    · have hd2 : (sortedFreqs.foldl (noPreampStep inputEQ) scanInit).hasData = false := by
        simpa using hd
      simp only [hd2, Bool.not_false, if_true]
      have hno : ¬ ∃ f ∈ sortedFreqs, f ∈ inputEQ := by
        intro h
        exact hd ((scan_hasData _ _ _).2 (Or.inr h))
      have hk : ¬ (k ∈ sortedFreqs ∧ k ∈ inputEQ) := fun h => hno ⟨k, h.1, h.2⟩
      rw [scan_outputEQ_lookup, if_neg hk, if_neg hk]
      rfl

/-- C1. Normalisation postcondition: when the curve has an entry at an axis frequency, the
result of `applyNoPreamp` is not empty and every gain in it is at most 1e-9 (holds for
every curve, with finite gains or not). -/
theorem applyNoPreamp_max_le_eps (inputEQ : AutoEQData) (sortedFreqs : List Int)
    (h : ∃ f ∈ sortedFreqs, f ∈ inputEQ) :
    (∃ f, f ∈ applyNoPreamp inputEQ sortedFreqs) ∧
      ∀ f g, (applyNoPreamp inputEQ sortedFreqs).lookup f = some g → F64.le g eps = true := by
  obtain ⟨m, hb, hl⟩ := applyNoPreamp_lookup inputEQ sortedFreqs
  constructor
  · obtain ⟨f, hf, hfi⟩ := h
    refine ⟨f, ?_⟩
    obtain ⟨v, hv⟩ := (AutoEQData.mem_iff_lookup _ _).1 hfi
    rw [AutoEQData.mem_iff_lookup, hl f, if_pos ⟨hf, hfi⟩, hv]
    exact ⟨_, rfl⟩
  · intro f g hg
    rw [hl f] at hg
    by_cases hk : f ∈ sortedFreqs ∧ f ∈ inputEQ
    · rw [if_pos hk] at hg
      obtain ⟨v, hv⟩ := (AutoEQData.mem_iff_lookup _ _).1 hk.2
      rw [hv] at hg
      obtain ⟨q, hq, hle⟩ := hb f v hk.1 hv
      have := Option.some.inj hg
      rw [← this]
      show F64.le (shifted _ (sanitize v)) eps = true
      rw [hq]
      exact shifted_le_eps m q hle
    · rw [if_neg hk] at hg; cases hg

theorem applyNoPreamp_max_le_eps_witness :
    (∃ f, f ∈ applyNoPreamp curveMinimal [100, 1000]) ∧
      ∀ f g, (applyNoPreamp curveMinimal [100, 1000]).lookup f = some g →
        F64.le g eps = true :=
  applyNoPreamp_max_le_eps curveMinimal [100, 1000] ⟨100, by decide, by decide⟩

/-! ## Lemmas: digits -/

theorem digitChar_isDigit (k : Nat) (h : k < 10) :
    isDigit (Nat.digitChar k) = true ∧ digitVal (Nat.digitChar k) = k := by
  interval_cases k <;> decide

theorem digitsToNat_append (base : Nat) (xs ys : Str) :
    digitsToNat base (xs ++ ys) =
      ys.foldl (fun acc c => acc * base + digitVal c) (digitsToNat base xs) := by
  simp [digitsToNat, List.foldl_append]

theorem toDigitsCore_spec (fuel n : Nat) (ds : Str) (h : n < fuel) :
    ∃ pre, Nat.toDigitsCore 10 fuel n ds = pre ++ ds ∧ pre ≠ [] ∧
      (∀ c ∈ pre, isDigit c = true) ∧ digitsToNat 10 pre = n := by
  induction fuel generalizing n ds with
  | zero => omega
  | succ fuel ih =>
    obtain ⟨hd, hv⟩ := digitChar_isDigit (n % 10) (Nat.mod_lt _ (by norm_num))
    unfold Nat.toDigitsCore
    by_cases h0 : n / 10 = 0
    · simp only [h0, if_true]
      refine ⟨[Nat.digitChar (n % 10)], rfl, by simp, by simpa using hd, ?_⟩
      simp only [digitsToNat, List.foldl_cons, List.foldl_nil, hv]
      omega
    · simp only [h0, if_false]
      have hlt : n / 10 < fuel := by omega
      obtain ⟨pre, he, _, hall, hval⟩ := ih (n / 10) (Nat.digitChar (n % 10) :: ds) hlt
      refine ⟨pre ++ [Nat.digitChar (n % 10)], by simp [he], by simp, ?_, ?_⟩
      · intro c hc
        rcases List.mem_append.1 hc with h1 | h1
        · exact hall c h1
        · simp only [List.mem_singleton] at h1; rw [h1]; exact hd
      · rw [digitsToNat_append, hval]
        simp only [List.foldl_cons, List.foldl_nil, hv]
        omega

theorem natToStr_spec (n : Nat) :
    natToStr n ≠ [] ∧ (∀ c ∈ natToStr n, isDigit c = true) ∧ digitsToNat 10 (natToStr n) = n := by
  obtain ⟨pre, he, hne, hall, hval⟩ := toDigitsCore_spec (n + 1) n [] (Nat.lt_succ_self n)
  have : natToStr n = pre := by simpa [natToStr, Nat.toDigits] using he
  rw [this]
  exact ⟨hne, hall, hval⟩

theorem natToStr_digit (d : Nat) (h : d < 10) : natToStr d = [Nat.digitChar d] := by
  interval_cases d <;> rfl

theorem isDigit_not_space (c : Char) (h : isDigit c = true) : isSpace c = false := by
  simp only [isDigit, Bool.and_eq_true, decide_eq_true_eq] at h
  simp only [isSpace, Bool.or_eq_false_iff, Bool.and_eq_false_iff, decide_eq_false_iff_not]
  omega

theorem isDigit_ne (c d : Char) (h : isDigit c = true) (hd : isDigit d = false) : c ≠ d := by
  intro he; rw [he, hd] at h; cases h

theorem all_isDigit (ds : Str) (h : ∀ c ∈ ds, isDigit c = true) : ds.all isDigit = true := by
  simpa [List.all_eq_true] using h

/-! ## Lemmas: `atoi` after `%d` -/

theorem atoi_fmtInt (f : Int) (h0 : 0 < f) (h1 : f ≤ 30000) : atoi (fmtInt f) = some f := by
  obtain ⟨hne, hall, hval⟩ := natToStr_spec f.toNat
  have hf : fmtInt f = natToStr f.toNat := by simp [fmtInt, not_lt.2 (le_of_lt h0)]
  rw [hf]
  obtain ⟨c, cs, hcs⟩ := List.exists_cons_of_ne_nil hne
  have hc : isDigit c = true := hall c (by rw [hcs]; simp)
  have hm : c ≠ '-' := isDigit_ne c '-' hc (by decide)
  have hp : c ≠ '+' := isDigit_ne c '+' hc (by decide)
  unfold atoi
  have hh : (natToStr f.toNat).head? = some c := by rw [hcs]; rfl
  simp only [hh, Option.some.injEq, hm, hp, or_self, if_false]
  rw [if_neg (by
    rintro (h | h)
    · exact hne h
    · exact h (all_isDigit _ hall))]
  rw [hval]
  have : ((f.toNat : Nat) : Int) = f := Int.toNat_of_nonneg (le_of_lt h0)
  rw [this]
  rw [if_neg (by norm_num; omega)]

/-! ## Lemmas: `parseFloat` after `%.1f` -/

theorem lower_digit (c : Char) (h : isDigit c = true) : lower c = c := by
  simp only [isDigit, Bool.and_eq_true, decide_eq_true_eq] at h
  unfold lower
  rw [if_neg (by omega)]

theorem hasHexPrefix_decimal (ds : Str) (d : Char) (hall : ∀ c ∈ ds, isDigit c = true) :
    hasHexPrefix (ds ++ '.' :: [d]) = false := by
  match ds, hall with
  | [], _ => rfl
  | [c], _ =>
    simp only [List.cons_append, List.nil_append]
    unfold hasHexPrefix
    split
    · rename_i heq
      simp only [List.cons.injEq] at heq
      rw [← heq.2.1]; decide
    · rfl
  | c :: c2 :: cs2, hall =>
    have hc2 : isDigit c2 = true := hall c2 (by simp)
    simp only [List.cons_append]
    unfold hasHexPrefix
    split
    · rename_i heq
      simp only [List.cons.injEq] at heq
      rw [← heq.2.1, lower_digit c2 hc2]
      exact decide_eq_false (isDigit_ne c2 'x' hc2 (by decide))
    · rfl

theorem readFloat_decimal (ds : Str) (d : Char) (hne : ds ≠ [])
    (hall : ∀ c ∈ ds, isDigit c = true) (hd : isDigit d = true) :
    readFloat (ds ++ '.' :: [d]) =
      if F64.maxFloat64 <
          roundNearest (((digitsToNat 10 ds * 10 + digitVal d : Nat) : ℚ) / 10) then none
      else some (F64.fin
        (roundNearest (((digitsToNat 10 ds * 10 + digitVal d : Nat) : ℚ) / 10))) := by
  obtain ⟨c, cs, hcs⟩ := List.exists_cons_of_ne_nil hne
  have hc : isDigit c = true := hall c (by rw [hcs]; simp)
  have hm : c ≠ '-' := isDigit_ne c '-' hc (by decide)
  have hp : c ≠ '+' := isDigit_ne c '+' hc (by decide)
  have hh : (ds ++ '.' :: [d]).head? = some c := by rw [hcs]; rfl
  have hdot : isDigit '.' = false := by decide
  have htake : (ds ++ '.' :: [d]).takeWhile isDigit = ds := by
    rw [List.takeWhile_append_of_pos hall]; simp [List.takeWhile, hdot]
  have hdrop : (ds ++ '.' :: [d]).dropWhile isDigit = '.' :: [d] := by
    rw [List.dropWhile_append_of_pos hall]; simp [List.dropWhile, hdot]
  have htd : fracDigits isDigit ('.' :: [d]) = [d] := by
    simp [fracDigits, List.takeWhile, hd]
  have hdd : afterMantissa isDigit ('.' :: [d]) = [] := by
    simp [afterMantissa, List.dropWhile, hd]
  have hm10 : digitsToNat 10 (ds ++ [d]) = digitsToNat 10 ds * 10 + digitVal d := by
    rw [digitsToNat_append]; rfl
  have hsc : scale (digitsToNat 10 (ds ++ [d])) 10 (0 - ((([d] : Str).length : Nat) : Int)) =
      ((digitsToNat 10 ds * 10 + digitVal d : Nat) : ℚ) / 10 := by
    rw [hm10]
    simp [scale]
  unfold readFloat
  simp only [hh, Option.some.injEq, hm, hp, or_self, if_false, hasHexPrefix_decimal ds d hall,
    Bool.false_eq_true, htake, hdrop, htd, hdd]
  rw [if_neg (by simp)]
  simp only [readExp, if_false, Bool.false_eq_true, decide_False, hsc]

theorem readFloat_neg_decimal (ds : Str) (d : Char) (hne : ds ≠ [])
    (hall : ∀ c ∈ ds, isDigit c = true) (hd : isDigit d = true) :
    readFloat ('-' :: (ds ++ '.' :: [d])) =
      if F64.maxFloat64 <
          roundNearest (((digitsToNat 10 ds * 10 + digitVal d : Nat) : ℚ) / 10) then none
      else some (F64.fin
        (-roundNearest (((digitsToNat 10 ds * 10 + digitVal d : Nat) : ℚ) / 10))) := by
  have hh : ('-' :: (ds ++ '.' :: [d])).head? = some '-' := rfl
  have hdot : isDigit '.' = false := by decide
  have htake : (ds ++ '.' :: [d]).takeWhile isDigit = ds := by
    rw [List.takeWhile_append_of_pos hall]; simp [List.takeWhile, hdot]
  have hdrop : (ds ++ '.' :: [d]).dropWhile isDigit = '.' :: [d] := by
    rw [List.dropWhile_append_of_pos hall]; simp [List.dropWhile, hdot]
  have htd : fracDigits isDigit ('.' :: [d]) = [d] := by
    simp [fracDigits, List.takeWhile, hd]
  have hdd : afterMantissa isDigit ('.' :: [d]) = [] := by
    simp [afterMantissa, List.dropWhile, hd]
  have hm10 : digitsToNat 10 (ds ++ [d]) = digitsToNat 10 ds * 10 + digitVal d := by
    rw [digitsToNat_append]; rfl
  have hsc : scale (digitsToNat 10 (ds ++ [d])) 10 (0 - ((([d] : Str).length : Nat) : Int)) =
      ((digitsToNat 10 ds * 10 + digitVal d : Nat) : ℚ) / 10 := by
    rw [hm10]
    simp [scale]
  unfold readFloat
  simp only [hh, true_or, if_true, List.tail_cons, hasHexPrefix_decimal ds d hall,
    Bool.false_eq_true, if_false, htake, hdrop, htd, hdd]
  rw [if_neg (by simp [hne])]
  simp only [readExp, if_false, Bool.false_eq_true, decide_False, hsc, decide_True, if_true]


theorem special_digit_head (c : Char) (rest : Str) (hc : isDigit c = true) :
    special (c :: rest) = none := by
  have hl : lower c = c := lower_digit c hc
  have h1 : c ≠ 'i' := isDigit_ne c 'i' hc (by decide)
  have h2 : c ≠ '+' := isDigit_ne c '+' hc (by decide)
  have h3 : c ≠ '-' := isDigit_ne c '-' hc (by decide)
  have h4 : c ≠ 'n' := isDigit_ne c 'n' hc (by decide)
  simp [special, hl, h1, h2, h3, h4]

theorem special_minus_digit (c : Char) (rest : Str) (hc : isDigit c = true) :
    special ('-' :: c :: rest) = none := by
  have hl : lower c = c := lower_digit c hc
  have h1 : c ≠ 'i' := isDigit_ne c 'i' hc (by decide)
  have hm : lower '-' = '-' := by decide
  simp [special, hl, h1, hm]

theorem contains_underscore_false (s : Str) (h : ∀ c ∈ s, c ≠ '_') : s.contains '_' = false := by
  rw [Bool.eq_false_iff]
  intro hc
  rw [List.contains_iff_exists_mem_beq] at hc
  obtain ⟨c, hc, he⟩ := hc
  have : '_' = c := by simpa using he
  exact h c hc this.symm


theorem maxFloat64_nat : ∃ N : Nat, (N : ℚ) = F64.maxFloat64 * 10 := by
  refine ⟨(2 ^ 53 - 1) * 2 ^ 971 * 10, ?_⟩
  unfold F64.maxFloat64
  rw [Nat.cast_mul, Nat.cast_mul, Nat.cast_pow, Nat.cast_sub (Nat.one_le_two_pow), Nat.cast_pow]
  simp only [Nat.cast_ofNat, Nat.cast_one]

theorem parseFloat_fmtF1 (q : ℚ) (hv : |q| ≤ F64.maxFloat64) :
    parseFloat (fmtF1 (F64.fin q)) = some (round1 (F64.fin q)) := by
  obtain ⟨hne, hall, hval⟩ := natToStr_spec (roundHalfEven (|q| * 10) / 10)
  have hlt : roundHalfEven (|q| * 10) % 10 < 10 := Nat.mod_lt _ (by norm_num)
  obtain ⟨hd, hdv⟩ := digitChar_isDigit _ hlt
  have hbody : natToStr (roundHalfEven (|q| * 10) / 10) ++
      '.' :: natToStr (roundHalfEven (|q| * 10) % 10) =
      natToStr (roundHalfEven (|q| * 10) / 10) ++
        '.' :: [Nat.digitChar (roundHalfEven (|q| * 10) % 10)] := by
    rw [natToStr_digit _ hlt]
  have hsum : digitsToNat 10 (natToStr (roundHalfEven (|q| * 10) / 10)) * 10 +
      digitVal (Nat.digitChar (roundHalfEven (|q| * 10) % 10)) = roundHalfEven (|q| * 10) := by
    rw [hval, hdv]; omega
  have hbound : ¬ F64.maxFloat64 <
      roundNearest (((roundHalfEven (|q| * 10) : Nat) : ℚ) / 10) := by
    obtain ⟨N, hN⟩ := maxFloat64_nat
    have h10 : |q| * 10 ≤ (N : ℚ) := by rw [hN]; linarith
    have := roundHalfEven_le (|q| * 10) N (by positivity) h10
    have h2 : ((roundHalfEven (|q| * 10) : Nat) : ℚ) ≤ (N : ℚ) := by exact_mod_cast this
    rw [hN] at h2
    have h3 : ((roundHalfEven (|q| * 10) : Nat) : ℚ) / 10 ≤ F64.maxFloat64 := by linarith
    have h4 := roundNearest_mono _ _ h3
    rw [roundNearest_maxFloat64] at h4
    exact not_lt.2 h4
  obtain ⟨c, cs, hcs⟩ := List.exists_cons_of_ne_nil hne
  have hc : isDigit c = true := hall c (by rw [hcs]; simp)
  have hnu : ∀ x ∈ natToStr (roundHalfEven (|q| * 10) / 10) ++
      '.' :: [Nat.digitChar (roundHalfEven (|q| * 10) % 10)], x ≠ '_' := by
    intro x hx
    rcases List.mem_append.1 hx with h | h
    · exact isDigit_ne x '_' (hall x h) (by decide)
    · rcases List.mem_cons.1 h with h | h
      · rw [h]; decide
      · rw [List.mem_singleton.1 h]; exact isDigit_ne _ '_' hd (by decide)
  by_cases hq : q < 0
  · have hf : fmtF1 (F64.fin q) = '-' :: (natToStr (roundHalfEven (|q| * 10) / 10) ++
        '.' :: [Nat.digitChar (roundHalfEven (|q| * 10) % 10)]) := by
      simp only [fmtF1, if_pos hq, hbody]
    rw [hf]
    unfold parseFloat
    have hsp : special ('-' :: (natToStr (roundHalfEven (|q| * 10) / 10) ++
        '.' :: [Nat.digitChar (roundHalfEven (|q| * 10) % 10)])) = none := by
      rw [hcs]; exact special_minus_digit c _ hc
    rw [hsp]
    simp only
    rw [contains_underscore_false _ (by
      intro x hx
      rcases List.mem_cons.1 hx with h | h
      · rw [h]; decide
      · exact hnu x h)]
    simp only [Bool.false_eq_true, if_false]
    rw [readFloat_neg_decimal _ _ hne hall hd, hsum, if_neg hbound]
    simp only [round1, if_pos hq]
  · have hf : fmtF1 (F64.fin q) = natToStr (roundHalfEven (|q| * 10) / 10) ++
        '.' :: [Nat.digitChar (roundHalfEven (|q| * 10) % 10)] := by
      simp only [fmtF1, if_neg hq, hbody]
    rw [hf]
    unfold parseFloat
    have hsp : special (natToStr (roundHalfEven (|q| * 10) / 10) ++
        '.' :: [Nat.digitChar (roundHalfEven (|q| * 10) % 10)]) = none := by
      rw [hcs]; exact special_digit_head c _ hc
    rw [hsp]
    simp only
    rw [contains_underscore_false _ hnu]
    simp only [Bool.false_eq_true, if_false]
    rw [readFloat_decimal _ _ hne hall hd, hsum, if_neg hbound]
    simp only [round1, if_neg hq]


/-! ## Lemmas: `strings.TrimSpace` -/

theorem trimSpace_eq_rdropWhile (s : Str) :
    trimSpace s = (s.dropWhile isSpace).rdropWhile isSpace := rfl

theorem rdropWhile_append_of_pos (p : Char → Bool) (a ws : Str) (h : ∀ c ∈ ws, p c = true) :
    (a ++ ws).rdropWhile p = a.rdropWhile p := by
  unfold List.rdropWhile
  rw [List.reverse_append, List.dropWhile_append_of_pos]
  intro c hc
  exact h c (List.mem_reverse.1 hc)

theorem trimSpace_pad (ws1 core ws2 : Str) (h1 : ∀ c ∈ ws1, isSpace c = true)
    (h2 : ∀ c ∈ ws2, isSpace c = true) (hc : Trimmed core) :
    trimSpace (ws1 ++ core ++ ws2) = core := by
  rw [trimSpace_eq_rdropWhile, List.append_assoc, List.dropWhile_append_of_pos h1]
  rcases hc with hc | ⟨⟨c, rest, hcr, hsp⟩, ⟨init, l, hil, hl⟩⟩
  · subst hc
    have : List.dropWhile isSpace ([] ++ ws2) = [] := by
      rw [List.nil_append, List.dropWhile_eq_nil_iff]; exact h2
    rw [this]; rfl
  · have hd : List.dropWhile isSpace (core ++ ws2) = core ++ ws2 := by
      rw [hcr, List.cons_append, List.dropWhile_cons_of_neg (by simp [hsp])]
    rw [hd, rdropWhile_append_of_pos _ _ _ h2, hil, List.rdropWhile_concat_neg _ _ _ (by simp [hl])]

theorem trimSpace_trimmed (s : Str) : Trimmed (trimSpace s) := by
  by_cases he : trimSpace s = []
  · exact Or.inl he
  · right
    have hpre : trimSpace s <+: s.dropWhile isSpace := List.rdropWhile_prefix _ _
    obtain ⟨t, ht⟩ := hpre
    constructor
    · obtain ⟨c, rest, hcr⟩ := List.exists_cons_of_ne_nil he
      refine ⟨c, rest, hcr, ?_⟩
      have h1 : (s.dropWhile isSpace).head? = some c := by rw [← ht, hcr]; rfl
      have h2 := List.head?_dropWhile_not isSpace s
      rw [h1] at h2
      simpa using h2
    · have hl := List.rdropWhile_last_not isSpace (s.dropWhile isSpace) he
      refine ⟨(trimSpace s).dropLast, (trimSpace s).getLast he, ?_, ?_⟩
      · exact (List.dropLast_append_getLast he).symm
      · simpa using hl

theorem trimSpace_decomp (s : Str) :
    ∃ ws1 ws2, s = ws1 ++ trimSpace s ++ ws2 ∧ (∀ c ∈ ws1, isSpace c = true) ∧
      (∀ c ∈ ws2, isSpace c = true) := by
  have hpre : trimSpace s <+: s.dropWhile isSpace := List.rdropWhile_prefix _ _
  obtain ⟨t, ht⟩ := hpre
  refine ⟨s.takeWhile isSpace, t, ?_, ?_, ?_⟩
  · rw [List.append_assoc, ht, List.takeWhile_append_dropWhile]
  · intro c hc; exact List.mem_takeWhile_imp hc
  · -- `t` is what `rdropWhile` removed
    have h3 : ((s.dropWhile isSpace).reverse.dropWhile isSpace).reverse ++ t =
        s.dropWhile isSpace := ht
    have h4 : ((s.dropWhile isSpace).reverse.takeWhile isSpace ++
        (s.dropWhile isSpace).reverse.dropWhile isSpace).reverse = s.dropWhile isSpace := by
      rw [List.takeWhile_append_dropWhile, List.reverse_reverse]
    rw [List.reverse_append] at h4
    have h5 : t = ((s.dropWhile isSpace).reverse.takeWhile isSpace).reverse :=
      List.append_cancel_left (h3.trans h4.symm)
    intro c hc
    rw [h5] at hc
    exact List.mem_takeWhile_imp (List.mem_reverse.1 hc)

theorem trimSpace_idem (s : Str) : trimSpace (trimSpace s) = trimSpace s := by
  have := trimSpace_pad [] (trimSpace s) [] (by simp) (by simp) (trimSpace_trimmed s)
  simpa using this

theorem trimSpace_of_trimmed (s : Str) (h : Trimmed s) : trimSpace s = s := by
  have := trimSpace_pad [] s [] (by simp) (by simp) h
  simpa using this

theorem trimSpace_append_left (ws s : Str) (h : ∀ c ∈ ws, isSpace c = true) :
    trimSpace (ws ++ s) = trimSpace s := by
  obtain ⟨w1, w2, hs, hw1, hw2⟩ := trimSpace_decomp s
  have := trimSpace_pad (ws ++ w1) (trimSpace s) w2 (by
    intro c hc
    rcases List.mem_append.1 hc with h3 | h3
    · exact h c h3
    · exact hw1 c h3) hw2 (trimSpace_trimmed s)
  rw [List.append_assoc, List.append_assoc, ← List.append_assoc w1, ← hs] at this
  exact this

theorem trimSpace_append_right (s ws : Str) (h : ∀ c ∈ ws, isSpace c = true) :
    trimSpace (s ++ ws) = trimSpace s := by
  obtain ⟨w1, w2, hs, hw1, hw2⟩ := trimSpace_decomp s
  have := trimSpace_pad w1 (trimSpace s) (w2 ++ ws) hw1 (by
    intro c hc
    rcases List.mem_append.1 hc with h3 | h3
    · exact hw2 c h3
    · exact h c h3) (trimSpace_trimmed s)
  rw [← List.append_assoc, ← hs] at this
  exact this



/-! ## Lemmas: `strings.Split` -/

theorem split_cons (c sep : Char) (s : Str) :
    split (c :: s) sep =
      if c = sep then [] :: split s sep else (split s sep).modifyHead (List.cons c) := by
  unfold split List.splitOn
  rw [List.splitOnP_cons]
  simp

theorem split_ne_nil (s : Str) (sep : Char) : split s sep ≠ [] :=
  List.splitOnP_ne_nil _ _

theorem split_no_sep (s : Str) (sep : Char) (h : ∀ c ∈ s, c ≠ sep) : split s sep = [s] := by
  unfold split List.splitOn
  exact List.splitOnP_eq_single _ _ (by
    intro x hx; simpa using h x hx)

theorem split_append_left (ws s : Str) (sep : Char) (h : ∀ c ∈ ws, c ≠ sep) :
    split (ws ++ s) sep = (split s sep).modifyHead (fun x => ws ++ x) := by
  induction ws with
  | nil =>
    have : (fun x : Str => [] ++ x) = id := by funext x; rfl
    rw [this, List.modifyHead_id]; rfl
  | cons w ws ih =>
    rw [List.cons_append, split_cons, if_neg (h w (by simp)),
      ih (fun c hc => h c (List.mem_cons_of_mem _ hc)), List.modifyHead_modifyHead]
    rfl

theorem appendLast_modifyHead (f : Str → Str) (xs : List Str) (ws : Str) (hne : xs ≠ [])
    (hf : ∀ x, f (x ++ ws) = f x ++ ws) :
    (appendLast xs ws).modifyHead f = appendLast (xs.modifyHead f) ws := by
  match xs, hne with
  | [x], _ => simp [appendLast, hf]
  | x :: y :: r, _ => simp [appendLast]

theorem split_append_right (s ws : Str) (sep : Char) (h : ∀ c ∈ ws, c ≠ sep) :
    split (s ++ ws) sep = appendLast (split s sep) ws := by
  induction s with
  | nil =>
    rw [List.nil_append, split_no_sep ws sep h]
    rfl
  | cons c s ih =>
    rw [List.cons_append, split_cons, split_cons, ih]
    by_cases hc : c = sep
    · rw [if_pos hc, if_pos hc]
      obtain ⟨y, r, hy⟩ := List.exists_cons_of_ne_nil (split_ne_nil s sep)
      rw [hy]; rfl
    · rw [if_neg hc, if_neg hc]
      exact appendLast_modifyHead _ _ _ (split_ne_nil s sep) (fun x => rfl)

theorem map_trimSpace_modifyHead (ws : Str) (xs : List Str)
    (h : ∀ c ∈ ws, isSpace c = true) :
    (xs.modifyHead (fun x => ws ++ x)).map trimSpace = xs.map trimSpace := by
  cases xs with
  | nil => rfl
  | cons x r => simp [trimSpace_append_left ws x h]

theorem map_trimSpace_appendLast (xs : List Str) (ws : Str) (hne : xs ≠ [])
    (h : ∀ c ∈ ws, isSpace c = true) :
    (appendLast xs ws).map trimSpace = xs.map trimSpace := by
  induction xs with
  | nil => exact absurd rfl hne
  | cons x r ih =>
    cases r with
    | nil => simp [appendLast, trimSpace_append_right x ws h]
    | cons y r2 =>
      have := ih (by simp)
      simp only [appendLast, List.map_cons] at this ⊢
      rw [this]

theorem isSpace_ne_semicolon (c : Char) (h : isSpace c = true) : c ≠ ';' := by
  intro he; rw [he] at h; revert h; decide

/-- Splitting the trimmed string gives the same points, up to trimming each. -/
theorem map_trimSpace_split_trimSpace (s : Str) :
    (split (trimSpace s) ';').map trimSpace = (split s ';').map trimSpace := by
  obtain ⟨w1, w2, hs, hw1, hw2⟩ := trimSpace_decomp s
  have h1 : ∀ c ∈ w1, c ≠ ';' := fun c hc => isSpace_ne_semicolon c (hw1 c hc)
  have h2 : ∀ c ∈ w2, c ≠ ';' := fun c hc => isSpace_ne_semicolon c (hw2 c hc)
  conv_rhs => rw [hs]
  rw [split_append_right _ _ _ h2, split_append_left _ _ _ h1,
    map_trimSpace_appendLast _ _ (by
      rw [Ne, List.modifyHead_eq_nil_iff]; exact split_ne_nil _ _) hw2,
    map_trimSpace_modifyHead _ _ hw1]

theorem split_intercalate (toks : List Str) (hne : toks ≠ [])
    (h : ∀ t ∈ toks, ∀ c ∈ t, c ≠ ';') :
    split ([';'].intercalate toks) ';' = toks := by
  unfold split
  exact List.splitOn_intercalate _ ';' (fun l hl hc => h l hl ';' hc rfl) hne

theorem replaceCRLF_no_newline (s : Str) (h : ∀ c ∈ s, c ≠ '\n') : replaceCRLF s = s := by
  match s, h with
  | [], _ => rfl
  | [c], _ => rfl
  | c :: d :: rest, h =>
    have hd : d ≠ '\n' := h d (by simp)
    unfold replaceCRLF
    rw [if_neg (fun hh => hd hh.2),
      replaceCRLF_no_newline (d :: rest) (fun x hx => h x (List.mem_cons_of_mem _ hx))]



/-! ## Lemmas: `strings.Fields` -/

theorem fieldsAux_nospace (w rest cur : Str) (h : ∀ c ∈ w, isSpace c = false) :
    fieldsAux (w ++ rest) cur = fieldsAux rest (w.reverse ++ cur) := by
  induction w generalizing cur with
  | nil => rfl
  | cons c w ih =>
    have hc : isSpace c = false := h c (by simp)
    rw [List.cons_append, fieldsAux]
    simp only [hc, Bool.false_eq_true, if_false]
    rw [ih _ (fun x hx => h x (List.mem_cons_of_mem _ hx))]
    simp

theorem fieldsAux_spaces_nil (ws : Str) (h : ∀ c ∈ ws, isSpace c = true) :
    fieldsAux ws [] = [] := by
  induction ws with
  | nil => rfl
  | cons c ws ih =>
    rw [fieldsAux]
    simp only [h c (by simp), if_true]
    exact ih (fun x hx => h x (List.mem_cons_of_mem _ hx))

theorem fieldsAux_spaces (ws rest : Str) (h : ∀ c ∈ ws, isSpace c = true) :
    fieldsAux (ws ++ rest) [] = fieldsAux rest [] := by
  induction ws with
  | nil => rfl
  | cons c ws ih =>
    rw [List.cons_append, fieldsAux]
    simp only [h c (by simp), if_true]
    exact ih (fun x hx => h x (List.mem_cons_of_mem _ hx))

theorem fieldsAux_trailing (l ws cur : Str) (h : ∀ c ∈ ws, isSpace c = true) :
    fieldsAux (l ++ ws) cur = fieldsAux l cur := by
  induction l generalizing cur with
  | nil =>
    rw [List.nil_append]
    cases ws with
    | nil => rfl
    | cons c ws =>
      have h1 : fieldsAux (c :: ws) cur =
          if cur = [] then fieldsAux ws [] else cur.reverse :: fieldsAux ws [] := by
        rw [fieldsAux]; simp only [h c (by simp), if_true]
      rw [h1, fieldsAux_spaces_nil ws (fun x hx => h x (List.mem_cons_of_mem _ hx)), fieldsAux]
  | cons c l ih =>
    rw [List.cons_append, fieldsAux, fieldsAux]
    simp only [ih]

theorem fields_trimSpace (s : Str) : fields (trimSpace s) = fields s := by
  obtain ⟨w1, w2, hs, hw1, hw2⟩ := trimSpace_decomp s
  conv_rhs => rw [hs]
  unfold fields
  rw [List.append_assoc, fieldsAux_spaces _ _ hw1, fieldsAux_trailing _ _ _ hw2]

theorem fields_two (w1 w2 : Str) (h1 : ∀ c ∈ w1, isSpace c = false)
    (h2 : ∀ c ∈ w2, isSpace c = false) (hn1 : w1 ≠ []) (hn2 : w2 ≠ []) :
    fields (w1 ++ ' ' :: w2) = [w1, w2] := by
  unfold fields
  rw [fieldsAux_nospace w1 _ _ h1, fieldsAux]
  have hsp : isSpace ' ' = true := by decide
  simp only [hsp, if_true, List.append_nil, List.reverse_eq_nil_iff, hn1, if_false,
    List.reverse_reverse]
  have := fieldsAux_nospace w2 [] [] h2
  rw [List.append_nil] at this
  rw [this, fieldsAux]
  simp [hn2]

theorem fields_eq_nil_of_trimSpace (s : Str) (h : trimSpace s = []) : fields s = [] := by
  rw [← fields_trimSpace, h]; rfl

/-! ## Lemmas: one point of `parseAutoEQ` -/

theorem parsePoint_trimSpace (p : Str) : parsePoint (trimSpace p) = parsePoint p := by
  unfold parsePoint
  simp only [trimSpace_idem]

/-- What `parsePoint` accepts: exactly two fields, an integer frequency in 1..30000 and a
finite gain. -/
theorem parsePoint_eq_some (p : Str) (f : Int) (g : F64) :
    parsePoint p = some (f, g) ↔
      ∃ a b, fields p = [a, b] ∧ atoi a = some f ∧ parseFloat b = some g ∧
        (0 < f ∧ f ≤ 30000) ∧ g.isNaN = false ∧ g.isInf = false := by
  unfold parsePoint
  simp only
  by_cases he : trimSpace p = []
  · rw [if_pos he]
    constructor
    · intro h; cases h
    · rintro ⟨a, b, hf, _⟩
      rw [fields_eq_nil_of_trimSpace p he] at hf; cases hf
  · rw [if_neg he, fields_trimSpace]
    by_cases hl : (fields p).length ≠ 2
    · rw [if_pos hl]
      constructor
      · intro h; cases h
      · rintro ⟨a, b, hf, _⟩
        rw [hf] at hl; exact absurd rfl hl
    · rw [if_neg hl]
      have hl2 : (fields p).length = 2 := not_not.1 hl
      obtain ⟨a, b, hab⟩ : ∃ a b, fields p = [a, b] := by
        match hfp : fields p, hl2 with
        | [a, b], _ => exact ⟨a, b, rfl⟩
      rw [hab]
      simp only [List.getD_cons_zero, List.getD_cons_succ]
      cases ha : atoi a with
      | none =>
        constructor
        · intro h; cases h
        · rintro ⟨a2, b2, hf, ha2, _⟩
          simp only [List.cons.injEq, and_true] at hf
          rw [← hf.1, ha] at ha2; cases ha2
      | some f2 =>
        cases hb : parseFloat b with
        | none =>
          constructor
          · intro h; cases h
          · rintro ⟨a2, b2, hf, _, hb2, _⟩
            simp only [List.cons.injEq, and_true] at hf
            rw [← hf.2, hb] at hb2; cases hb2
        | some g2 =>
          simp only
          constructor
          · intro h
            by_cases c1 : (g2.isNaN || g2.isInf) = true
            · rw [if_pos c1] at h; cases h
            · rw [if_neg c1] at h
              by_cases c2 : f2 ≤ 0 ∨ f2 > 30000
              · rw [if_pos c2] at h; cases h
              · rw [if_neg c2] at h
                simp only [Option.some.injEq, Prod.mk.injEq] at h
                obtain ⟨h1, h2⟩ := h
                subst h1; subst h2
                refine ⟨a, b, rfl, ha, hb, by omega, ?_⟩
                simpa using c1
          · rintro ⟨a2, b2, hf, ha2, hb2, hr, hn, hi⟩
            simp only [List.cons.injEq, and_true] at hf
            rw [← hf.1, ha] at ha2
            rw [← hf.2, hb] at hb2
            cases ha2; cases hb2
            rw [if_neg (by simp [hn, hi]), if_neg (by omega)]



/-! ## Lemmas: the loops of `parseAutoEQ` -/

theorem pointStep_fold (points : List Str) (st : PointsScan) :
    points.foldl pointStep st =
      { data := (acceptedPoints points).foldl (fun d p => d.insert p.1 p.2) st.data
        pointCount := st.pointCount + (acceptedPoints points).length } := by
  induction points generalizing st with
  | nil => rfl
  | cons p ps ih =>
    rw [List.foldl_cons, ih]
    unfold pointStep acceptedPoints
    cases hp : parsePoint p with
    | none => simp [List.filterMap_cons, hp]
    | some fg =>
      obtain ⟨f, g⟩ := fg
      simp [List.filterMap_cons, hp]
      omega

theorem acceptedPoints_map_trimSpace (points : List Str) :
    acceptedPoints (points.map trimSpace) = acceptedPoints points := by
  unfold acceptedPoints
  rw [List.filterMap_map]
  congr 1
  funext p
  exact parsePoint_trimSpace p

theorem marker_prefix_not_skipped (l : Str) (h : hasPrefix l marker = true) :
    ¬ (l = [] ∨ hasPrefix l "#".toList = true ∨ hasPrefix l "//".toList = true) := by
  unfold hasPrefix at h
  rw [List.isPrefixOf_iff_prefix] at h
  obtain ⟨t, ht⟩ := h
  subst ht
  rintro (h1 | h1 | h1)
  · cases h1
  · simp [hasPrefix, marker] at h1
  · simp [hasPrefix, marker] at h1

theorem parseLines_spec (lines : List Str) (n : Nat) :
    parseLines lines n =
      match firstMarkerLine lines with
      | none => Except.ok none
      | some line =>
        if acceptedPoints (linePoints line) = [] ∧
            trimSpace ((linePoints line).getD 0 []) ≠ [] then
          Except.error (ParseError.noValidPointOnLine (n + markerLineNum lines) line)
        else Except.ok (some (buildData (acceptedPoints (linePoints line)))) := by
  induction lines generalizing n with
  | nil => rfl
  | cons raw rest ih =>
    unfold parseLines
    simp only
    by_cases hm : hasPrefix (trimSpace raw) marker = true
    · have hns := marker_prefix_not_skipped _ hm
      rw [if_neg (by simpa using hns), if_pos hm]
      have hf : firstMarkerLine (raw :: rest) = some (trimSpace raw) := by
        simp [firstMarkerLine, List.find?_cons, hm]
      have hnum : markerLineNum (raw :: rest) = 1 := by
        simp [markerLineNum, List.findIdx_cons, hm]
      rw [hf, hnum, pointStep_fold]
      simp only [linePoints, buildData, Nat.zero_add, List.length_eq_zero]
      have hlen : (split (trimSpace (trimPrefix (trimSpace raw) marker)) ';').length > 0 :=
        List.length_pos.2 (split_ne_nil _ _)
      simp only [hlen, true_and]
    · have hf : firstMarkerLine (raw :: rest) = firstMarkerLine rest := by
        simp [firstMarkerLine, List.find?_cons, hm]
      have hnum : markerLineNum (raw :: rest) = markerLineNum rest + 1 := by
        simp [markerLineNum, List.findIdx_cons, hm]
      have hih := ih (n + 1)
      rw [hf, hnum]
      have e : n + 1 + markerLineNum rest = n + (markerLineNum rest + 1) := by omega
      rw [e] at hih
      by_cases hs : trimSpace raw = [] ∨ hasPrefix (trimSpace raw) "#".toList = true ∨
          hasPrefix (trimSpace raw) "//".toList = true
      · rw [if_pos hs]; exact hih
      · rw [if_neg hs, if_neg hm]; exact hih

theorem buildData_keys_ne (xs : List (Int × F64)) (h : xs ≠ []) :
    (buildData xs).keys.length ≠ 0 := by
  obtain ⟨ys, y, hy⟩ : ∃ ys y, xs = ys ++ [y] :=
    ⟨xs.dropLast, xs.getLast h, (List.dropLast_append_getLast h).symm⟩
  subst hy
  unfold buildData
  rw [List.foldl_append]
  simp only [List.foldl_cons, List.foldl_nil]
  rw [AList.keys_insert]
  simp

/-- The result of `parseAutoEQ`, in terms of the first marker line and the points the
loop accepts on it. -/
theorem parseAutoEQ_spec (content : Str) :
    parseAutoEQ content =
      match firstMarkerLine (contentLines content) with
      | none => Except.error ParseError.markerNotFound
      | some line =>
        if acceptedPoints (linePoints line) = [] then
          (if trimSpace ((linePoints line).getD 0 []) ≠ [] then
            Except.error
              (ParseError.noValidPointOnLine (markerLineNum (contentLines content)) line)
          else Except.error ParseError.noDataPoints)
        else Except.ok (buildData (acceptedPoints (linePoints line))) := by
  unfold parseAutoEQ
  simp only
  rw [parseLines_spec]
  change (match (match firstMarkerLine (contentLines content) with
      | none => Except.ok none
      | some line =>
        if acceptedPoints (linePoints line) = [] ∧
            trimSpace ((linePoints line).getD 0 []) ≠ [] then
          Except.error (ParseError.noValidPointOnLine
            (0 + markerLineNum (contentLines content)) line)
        else Except.ok (some (buildData (acceptedPoints (linePoints line))))) with
    | Except.error e => Except.error e
    | Except.ok none => Except.error ParseError.markerNotFound
    | Except.ok (some data) =>
      if data.keys.length = 0 then Except.error ParseError.noDataPoints
      else Except.ok data) = _
  cases hf : firstMarkerLine (contentLines content) with
  | none => rfl
  | some line =>
    simp only
    by_cases ha : acceptedPoints (linePoints line) = []
    · by_cases ht : trimSpace ((linePoints line).getD 0 []) ≠ []
      · rw [if_pos ⟨ha, ht⟩, if_pos ha, if_pos ht, Nat.zero_add]
      · rw [if_neg (fun h => ht h.2), if_pos ha, if_neg ht]
        simp only [ha, buildData, List.foldl_nil]
        rfl
    · rw [if_neg (fun h => ha h.1), if_neg ha]
      simp only
      rw [if_neg (buildData_keys_ne _ ha)]



/-! ## Lemmas: a marker line -/

theorem trimPrefix_marker (r : Str) : trimPrefix (marker ++ r) marker = r := by
  unfold trimPrefix hasPrefix
  have : marker.isPrefixOf (marker ++ r) = true := by
    rw [List.isPrefixOf_iff_prefix]; exact List.prefix_append _ _
  rw [if_pos this, List.drop_left]

theorem hasPrefix_marker (r : Str) : hasPrefix (marker ++ r) marker = true := by
  unfold hasPrefix
  rw [List.isPrefixOf_iff_prefix]; exact List.prefix_append _ _

/-- Trimming a line that starts with the marker keeps the marker; what follows it has
the same trimmed form as before. -/
theorem trimSpace_marker (X : Str) :
    ∃ r, trimSpace (marker ++ X) = marker ++ r ∧ trimSpace r = trimSpace X := by
  obtain ⟨w1, w2, hX, hw1, hw2⟩ := trimSpace_decomp X
  by_cases he : trimSpace X = []
  · refine ⟨[], ?_, ?_⟩
    · have hall : ∀ c ∈ w1 ++ w2, isSpace c = true := by
        intro c hc
        rcases List.mem_append.1 hc with h | h
        · exact hw1 c h
        · exact hw2 c h
      have hm : Trimmed marker := by
        right
        exact ⟨⟨'G', "raphicEQ:".toList, rfl, by decide⟩, ⟨"GraphicEQ".toList, ':', rfl, by decide⟩⟩
      have := trimSpace_pad [] marker (w1 ++ w2) (by simp) hall hm
      rw [hX, he, List.append_nil, List.append_nil]
      simpa using this
    · rw [he]; rfl
  · refine ⟨w1 ++ trimSpace X, ?_, ?_⟩
    · have ht := trimSpace_trimmed X
      rcases ht with ht | ⟨_, ⟨init, l, hil, hl⟩⟩
      · exact absurd ht he
      · have hm : Trimmed (marker ++ (w1 ++ trimSpace X)) := by
          right
          refine ⟨⟨'G', "raphicEQ:".toList ++ (w1 ++ trimSpace X), rfl, by decide⟩,
            ⟨marker ++ (w1 ++ init), l, ?_, hl⟩⟩
          rw [hil]; simp
        have := trimSpace_pad [] (marker ++ (w1 ++ trimSpace X)) w2 (by simp) hw2 hm
        conv_lhs => rw [hX]
        simpa [List.append_assoc] using this
    · rw [trimSpace_append_left _ _ hw1, trimSpace_idem]

theorem markerLine_spec (X : Str) (hX : ∀ c ∈ X, c ≠ '\n') :
    ∃ line, firstMarkerLine (contentLines (marker ++ X)) = some line ∧
      markerLineNum (contentLines (marker ++ X)) = 1 ∧
      (linePoints line).map trimSpace = (split X ';').map trimSpace := by
  have hnl : ∀ c ∈ marker ++ X, c ≠ '\n' := by
    intro c hc
    rcases List.mem_append.1 hc with h | h
    · intro he; rw [he] at h; revert h; decide
    · exact hX c h
  have hlines : contentLines (marker ++ X) = [marker ++ X] := by
    unfold contentLines
    rw [replaceCRLF_no_newline _ hnl, split_no_sep _ _ hnl]
  obtain ⟨r, hr, hrX⟩ := trimSpace_marker X
  refine ⟨marker ++ r, ?_, ?_, ?_⟩
  · rw [hlines]
    simp [firstMarkerLine, hr, hasPrefix_marker]
  · rw [hlines]
    simp [markerLineNum, hr, hasPrefix_marker, List.findIdx_cons]
  · unfold linePoints
    rw [trimPrefix_marker, hrX, map_trimSpace_split_trimSpace]

/-- Parsing one marker line `GraphicEQ:` followed by `X`: the points are those of `X`
split at `;`. -/
theorem parseAutoEQ_markerLine (X : Str) (hX : ∀ c ∈ X, c ≠ '\n') :
    (acceptedPoints (split X ';') ≠ [] →
      parseAutoEQ (marker ++ X) = Except.ok (buildData (acceptedPoints (split X ';')))) ∧
    (acceptedPoints (split X ';') = [] → ∃ e, parseAutoEQ (marker ++ X) = Except.error e) := by
  obtain ⟨line, hl, _, hp⟩ := markerLine_spec X hX
  have hacc : acceptedPoints (linePoints line) = acceptedPoints (split X ';') := by
    rw [← acceptedPoints_map_trimSpace, hp, acceptedPoints_map_trimSpace]
  rw [parseAutoEQ_spec, hl]
  simp only [hacc]
  constructor
  · intro h; rw [if_neg h]
  · intro h; rw [if_pos h]
    by_cases ht : trimSpace ((linePoints line).getD 0 []) ≠ []
    · rw [if_pos ht]; exact ⟨_, rfl⟩
    · rw [if_neg ht]; exact ⟨_, rfl⟩



/-! ## Lemmas: the text of one point -/

theorem fmtF1_chars (q : ℚ) :
    fmtF1 (F64.fin q) ≠ [] ∧
      ∀ c ∈ fmtF1 (F64.fin q), isDigit c = true ∨ c = '.' ∨ c = '-' := by
  obtain ⟨hne, hall, _⟩ := natToStr_spec (roundHalfEven (|q| * 10) / 10)
  obtain ⟨_, hall2, _⟩ := natToStr_spec (roundHalfEven (|q| * 10) % 10)
  have hbody : ∀ c ∈ natToStr (roundHalfEven (|q| * 10) / 10) ++
      '.' :: natToStr (roundHalfEven (|q| * 10) % 10), isDigit c = true ∨ c = '.' ∨ c = '-' := by
    intro c hc
    rcases List.mem_append.1 hc with h | h
    · exact Or.inl (hall c h)
    · rcases List.mem_cons.1 h with h | h
      · exact Or.inr (Or.inl h)
      · exact Or.inl (hall2 c h)
  unfold fmtF1
  simp only
  by_cases hq : q < 0
  · rw [if_pos hq]
    refine ⟨by simp, ?_⟩
    intro c hc
    rcases List.mem_cons.1 hc with h | h
    · exact Or.inr (Or.inr h)
    · exact hbody c h
  · rw [if_neg hq]
    exact ⟨by simp, hbody⟩

theorem plain_not_space (c : Char) (h : isDigit c = true ∨ c = '.' ∨ c = '-') :
    isSpace c = false := by
  rcases h with h | h | h
  · exact isDigit_not_space c h
  · rw [h]; decide
  · rw [h]; decide

theorem plain_ne_semicolon (c : Char) (h : isDigit c = true ∨ c = '.' ∨ c = '-' ∨ c = ' ') :
    c ≠ ';' ∧ c ≠ '\n' := by
  rcases h with h | h | h | h
  · exact ⟨isDigit_ne c ';' h (by decide), isDigit_ne c '\n' h (by decide)⟩
  · rw [h]; decide
  · rw [h]; decide
  · rw [h]; decide

theorem fmtInt_pos (f : Int) (h0 : 0 < f) :
    fmtInt f ≠ [] ∧ ∀ c ∈ fmtInt f, isDigit c = true := by
  obtain ⟨hne, hall, _⟩ := natToStr_spec f.toNat
  have hf : fmtInt f = natToStr f.toNat := by simp [fmtInt, not_lt.2 (le_of_lt h0)]
  rw [hf]; exact ⟨hne, hall⟩

theorem round1_finite (q : ℚ) : (round1 (F64.fin q)).isNaN = false ∧
    (round1 (F64.fin q)).isInf = false := by
  unfold round1
  by_cases hq : q < 0
  · simp only [if_pos hq]; exact ⟨rfl, rfl⟩
  · simp only [if_neg hq]; exact ⟨rfl, rfl⟩

theorem parsePoint_fmtPoint (f : Int) (q : ℚ) (h0 : 0 < f) (h1 : f ≤ 30000)
    (hv : |q| ≤ F64.maxFloat64) :
    parsePoint (fmtPoint f (F64.fin q)) = some (f, round1 (F64.fin q)) := by
  rw [parsePoint_eq_some]
  obtain ⟨hne1, hall1⟩ := fmtInt_pos f h0
  obtain ⟨hne2, hall2⟩ := fmtF1_chars q
  refine ⟨fmtInt f, fmtF1 (F64.fin q), ?_, atoi_fmtInt f h0 h1, parseFloat_fmtF1 q hv,
    ⟨h0, h1⟩, (round1_finite q).1, (round1_finite q).2⟩
  exact fields_two _ _ (fun c hc => isDigit_not_space c (hall1 c hc))
    (fun c hc => plain_not_space c (hall2 c hc)) hne1 hne2

theorem fmtPoint_chars (f : Int) (q : ℚ) (h0 : 0 < f) :
    ∀ c ∈ fmtPoint f (F64.fin q), c ≠ ';' ∧ c ≠ '\n' := by
  obtain ⟨_, hall1⟩ := fmtInt_pos f h0
  obtain ⟨_, hall2⟩ := fmtF1_chars q
  intro c hc
  apply plain_ne_semicolon
  rcases List.mem_append.1 hc with h | h
  · exact Or.inl (hall1 c h)
  · rcases List.mem_cons.1 h with h | h
    · exact Or.inr (Or.inr (Or.inr h))
    · rcases hall2 c h with h3 | h3 | h3
      · exact Or.inl h3
      · exact Or.inr (Or.inl h3)
      · exact Or.inr (Or.inr (Or.inl h3))

theorem sanitize_eq (g : F64) :
    (if (g.isNaN || g.isInf) = true then (0 : F64) else g) = sanitize g := rfl

theorem sanitize_valid (g : F64) (h : g.Valid) :
    ∃ q, sanitize g = F64.fin q ∧ |q| ≤ F64.maxFloat64 := by
  cases g with
  | fin q => exact ⟨q, rfl, h⟩
  | nan => exact ⟨0, rfl, by simpa using le_of_lt (lt_trans one_pos maxFloat64_pos)⟩
  | pinf => exact ⟨0, rfl, by simpa using le_of_lt (lt_trans one_pos maxFloat64_pos)⟩
  | ninf => exact ⟨0, rfl, by simpa using le_of_lt (lt_trans one_pos maxFloat64_pos)⟩

theorem intercalate_space (toks : List Str) (hne : toks ≠ []) :
    ' ' :: join toks "; ".toList = [';'].intercalate (toks.map (fun t => ' ' :: t)) := by
  unfold join
  induction toks with
  | nil => exact absurd rfl hne
  | cons t r ih =>
    cases r with
    | nil => simp [List.intercalate]
    | cons t2 r2 =>
      have := ih (by simp)
      simp only [List.intercalate, List.intersperse_cons_cons, List.flatten_cons,
        List.map_cons] at this ⊢
      rw [← this]
      simp

theorem parsePoint_space (t : Str) : parsePoint (' ' :: t) = parsePoint t := by
  rw [← parsePoint_trimSpace, ← parsePoint_trimSpace t]
  have := trimSpace_append_left [' '] t (by
    intro c hc; rw [List.mem_singleton.1 hc]; decide)
  rw [List.singleton_append] at this
  rw [this]

theorem acceptedPoints_space (toks : List Str) :
    acceptedPoints (toks.map (fun t => ' ' :: t)) = acceptedPoints toks := by
  unfold acceptedPoints
  rw [List.filterMap_map]
  exact congrArg (fun f => List.filterMap f toks) (funext parsePoint_space)



/-! ## Round trip: `parseAutoEQ` after `formatEQString` -/

theorem buildData_filterMap_lookup (axis : List Int) (G : Int → Option F64) (d : AutoEQData)
    (k : Int) :
    ((axis.filterMap (fun f => (G f).map (fun v => (f, v)))).foldl
        (fun d p => d.insert p.1 p.2) d).lookup k =
      if k ∈ axis ∧ (G k).isSome = true then G k else d.lookup k := by
  induction axis generalizing d with
  | nil => simp
  | cons a axis ih =>
    rw [List.filterMap_cons]
    cases hG : G a with
    | none =>
      simp only [Option.map_none']
      rw [ih]
      by_cases h : k ∈ axis ∧ (G k).isSome = true
      · rw [if_pos h, if_pos ⟨List.mem_cons_of_mem _ h.1, h.2⟩]
      · rw [if_neg h, if_neg]
        rintro ⟨hm, hs⟩
        rcases List.mem_cons.1 hm with h2 | h2
        · rw [h2, hG] at hs; cases hs
        · exact h ⟨h2, hs⟩
    | some v =>
      simp only [Option.map_some', List.foldl_cons]
      rw [ih]
      by_cases h : k ∈ axis ∧ (G k).isSome = true
      · rw [if_pos h, if_pos ⟨List.mem_cons_of_mem _ h.1, h.2⟩]
      · rw [if_neg h, AutoEQData.lookup_insert_eq]
        by_cases hk : k = a
        · rw [if_pos hk, if_pos ⟨by simp [hk], by rw [hk, hG]; rfl⟩, hk, hG]
        · rw [if_neg hk, if_neg]
          rintro ⟨hm, hs⟩
          rcases List.mem_cons.1 hm with h2 | h2
          · exact hk h2
          · exact h ⟨h2, hs⟩

theorem eqPoints_eq (eqData : AutoEQData) (sortedFreqs : List Int) :
    eqPoints eqData sortedFreqs =
      sortedFreqs.filterMap (fun f => (eqData.lookup f).map (fun g => fmtPoint f (sanitize g))) := by
  unfold eqPoints
  apply congrArg (fun F => List.filterMap F sortedFreqs)
  funext f
  cases eqData.lookup f <;> rfl

theorem acceptedPoints_eqPoints (eqData : AutoEQData) (sortedFreqs : List Int)
    (hrange : ∀ f ∈ sortedFreqs, f ∈ eqData → 0 < f ∧ f ≤ 30000)
    (hvalid : ∀ f g, f ∈ sortedFreqs → eqData.lookup f = some g → g.Valid) :
    acceptedPoints (eqPoints eqData sortedFreqs) =
      sortedFreqs.filterMap (fun f =>
        ((eqData.lookup f).map (fun g => round1 (sanitize g))).map (fun v => (f, v))) := by
  rw [eqPoints_eq]
  unfold acceptedPoints
  rw [List.filterMap_filterMap]
  apply List.filterMap_congr
  intro f hf
  cases hl : eqData.lookup f with
  | none => rfl
  | some g =>
    have hmem : f ∈ eqData := (AutoEQData.mem_iff_lookup _ _).2 ⟨g, hl⟩
    obtain ⟨q, hq, hv⟩ := sanitize_valid g (hvalid f g hf hl)
    obtain ⟨h0, h1⟩ := hrange f hf hmem
    simp only [Option.map_some', Option.bind_some, hq]
    exact parsePoint_fmtPoint f q h0 h1 hv

theorem eqPoints_chars (eqData : AutoEQData) (sortedFreqs : List Int)
    (hrange : ∀ f ∈ sortedFreqs, f ∈ eqData → 0 < f ∧ f ≤ 30000) :
    ∀ t ∈ eqPoints eqData sortedFreqs, ∀ c ∈ t, c ≠ ';' ∧ c ≠ '\n' := by
  intro t ht
  rw [eqPoints_eq, List.mem_filterMap] at ht
  obtain ⟨f, hf, hft⟩ := ht
  cases hl : eqData.lookup f with
  | none => rw [hl] at hft; cases hft
  | some g =>
    rw [hl] at hft
    simp only [Option.map_some', Option.some.injEq] at hft
    obtain ⟨q, hq⟩ := sanitize_fin g
    rw [← hft, hq]
    exact fmtPoint_chars f q (hrange f hf ((AutoEQData.mem_iff_lookup _ _).2 ⟨g, hl⟩)).1

theorem eqPoints_ne_nil (eqData : AutoEQData) (sortedFreqs : List Int)
    (h : ∃ f ∈ sortedFreqs, f ∈ eqData) : eqPoints eqData sortedFreqs ≠ [] := by
  obtain ⟨f, hf, hfe⟩ := h
  obtain ⟨g, hg⟩ := (AutoEQData.mem_iff_lookup _ _).1 hfe
  have : fmtPoint f (sanitize g) ∈ eqPoints eqData sortedFreqs := by
    rw [eqPoints_eq, List.mem_filterMap]
    exact ⟨f, hf, by rw [hg]; rfl⟩
  exact List.ne_nil_of_mem this

theorem formatEQString_eq (eqData : AutoEQData) (sortedFreqs : List Int)
    (h : eqPoints eqData sortedFreqs ≠ []) :
    formatEQString eqData sortedFreqs =
      marker ++ [';'].intercalate ((eqPoints eqData sortedFreqs).map (fun t => ' ' :: t)) := by
  unfold formatEQString
  rw [if_pos (List.length_pos.2 h), ← intercalate_space _ h]
  rfl

theorem mem_intercalate (sep : Str) (ls : List Str) (c : Char)
    (h : c ∈ sep.intercalate ls) : c ∈ sep ∨ ∃ l ∈ ls, c ∈ l := by
  induction ls with
  | nil => simp [List.intercalate] at h
  | cons t r ih =>
    cases r with
    | nil =>
      simp only [List.intercalate, List.intersperse_single, List.flatten_cons,
        List.flatten_nil, List.append_nil] at h
      exact Or.inr ⟨t, by simp, h⟩
    | cons t2 r2 =>
      simp only [List.intercalate, List.intersperse_cons_cons, List.flatten_cons,
        List.mem_append] at h ih
      rcases h with h | h | h
      · exact Or.inr ⟨t, by simp, h⟩
      · exact Or.inl h
      · rcases ih h with h2 | ⟨l, hl, hc⟩
        · exact Or.inl h2
        · exact Or.inr ⟨l, List.mem_cons_of_mem _ hl, hc⟩

/-- What `parseAutoEQ` returns on the text of `formatEQString`, for a curve with an entry
on the axis whose frequencies on the axis are in 1..30000. -/
theorem parse_format (eqData : AutoEQData) (sortedFreqs : List Int)
    (hne : ∃ f ∈ sortedFreqs, f ∈ eqData)
    (hrange : ∀ f ∈ sortedFreqs, f ∈ eqData → 0 < f ∧ f ≤ 30000)
    (hvalid : ∀ f g, f ∈ sortedFreqs → eqData.lookup f = some g → g.Valid) :
    ∃ data, parseAutoEQ (formatEQString eqData sortedFreqs) = Except.ok data ∧
      ∀ f, data.lookup f =
        if f ∈ sortedFreqs then (eqData.lookup f).map (fun g => round1 (sanitize g))
        else none := by
  have hpts := eqPoints_ne_nil eqData sortedFreqs hne
  have hch := eqPoints_chars eqData sortedFreqs hrange
  have htok : ∀ t ∈ (eqPoints eqData sortedFreqs).map (fun t => ' ' :: t),
      ∀ c ∈ t, c ≠ ';' ∧ c ≠ '\n' := by
    intro t ht c hc
    rw [List.mem_map] at ht
    obtain ⟨t0, ht0, rfl⟩ := ht
    rcases List.mem_cons.1 hc with h | h
    · rw [h]; decide
    · exact hch t0 ht0 c h
  have hX : ∀ c ∈ [';'].intercalate ((eqPoints eqData sortedFreqs).map (fun t => ' ' :: t)),
      c ≠ '\n' := by
    intro c hc
    rcases mem_intercalate _ _ c hc with h1 | ⟨l, hl, hcl⟩
    · rw [List.mem_singleton.1 h1]; decide
    · exact (htok l hl c hcl).2
  have hsplit := split_intercalate ((eqPoints eqData sortedFreqs).map (fun t => ' ' :: t))
    (by simpa using hpts) (fun t ht c hc => (htok t ht c hc).1)
  have hacc : acceptedPoints (split ([';'].intercalate
      ((eqPoints eqData sortedFreqs).map (fun t => ' ' :: t))) ';') =
      sortedFreqs.filterMap (fun f =>
        ((eqData.lookup f).map (fun g => round1 (sanitize g))).map (fun v => (f, v))) := by
    rw [hsplit, acceptedPoints_space, acceptedPoints_eqPoints _ _ hrange hvalid]
  have haccne : acceptedPoints (split ([';'].intercalate
      ((eqPoints eqData sortedFreqs).map (fun t => ' ' :: t))) ';') ≠ [] := by
    rw [hacc]
    obtain ⟨f, hf, hfe⟩ := hne
    obtain ⟨g, hg⟩ := (AutoEQData.mem_iff_lookup _ _).1 hfe
    apply List.ne_nil_of_mem (a := (f, round1 (sanitize g)))
    rw [List.mem_filterMap]
    exact ⟨f, hf, by rw [hg]; rfl⟩
  refine ⟨buildData (acceptedPoints (split ([';'].intercalate
      ((eqPoints eqData sortedFreqs).map (fun t => ' ' :: t))) ';')), ?_, ?_⟩
  · rw [formatEQString_eq _ _ hpts]
    exact (parseAutoEQ_markerLine _ hX).1 haccne
  · intro f
    rw [hacc]
    unfold buildData
    rw [buildData_filterMap_lookup]
    by_cases hf : f ∈ sortedFreqs
    · rw [if_pos hf]
      cases hl : eqData.lookup f with
      | none => simp
      | some g => simp [hf]
    · rw [if_neg hf, if_neg (fun h => hf h.1)]; rfl



theorem maxFloat64_big : (2 : ℚ) ≤ F64.maxFloat64 := by
  unfold F64.maxFloat64
  have h1 : (2 : ℚ) ≤ 2 ^ 53 - 1 := by norm_num
  have h2 : (1 : ℚ) ≤ 2 ^ 971 := one_le_pow₀ (by norm_num)
  nlinarith

theorem round1_near (q : ℚ) : ∃ r, round1 (F64.fin q) = F64.fin r ∧
    |r - q| ≤ 1 / 20 + (|q| + 1 / 20) * unitRoundoff + minSubnormal / 2 := by
  have hn := roundHalfEven_near (|q| * 10) (by positivity)
  have hu : (0 : ℚ) ≤ unitRoundoff := by unfold unitRoundoff; positivity
  have hd : |((roundHalfEven (|q| * 10) : ℚ) / 10 - |q|)| ≤ 1 / 20 := by
    have e : (roundHalfEven (|q| * 10) : ℚ) / 10 - |q| =
        ((roundHalfEven (|q| * 10) : ℚ) - |q| * 10) / 10 := by ring
    rw [e, abs_div, abs_of_pos (by norm_num : (0 : ℚ) < 10)]
    linarith
  have hd0 : (0 : ℚ) ≤ (roundHalfEven (|q| * 10) : ℚ) / 10 := by positivity
  have hdq : (roundHalfEven (|q| * 10) : ℚ) / 10 ≤ |q| + 1 / 20 := by
    have := (abs_le.1 hd).2; linarith
  have herr := roundNearest_err ((roundHalfEven (|q| * 10) : ℚ) / 10)
  rw [abs_of_nonneg hd0] at herr
  have herr2 : |roundNearest ((roundHalfEven (|q| * 10) : ℚ) / 10) -
      (roundHalfEven (|q| * 10) : ℚ) / 10| ≤ (|q| + 1 / 20) * unitRoundoff + minSubnormal / 2 := by
    have := mul_le_mul_of_nonneg_right hdq hu
    linarith
  have htot : |(roundNearest ((roundHalfEven (|q| * 10) : ℚ) / 10) - |q|)| ≤
      1 / 20 + (|q| + 1 / 20) * unitRoundoff + minSubnormal / 2 := by
    have e : roundNearest ((roundHalfEven (|q| * 10) : ℚ) / 10) - |q| =
        (roundNearest ((roundHalfEven (|q| * 10) : ℚ) / 10) -
          (roundHalfEven (|q| * 10) : ℚ) / 10) +
        ((roundHalfEven (|q| * 10) : ℚ) / 10 - |q|) := by ring
    rw [e]
    exact le_trans (abs_add _ _) (by linarith)
  unfold round1
  by_cases hq : q < 0
  · simp only [if_pos hq]
    refine ⟨_, rfl, ?_⟩
    have e : -roundNearest ((roundHalfEven (|q| * 10) : ℚ) / 10) - q =
        -(roundNearest ((roundHalfEven (|q| * 10) : ℚ) / 10) - |q|) := by
      rw [abs_of_neg hq]; ring
    rw [e, abs_neg]
    exact htot
  · simp only [if_neg hq]
    refine ⟨_, rfl, ?_⟩
    have e : roundNearest ((roundHalfEven (|q| * 10) : ℚ) / 10) - q =
        roundNearest ((roundHalfEven (|q| * 10) : ℚ) / 10) - |q| := by
      rw [abs_of_nonneg (not_lt.1 hq)]
    rw [e]
    exact htot

/-- C2 (as amended). Round trip: when at least one curve entry lies on the axis and the
curve's frequencies on the axis are in 1..30000, `parseAutoEQ (formatEQString curve axis)`
succeeds; the parsed curve has exactly the curve's frequencies on the axis, each with the
float64 nearest to the gain rounded to one decimal place (a NaN or infinite gain reads back
as 0), hence within 0.05 plus one rounding error of a finite gain. -/
theorem parse_format_roundtrip (eqData : AutoEQData) (sortedFreqs : List Int)
    (hne : ∃ f ∈ sortedFreqs, f ∈ eqData)
    (hrange : ∀ f ∈ sortedFreqs, f ∈ eqData → 0 < f ∧ f ≤ 30000)
    (hvalid : ∀ f g, f ∈ sortedFreqs → eqData.lookup f = some g → g.Valid) :
    ∃ data, parseAutoEQ (formatEQString eqData sortedFreqs) = Except.ok data ∧
      (∀ f, f ∈ data ↔ f ∈ sortedFreqs ∧ f ∈ eqData) ∧
      (∀ f g, f ∈ sortedFreqs → eqData.lookup f = some g →
        data.lookup f = some (round1 (sanitize g))) ∧
      (∀ f q, f ∈ sortedFreqs → eqData.lookup f = some (F64.fin q) →
        ∃ r, data.lookup f = some (F64.fin r) ∧
          |r - q| ≤ 1 / 20 + (|q| + 1 / 20) * unitRoundoff + minSubnormal / 2) := by
  obtain ⟨data, hp, hl⟩ := parse_format eqData sortedFreqs hne hrange hvalid
  refine ⟨data, hp, ?_, ?_, ?_⟩
  · intro f
    rw [AutoEQData.mem_iff_lookup, AutoEQData.mem_iff_lookup, hl f]
    by_cases hf : f ∈ sortedFreqs
    · rw [if_pos hf]
      cases eqData.lookup f <;> simp [hf]
    · rw [if_neg hf]; simp [hf]
  · intro f g hf hg
    rw [hl f, if_pos hf, hg]; rfl
  · intro f q hf hg
    obtain ⟨r, hr, hnear⟩ := round1_near q
    refine ⟨r, ?_, hnear⟩
    rw [hl f, if_pos hf, hg]
    show some (round1 (sanitize (F64.fin q))) = some (F64.fin r)
    rw [← hr]; rfl

theorem parse_format_roundtrip_witness :
    ∃ data, parseAutoEQ (formatEQString curve100 [100]) = Except.ok data ∧
      (∀ f, f ∈ data ↔ f ∈ [100] ∧ f ∈ curve100) ∧
      (∀ f g, f ∈ [100] → curve100.lookup f = some g →
        data.lookup f = some (round1 (sanitize g))) ∧
      (∀ f q, f ∈ [100] → curve100.lookup f = some (F64.fin q) →
        ∃ r, data.lookup f = some (F64.fin r) ∧
          |r - q| ≤ 1 / 20 + (|q| + 1 / 20) * unitRoundoff + minSubnormal / 2) :=
  parse_format_roundtrip curve100 [100] ⟨100, by decide, by decide⟩
    (by
      intro f hf _
      rw [List.mem_singleton.1 hf]; decide)
    (by
      intro f g hf hg
      rw [List.mem_singleton.1 hf] at hg
      have : g = F64.fin (5 / 4) := by
        have h2 : curve100.lookup 100 = some (F64.fin (5 / 4)) := by rfl
        rw [h2] at hg; exact (Option.some.inj hg).symm
      rw [this]
      show |(5 / 4 : ℚ)| ≤ F64.maxFloat64
      rw [abs_of_pos (by norm_num)]
      linarith [maxFloat64_big])

/-- C2, counterexample. A curve with no entry on the axis is serialised as the placeholder
`GraphicEQ: (No valid points)`, which `parseAutoEQ` rejects; and an entry whose frequency is
outside 1..30000 is serialised but not read back. -/
theorem parse_format_placeholder_fails :
    (formatEQString curve100 [200] = "GraphicEQ: (No valid points)".toList ∧
      parseAutoEQ (formatEQString curve100 [200]) =
        Except.error (ParseError.noValidPointOnLine 1 "GraphicEQ: (No valid points)".toList)) ∧
    (formatEQString curve40000 [40000] = "GraphicEQ: 40000 1.0".toList ∧
      parseAutoEQ (formatEQString curve40000 [40000]) =
        Except.error (ParseError.noValidPointOnLine 1 "GraphicEQ: 40000 1.0".toList)) := by
  decide!



/-! ## The merge of `handleConvert` -/

theorem foldl_insert_lookup (v : Int → F64) (axis : List Int) (d : AutoEQData) (k : Int) :
    (axis.foldl (fun m f => m.insert f (v f)) d).lookup k =
      if k ∈ axis then some (v k) else d.lookup k := by
  induction axis generalizing d with
  | nil => simp
  | cons a axis ih =>
    rw [List.foldl_cons, ih]
    by_cases h : k ∈ axis
    · rw [if_pos h, if_pos (List.mem_cons_of_mem _ h)]
    · rw [if_neg h, AutoEQData.lookup_insert_eq]
      by_cases hk : k = a
      · rw [if_pos hk, if_pos (by simp [hk]), hk]
      · rw [if_neg hk, if_neg]
        intro hm
        rcases List.mem_cons.1 hm with h2 | h2
        · exact hk h2
        · exact h h2

theorem mem_allFreqs (a b : AutoEQData) (f : Int) : f ∈ allFreqs a b ↔ f ∈ a ∨ f ∈ b := by
  unfold allFreqs allFreqsMap
  rw [List.mem_insertionSort, List.mem_dedup, List.mem_append, AList.mem_keys, AList.mem_keys]

theorem mergeEQ_lookup (a b : AutoEQData) (f : Int) :
    (mergeEQ a b).lookup f =
      if f ∈ a ∨ f ∈ b then some (F64.add (a.get f) (b.get f)) else none := by
  unfold mergeEQ
  rw [foldl_insert_lookup (fun f => F64.add (a.get f) (b.get f))]
  by_cases h : f ∈ a ∨ f ∈ b
  · rw [if_pos ((mem_allFreqs a b f).2 h), if_pos h]
  · rw [if_neg (fun hm => h ((mem_allFreqs a b f).1 hm)), if_neg h]; rfl

/-- C3. Merge totality: at every frequency of the union of the key sets the merged curve
of `handleConvert` holds `a[f] + b[f]` with a missing entry read as 0, and the merged curve
has no key outside the union. -/
theorem mergeEQ_total (a b : AutoEQData) :
    (∀ f, f ∈ a ∨ f ∈ b → (mergeEQ a b).lookup f = some (F64.add (a.get f) (b.get f))) ∧
      (∀ f, f ∈ mergeEQ a b → f ∈ a ∨ f ∈ b) := by
  constructor
  · intro f hf
    rw [mergeEQ_lookup, if_pos hf]
  · intro f hf
    by_contra h
    rw [AutoEQData.mem_iff_lookup, mergeEQ_lookup, if_neg h] at hf
    obtain ⟨v, hv⟩ := hf
    cases hv

theorem mergeEQ_total_witness :
    (mergeEQ curveMinimal curve200).lookup 200 =
        some (F64.add (curveMinimal.get 200) (curve200.get 200)) ∧
      ((100 : Int) ∈ curveMinimal ∨ (100 : Int) ∈ curve200) :=
  ⟨(mergeEQ_total curveMinimal curve200).1 200 (Or.inr (by decide)),
    (mergeEQ_total curveMinimal curve200).2 100 (by decide)⟩



/-! ## The parser: success, failure, skipped tokens, accepted values -/

theorem parsePoint_isSome_iff (tok : Str) : (parsePoint tok).isSome = true ↔ AcceptedToken tok := by
  rw [Option.isSome_iff_exists]
  constructor
  · rintro ⟨⟨f, g⟩, h⟩
    obtain ⟨a, b, hf, ha, hb, hr, hn, hi⟩ := (parsePoint_eq_some tok f g).1 h
    exact ⟨a, b, f, g, hf, ha, hb, ⟨by omega, hr.2⟩, by simp [F64.isFinite, hn, hi]⟩
  · rintro ⟨a, b, f, g, hf, ha, hb, hr, hfin⟩
    refine ⟨(f, g), (parsePoint_eq_some tok f g).2 ⟨a, b, hf, ha, hb, ⟨by omega, hr.2⟩, ?_⟩⟩
    simpa [F64.isFinite] using hfin

theorem acceptedPoints_ne_nil_iff (points : List Str) :
    acceptedPoints points ≠ [] ↔ ∃ tok ∈ points, AcceptedToken tok := by
  unfold acceptedPoints
  constructor
  · intro h
    obtain ⟨p, hp⟩ := List.exists_mem_of_ne_nil _ h
    rw [List.mem_filterMap] at hp
    obtain ⟨tok, ht, hpt⟩ := hp
    exact ⟨tok, ht, (parsePoint_isSome_iff tok).1 (by rw [hpt]; rfl)⟩
  · rintro ⟨tok, ht, hacc⟩
    have := (parsePoint_isSome_iff tok).2 hacc
    obtain ⟨p, hp⟩ := Option.isSome_iff_exists.1 this
    exact List.ne_nil_of_mem (List.mem_filterMap.2 ⟨tok, ht, hp⟩)

/-- C4. `parseAutoEQ` succeeds exactly when some line, once trimmed, starts with
`GraphicEQ:` and the first such line has an accepted token; a successful result is never
an empty map (every other input returns an error, an `Except` being one or the other). -/
theorem parseAutoEQ_ok_iff (content : Str) :
    ((∃ data, parseAutoEQ content = Except.ok data) ↔
      ∃ line, firstMarkerLine (contentLines content) = some line ∧
        ∃ tok ∈ linePoints line, AcceptedToken tok) ∧
    (∀ data, parseAutoEQ content = Except.ok data → data.keys ≠ []) := by
  rw [parseAutoEQ_spec]
  cases hf : firstMarkerLine (contentLines content) with
  | none =>
    simp only
    constructor
    · constructor
      · rintro ⟨data, h⟩; cases h
      · rintro ⟨line, h, _⟩; cases h
    · intro data h; cases h
  | some line =>
    simp only
    by_cases ha : acceptedPoints (linePoints line) = []
    · rw [if_pos ha]
      constructor
      · constructor
        · rintro ⟨data, h⟩
          by_cases ht : trimSpace ((linePoints line).getD 0 []) ≠ []
          · rw [if_pos ht] at h; cases h
          · rw [if_neg ht] at h; cases h
        · rintro ⟨line2, h, hex⟩
          cases h
          exact absurd ha ((acceptedPoints_ne_nil_iff _).2 hex)
      · intro data h
        by_cases ht : trimSpace ((linePoints line).getD 0 []) ≠ []
        · rw [if_pos ht] at h; cases h
        · rw [if_neg ht] at h; cases h
    · rw [if_neg ha]
      constructor
      · constructor
        · intro _
          exact ⟨line, rfl, (acceptedPoints_ne_nil_iff _).1 ha⟩
        · intro _
          exact ⟨_, rfl⟩
      · intro data h
        cases h
        intro hk
        exact buildData_keys_ne _ ha (by rw [hk]; rfl)

theorem parseAutoEQ_ok_iff_witness :
    (∃ data, parseAutoEQ "GraphicEQ: 200 1.0".toList = Except.ok data) ∧
      (∀ data, parseAutoEQ "GraphicEQ: 200 1.0".toList = Except.ok data → data.keys ≠ []) :=
  ⟨(parseAutoEQ_ok_iff "GraphicEQ: 200 1.0".toList).1.2
      ⟨"GraphicEQ: 200 1.0".toList, by decide, "200 1.0".toList, by decide,
        "200".toList, "1.0".toList, 200, F64.fin 1, by decide, by decide, by decide!,
        by decide, by decide⟩,
    (parseAutoEQ_ok_iff "GraphicEQ: 200 1.0".toList).2⟩



theorem firstMarkerLine_eq_none (lines : List Str) :
    firstMarkerLine lines = none ↔ ∀ raw ∈ lines, hasPrefix (trimSpace raw) marker = false := by
  unfold firstMarkerLine
  rw [List.find?_eq_none]
  simp

/-- C5 (as amended). When no line of the input, once trimmed of surrounding white space,
starts with `GraphicEQ:`, `parseAutoEQ` fails with the marker-not-found error (and, being an
error, returns no curve). -/
theorem parseAutoEQ_markerNotFound (content : Str)
    (h : ∀ raw ∈ contentLines content, hasPrefix (trimSpace raw) marker = false) :
    parseAutoEQ content = Except.error ParseError.markerNotFound := by
  rw [parseAutoEQ_spec, (firstMarkerLine_eq_none _).2 h]

theorem parseAutoEQ_markerNotFound_witness :
    (∀ raw ∈ contentLines "# note\ngraphicEQ: 100 1.0".toList,
        hasPrefix (trimSpace raw) marker = false) ∧
      parseAutoEQ "# note\ngraphicEQ: 100 1.0".toList =
        Except.error ParseError.markerNotFound :=
  ⟨by decide, parseAutoEQ_markerNotFound "# note\ngraphicEQ: 100 1.0".toList (by decide)⟩

/-- C5, counterexample. In the text ` GraphicEQ: 100 1.0` (a leading blank) no line begins
with the marker, yet `parseAutoEQ` trims the line, finds the marker and returns the curve
with the single point 100 Hz, 1.0 dB. -/
theorem parseAutoEQ_indented_marker :
    (∀ raw ∈ contentLines " GraphicEQ: 100 1.0".toList, hasPrefix raw marker = false) ∧
      (parseAutoEQ " GraphicEQ: 100 1.0".toList).map (fun data => data.entries) =
        Except.ok [⟨100, F64.fin 1⟩] := by
  decide!



theorem malformed_parsePoint (tok : Str) (h : malformed tok = true) : parsePoint tok = none := by
  unfold malformed at h
  simp only [Bool.or_eq_true, decide_eq_true_eq, Option.isNone_iff_eq_none] at h
  unfold parsePoint
  simp only
  by_cases he : trimSpace tok = []
  · rw [if_pos he]
  · rw [if_neg he, fields_trimSpace]
    by_cases hl : (fields tok).length ≠ 2
    · rw [if_pos hl]
    · rw [if_neg hl]
      rcases h with ((h | h) | h) | h
      · exact absurd h he
      · exact absurd h hl
      · rw [h]
      · rw [h]
        cases atoi ((fields tok).getD 0 []) <;> rfl

theorem accepted_not_malformed (tok : Str) (h : AcceptedToken tok) : malformed tok = false := by
  have h1 := (parsePoint_isSome_iff tok).2 h
  by_contra hm
  rw [Bool.not_eq_false] at hm
  rw [malformed_parsePoint tok hm] at h1
  cases h1

theorem acceptedPoints_filter (toks : List Str) :
    acceptedPoints (toks.filter (fun t => !malformed t)) = acceptedPoints toks := by
  unfold acceptedPoints
  induction toks with
  | nil => rfl
  | cons t r ih =>
    by_cases hm : malformed t = true
    · rw [List.filter_cons_of_neg (by simp [hm]), List.filterMap_cons,
        malformed_parsePoint t hm, ih]
    · rw [List.filter_cons_of_pos (by simpa using hm), List.filterMap_cons,
        List.filterMap_cons, ih]

theorem parseAutoEQ_tokens (toks : List Str)
    (hchars : ∀ t ∈ toks, ∀ c ∈ t, c ≠ ';' ∧ c ≠ '\n')
    (hvalid : ∃ t ∈ toks, AcceptedToken t) :
    parseAutoEQ (markerLine toks) = Except.ok (buildData (acceptedPoints toks)) := by
  have hne : toks ≠ [] := by
    obtain ⟨t, ht, _⟩ := hvalid
    exact List.ne_nil_of_mem ht
  have hX : ∀ c ∈ [';'].intercalate toks, c ≠ '\n' := by
    intro c hc
    rcases mem_intercalate _ _ c hc with h1 | ⟨l, hl, hcl⟩
    · rw [List.mem_singleton.1 h1]; decide
    · exact (hchars l hl c hcl).2
  have hsplit := split_intercalate toks hne (fun t ht c hc => (hchars t ht c hc).1)
  have := (parseAutoEQ_markerLine _ hX).1 (by
    rw [hsplit]; exact (acceptedPoints_ne_nil_iff toks).2 hvalid)
  rw [hsplit] at this
  exact this

/-- C6. A malformed token (empty, not exactly two fields, or a field that is not a number)
never aborts parsing: on a marker line with at least one accepted token, `parseAutoEQ`
succeeds, its result holds exactly the accepted points, and it equals the result of parsing
the line with the malformed tokens removed. -/
theorem parseAutoEQ_skips_malformed (toks : List Str)
    (hchars : ∀ t ∈ toks, ∀ c ∈ t, c ≠ ';' ∧ c ≠ '\n')
    (hvalid : ∃ t ∈ toks, AcceptedToken t) :
    parseAutoEQ (markerLine toks) = Except.ok (buildData (acceptedPoints toks)) ∧
      parseAutoEQ (markerLine toks) =
        parseAutoEQ (markerLine (toks.filter (fun t => !malformed t))) ∧
      ∀ t ∈ toks, malformed t = true → parsePoint t = none := by
  refine ⟨parseAutoEQ_tokens toks hchars hvalid, ?_, fun t _ hm => malformed_parsePoint t hm⟩
  rw [parseAutoEQ_tokens toks hchars hvalid,
    parseAutoEQ_tokens (toks.filter (fun t => !malformed t))
      (fun t ht => hchars t (List.mem_of_mem_filter ht))
      (by
        obtain ⟨t, ht, hacc⟩ := hvalid
        exact ⟨t, List.mem_filter.2 ⟨ht, by simp [accepted_not_malformed t hacc]⟩, hacc⟩),
    acceptedPoints_filter]

theorem parseAutoEQ_skips_malformed_witness :
    markerLine [" 100 abc".toList, " 200 1.0".toList] = "GraphicEQ: 100 abc; 200 1.0".toList ∧
      (parseAutoEQ "GraphicEQ: 100 abc; 200 1.0".toList).map (fun data => data.entries) =
        Except.ok [⟨200, F64.fin 1⟩] ∧
      (parseAutoEQ (markerLine [" 100 abc".toList, " 200 1.0".toList]) =
          Except.ok (buildData (acceptedPoints [" 100 abc".toList, " 200 1.0".toList])) ∧
        parseAutoEQ (markerLine [" 100 abc".toList, " 200 1.0".toList]) =
          parseAutoEQ (markerLine
            ([" 100 abc".toList, " 200 1.0".toList].filter (fun t => !malformed t))) ∧
        ∀ t ∈ [" 100 abc".toList, " 200 1.0".toList], malformed t = true →
          parsePoint t = none) :=
  ⟨by decide, by decide!,
    parseAutoEQ_skips_malformed [" 100 abc".toList, " 200 1.0".toList] (by decide)
      ⟨" 200 1.0".toList, by decide, "200".toList, "1.0".toList, 200, F64.fin 1,
        by decide, by decide, by decide!, by decide, by decide⟩⟩



theorem foldl_insert_lookup_mem (xs : List (Int × F64)) (d : AutoEQData) (k : Int) (v : F64)
    (h : (xs.foldl (fun d p => d.insert p.1 p.2) d).lookup k = some v) :
    (k, v) ∈ xs ∨ d.lookup k = some v := by
  induction xs generalizing d with
  | nil => exact Or.inr h
  | cons x xs ih =>
    rw [List.foldl_cons] at h
    rcases ih _ h with h1 | h1
    · exact Or.inl (List.mem_cons_of_mem _ h1)
    · rw [AutoEQData.lookup_insert_eq] at h1
      by_cases hk : k = x.1
      · rw [if_pos hk] at h1
        left
        have : x = (k, v) := by
          rw [hk, ← Option.some.inj h1]
        rw [this]; exact List.mem_cons_self _ _
      · rw [if_neg hk] at h1
        exact Or.inr h1

/-- C7. Every curve `parseAutoEQ` returns has only frequencies in 1..30000 and only finite
gains. -/
theorem parseAutoEQ_range (content : Str) (data : AutoEQData)
    (h : parseAutoEQ content = Except.ok data) (f : Int) (g : F64)
    (hfg : data.lookup f = some g) :
    (0 < f ∧ f ≤ 30000) ∧ g.isNaN = false ∧ g.isInf = false := by
  rw [parseAutoEQ_spec] at h
  cases hf : firstMarkerLine (contentLines content) with
  | none => rw [hf] at h; cases h
  | some line =>
    rw [hf] at h
    simp only at h
    by_cases ha : acceptedPoints (linePoints line) = []
    · rw [if_pos ha] at h
      by_cases ht : trimSpace ((linePoints line).getD 0 []) ≠ []
      · rw [if_pos ht] at h; cases h
      · rw [if_neg ht] at h; cases h
    · rw [if_neg ha] at h
      cases h
      unfold buildData at hfg
      rcases foldl_insert_lookup_mem _ _ _ _ hfg with h1 | h1
      · unfold acceptedPoints at h1
        rw [List.mem_filterMap] at h1
        obtain ⟨tok, _, hp⟩ := h1
        obtain ⟨a, b, _, _, _, hr, hn, hi⟩ := (parsePoint_eq_some tok f g).1 hp
        exact ⟨hr, hn, hi⟩
      · simp at h1

theorem parseAutoEQ_range_witness :
    (0 < (200 : Int) ∧ (200 : Int) ≤ 30000) ∧ (F64.fin 1).isNaN = false ∧
      (F64.fin 1).isInf = false :=
  parseAutoEQ_range "GraphicEQ: 0 1.0; 200 1.0; 40000 2.0; 300 NaN; 400 Inf".toList
    (buildData [(200, F64.fin 1)]) (by decide!) 200 (F64.fin 1) (by decide)

/-- The tokens with frequency 0 or 40000, or gain NaN or Inf, leave no entry. -/
theorem parse_rejects_bad_points_example :
    (parseAutoEQ "GraphicEQ: 0 1.0; 200 1.0; 40000 2.0; 300 NaN; 400 Inf".toList).map
        (fun data => data.entries) = Except.ok [⟨200, F64.fin 1⟩] := by
  decide!



/-! ## applyX2EQ -/

theorem copyEQ_fold_lookup (es : List (Sigma fun _ : Int => F64)) (hnd : es.NodupKeys)
    (d : AutoEQData) (k : Int) :
    (es.foldl (fun out e => out.insert e.1 e.2) d).lookup k =
      match es.dlookup k with
      | some v => some v
      | none => d.lookup k := by
  induction es generalizing d with
  | nil => rfl
  | cons e r ih =>
    obtain ⟨a, b⟩ := e
    rw [List.foldl_cons, ih (List.nodupKeys_cons.1 hnd).2]
    by_cases hk : k = a
    · subst hk
      have hnot : k ∉ r.keys := (List.nodupKeys_cons.1 hnd).1
      rw [List.dlookup_eq_none.2 hnot, List.dlookup_cons_eq]
      simp
    · rw [List.dlookup_cons_ne _ _ hk]
      cases r.dlookup k with
      | some v => rfl
      | none => simp [AList.lookup_insert_ne hk]

theorem copyEQ_lookup (m : AutoEQData) (k : Int) : (copyEQ m).lookup k = m.lookup k := by
  unfold copyEQ
  rw [copyEQ_fold_lookup _ m.nodupKeys]
  show (match m.lookup k with
    | some v => some v
    | none => (∅ : AutoEQData).lookup k) = m.lookup k
  cases m.lookup k <;> rfl

theorem x2Step_lookup (log10 : F64 → F64) (x2EQ : List eqPoint) (m : AutoEQData)
    (t k : Int) :
    (x2Step log10 x2EQ m t).lookup k =
      if k = t then (m.lookup k).map (x2Add (x2GainToAdd log10 x2EQ k)) else m.lookup k := by
  unfold x2Step
  by_cases hk : k = t
  · subst hk
    rw [if_pos rfl]
    cases hl : m.lookup k with
    | none => simp [hl]
    | some b =>
      simp only [Option.map_some', x2Add]
      by_cases hc : ((F64.add b (x2GainToAdd log10 x2EQ k)).isNaN ||
          (F64.add b (x2GainToAdd log10 x2EQ k)).isInf) = true
      · rw [if_pos hc, if_pos hc, hl]
      · rw [if_neg hc, if_neg hc, AList.lookup_insert]
  · rw [if_neg hk]
    cases hl : m.lookup t with
    | none => rfl
    | some b =>
      simp only
      by_cases hc : ((F64.add b (x2GainToAdd log10 x2EQ t)).isNaN ||
          (F64.add b (x2GainToAdd log10 x2EQ t)).isInf) = true
      · rw [if_pos hc]
      · rw [if_neg hc, AList.lookup_insert_ne hk]

theorem x2Step_mem (log10 : F64 → F64) (x2EQ : List eqPoint) (m : AutoEQData) (t k : Int) :
    k ∈ x2Step log10 x2EQ m t ↔ k ∈ m := by
  rw [AutoEQData.mem_iff_lookup, AutoEQData.mem_iff_lookup, x2Step_lookup]
  by_cases hk : k = t
  · rw [if_pos hk]
    cases m.lookup k <;> simp
  · rw [if_neg hk]

theorem x2Fold_mem (log10 : F64 → F64) (x2EQ : List eqPoint) (axis : List Int)
    (m : AutoEQData) (k : Int) :
    k ∈ axis.foldl (x2Step log10 x2EQ) m ↔ k ∈ m := by
  induction axis generalizing m with
  | nil => rfl
  | cons t r ih => rw [List.foldl_cons, ih, x2Step_mem]

theorem x2Fold_lookup_not_mem (log10 : F64 → F64) (x2EQ : List eqPoint) (axis : List Int)
    (m : AutoEQData) (k : Int) (hk : k ∉ axis) :
    (axis.foldl (x2Step log10 x2EQ) m).lookup k = m.lookup k := by
  induction axis generalizing m with
  | nil => rfl
  | cons t r ih =>
    rw [List.foldl_cons, ih _ (fun h => hk (List.mem_cons_of_mem _ h)), x2Step_lookup,
      if_neg (fun h => hk (by simp [h]))]

theorem x2Fold_lookup (log10 : F64 → F64) (x2EQ : List eqPoint) (axis : List Int)
    (hnd : axis.Nodup) (m : AutoEQData) (k : Int) :
    (axis.foldl (x2Step log10 x2EQ) m).lookup k =
      if k ∈ axis then (m.lookup k).map (x2Add (x2GainToAdd log10 x2EQ k)) else m.lookup k := by
  induction axis generalizing m with
  | nil => simp
  | cons t r ih =>
    have ht : t ∉ r := (List.nodup_cons.1 hnd).1
    rw [List.foldl_cons]
    by_cases hk : k = t
    · subst hk
      rw [x2Fold_lookup_not_mem _ _ _ _ _ ht, x2Step_lookup, if_pos rfl, if_pos (by simp)]
    · rw [ih (List.nodup_cons.1 hnd).2, x2Step_lookup, if_neg hk]
      by_cases hr : k ∈ r
      · rw [if_pos hr, if_pos (List.mem_cons_of_mem _ hr)]
      · rw [if_neg hr, if_neg]
        intro h
        rcases List.mem_cons.1 h with h2 | h2
        · exact hk h2
        · exact hr h2

/-- C9. `applyX2EQ` never introduces or removes frequencies: the result has exactly the keys
of the base curve (so an axis frequency absent from the base stays absent), and an entry
whose frequency is not on the axis keeps its value. -/
theorem applyX2EQ_keys (log10 : F64 → F64) (baseEQ : AutoEQData) (x2EQ : List eqPoint)
    (allFreqs : List Int) :
    (∀ f, f ∈ applyX2EQ log10 baseEQ x2EQ allFreqs ↔ f ∈ baseEQ) ∧
      (∀ f, f ∉ allFreqs →
        (applyX2EQ log10 baseEQ x2EQ allFreqs).lookup f = baseEQ.lookup f) := by
  have hcopy : ∀ f, f ∈ copyEQ baseEQ ↔ f ∈ baseEQ := by
    intro f
    rw [AutoEQData.mem_iff_lookup, AutoEQData.mem_iff_lookup, copyEQ_lookup]
  unfold applyX2EQ
  by_cases h0 : x2EQ.length = 0
  · rw [if_pos h0]
    exact ⟨hcopy, fun f _ => copyEQ_lookup baseEQ f⟩
  · rw [if_neg h0]
    constructor
    · intro f
      rw [x2Fold_mem, hcopy]
    · intro f hf
      rw [x2Fold_lookup_not_mem _ _ _ _ _ hf, copyEQ_lookup]

theorem applyX2EQ_keys_witness :
    ((200 : Int) ∈ applyX2EQ (fun x => x) curveEdges overlaySingle [50, 200, 5000] ↔
        (200 : Int) ∈ curveEdges) ∧
      (applyX2EQ (fun x => x) curveEdges overlaySingle [50, 200]).lookup 5000 =
        curveEdges.lookup 5000 :=
  ⟨(applyX2EQ_keys (fun x => x) curveEdges overlaySingle [50, 200, 5000]).1 200,
    (applyX2EQ_keys (fun x => x) curveEdges overlaySingle [50, 200]).2 5000 (by decide)⟩



/-! ## The overlay value of `applyX2EQ` -/

theorem pairwise_head_le (l : List eqPoint) (first : eqPoint) (h : l.head? = some first)
    (hs : l.Pairwise (fun a b => a.Freq ≤ b.Freq)) (p : eqPoint) (hp : p ∈ l) :
    first.Freq ≤ p.Freq := by
  cases l with
  | nil => cases h
  | cons a r =>
    simp only [List.head?_cons, Option.some.injEq] at h
    subst h
    rcases List.mem_cons.1 hp with h1 | h1
    · rw [h1]
    · exact (List.pairwise_cons.1 hs).1 p h1

theorem pairwise_le_last (l : List eqPoint) (last : eqPoint) (h : l.getLast? = some last)
    (hs : l.Pairwise (fun a b => a.Freq ≤ b.Freq)) (p : eqPoint) (hp : p ∈ l) :
    p.Freq ≤ last.Freq := by
  induction l generalizing p with
  | nil => cases hp
  | cons a r ih =>
    cases r with
    | nil =>
      simp only [List.getLast?_singleton, Option.some.injEq] at h
      rw [List.mem_singleton.1 hp, h]
    | cons b r2 =>
      rw [List.getLast?_cons_cons] at h
      rcases List.mem_cons.1 hp with h1 | h1
      · rw [h1]
        exact le_trans ((List.pairwise_cons.1 hs).1 b (by simp))
          (ih h (List.pairwise_cons.1 hs).2 b (by simp))
      · exact ih h (List.pairwise_cons.1 hs).2 p h1

theorem pairwise_lt_unique (l : List eqPoint) (hs : l.Pairwise (fun a b => a.Freq < b.Freq))
    (p q : eqPoint) (hp : p ∈ l) (hq : q ∈ l) (h : p.Freq = q.Freq) : p = q := by
  induction l with
  | nil => cases hp
  | cons a r ih =>
    obtain ⟨ha, hr⟩ := List.pairwise_cons.1 hs
    rcases List.mem_cons.1 hp with h1 | h1 <;> rcases List.mem_cons.1 hq with h2 | h2
    · rw [h1, h2]
    · have := ha q h2; rw [← h, h1] at this; exact absurd this (lt_irrefl _)
    · have := ha p h1; rw [h, h2] at this; exact absurd this (lt_irrefl _)
    · exact ih hr h1 h2

theorem x2Scan_match (log10 : F64 → F64) (targetFreq : Int) (l : List eqPoint)
    (hs : l.Pairwise (fun a b => a.Freq < b.Freq)) (p : eqPoint) (hp : p ∈ l)
    (ht : targetFreq = p.Freq) (hlen : 2 ≤ l.length) :
    x2Scan log10 targetFreq l = p.Gain := by
  match l, hs, hp, hlen with
  | a :: b :: rest, hs, hp, _ =>
    obtain ⟨ha, hr⟩ := List.pairwise_cons.1 hs
    obtain ⟨hb, _⟩ := List.pairwise_cons.1 hr
    unfold x2Scan
    by_cases h1 : targetFreq = a.Freq
    · rw [if_pos h1]
      have : p = a := pairwise_lt_unique _ hs p a hp (by simp) (by rw [← ht, h1])
      rw [this]
    · rw [if_neg h1]
      by_cases h2 : targetFreq = b.Freq
      · rw [if_pos h2]
        have : p = b := pairwise_lt_unique _ hs p b hp (by simp) (by rw [← ht, h2])
        rw [this]
      · rw [if_neg h2]
        have hpr : p ∈ rest := by
          rcases List.mem_cons.1 hp with h3 | h3
          · rw [h3] at ht; exact absurd ht h1
          · rcases List.mem_cons.1 h3 with h4 | h4
            · rw [h4] at ht; exact absurd ht h2
            · exact h4
        have hgt : b.Freq < targetFreq := by rw [ht]; exact hb p hpr
        rw [if_neg (by omega)]
        have hlen2 : 2 ≤ (b :: rest).length := by
          cases rest with
          | nil => cases hpr
          | cons c r => simp
        exact x2Scan_match log10 targetFreq (b :: rest) hr p (List.mem_cons_of_mem _ hpr) ht hlen2

/-- C8 (as amended). Overlay boundary rule for a non-empty overlay sorted ascending by
frequency: below the first control point the overlay value is the first gain, above the last
it is the last gain, and, when the frequencies are strictly ascending, at a control point's
frequency it is exactly that control point's gain.  The value is what `applyX2EQ` adds to
the base entry at an axis frequency (the entry is kept when the sum is not finite). -/
theorem x2GainToAdd_boundary (log10 : F64 → F64) (x2EQ : List eqPoint) (first last : eqPoint)
    (hfirst : x2EQ.head? = some first) (hlast : x2EQ.getLast? = some last)
    (hsorted : x2EQ.Pairwise (fun a b => a.Freq ≤ b.Freq)) (targetFreq : Int) :
    (targetFreq < first.Freq → x2GainToAdd log10 x2EQ targetFreq = first.Gain) ∧
      (targetFreq > last.Freq → x2GainToAdd log10 x2EQ targetFreq = last.Gain) ∧
      (x2EQ.Pairwise (fun a b => a.Freq < b.Freq) → ∀ p ∈ x2EQ, targetFreq = p.Freq →
        x2GainToAdd log10 x2EQ targetFreq = p.Gain) ∧
      (∀ (baseEQ : AutoEQData) (allFreqs : List Int) (baseGain : F64), allFreqs.Nodup →
        targetFreq ∈ allFreqs → baseEQ.lookup targetFreq = some baseGain →
        (applyX2EQ log10 baseEQ x2EQ allFreqs).lookup targetFreq =
          some (x2Add (x2GainToAdd log10 x2EQ targetFreq) baseGain)) := by
  have hfl : first.Freq ≤ last.Freq := by
    have hmem : first ∈ x2EQ := by
      cases x2EQ with
      | nil => cases hfirst
      | cons a r =>
        simp only [List.head?_cons, Option.some.injEq] at hfirst
        rw [← hfirst]; simp
    exact pairwise_le_last x2EQ last hlast hsorted first hmem
  refine ⟨?_, ?_, ?_, ?_⟩
  · intro h
    unfold x2GainToAdd
    simp only [hfirst, hlast]
    rw [if_pos h]
  · intro h
    unfold x2GainToAdd
    simp only [hfirst, hlast]
    rw [if_neg (by omega), if_pos h]
  · intro hstrict p hp ht
    have h1 := pairwise_head_le x2EQ first hfirst hsorted p hp
    have h2 := pairwise_le_last x2EQ last hlast hsorted p hp
    unfold x2GainToAdd
    simp only [hfirst, hlast]
    rw [if_neg (by omega), if_neg (by omega)]
    have hlastmem : last ∈ x2EQ := List.mem_of_getLast?_eq_some hlast
    by_cases hlen : 2 ≤ x2EQ.length
    · rw [x2Scan_match log10 targetFreq x2EQ hstrict p hp ht hlen]
      by_cases hc : F64.eq p.Gain 0 = true ∧ targetFreq = last.Freq
      · rw [if_pos hc]
        have : p = last := pairwise_lt_unique _ hstrict p last hp hlastmem (by rw [← ht, hc.2])
        rw [this]
      · rw [if_neg hc]
    · have hone : x2EQ = [p] := by
        match x2EQ, hp, hlen with
        | [a], hp, _ => rw [List.mem_singleton.1 hp]
        | a :: b :: r, _, hlen => simp at hlen
      subst hone
      simp only [List.getLast?_singleton, Option.some.injEq] at hlast
      subst hlast
      rw [if_pos ⟨by rfl, ht⟩]
  · intro baseEQ allFreqs baseGain hnd hmem hbase
    unfold applyX2EQ
    have hne : x2EQ.length ≠ 0 := by
      cases x2EQ with
      | nil => cases hfirst
      | cons a r => simp
    rw [if_neg hne, x2Fold_lookup _ _ _ hnd, if_pos hmem, copyEQ_lookup, hbase]
    rfl

theorem x2GainToAdd_boundary_witness :
    (x2GainToAdd (fun x => x) overlaySingle 50 = F64.fin 2) ∧
      (x2GainToAdd (fun x => x) overlaySingle 5000 = F64.fin 2) ∧
      (x2GainToAdd (fun x => x) overlaySingle 1000 = F64.fin 2) ∧
      (applyX2EQ (fun x => x) curveEdges overlaySingle [50, 5000]).lookup 50 =
        some (x2Add (x2GainToAdd (fun x => x) overlaySingle 50) (F64.fin 1)) :=
  ⟨(x2GainToAdd_boundary (fun x => x) overlaySingle ⟨1000, F64.fin 2⟩ ⟨1000, F64.fin 2⟩
      rfl rfl (by simp [overlaySingle]) 50).1 (by decide),
    (x2GainToAdd_boundary (fun x => x) overlaySingle ⟨1000, F64.fin 2⟩ ⟨1000, F64.fin 2⟩
      rfl rfl (by simp [overlaySingle]) 5000).2.1 (by decide),
    (x2GainToAdd_boundary (fun x => x) overlaySingle ⟨1000, F64.fin 2⟩ ⟨1000, F64.fin 2⟩
      rfl rfl (by simp [overlaySingle]) 1000).2.2.1 (by simp [overlaySingle])
      ⟨1000, F64.fin 2⟩ (by simp [overlaySingle]) rfl,
    (x2GainToAdd_boundary (fun x => x) overlaySingle ⟨1000, F64.fin 2⟩ ⟨1000, F64.fin 2⟩
      rfl rfl (by simp [overlaySingle]) 50).2.2.2 curveEdges [50, 5000] (F64.fin 1)
      (by decide) (by decide) (by decide)⟩

/-- C8, counterexample. The overlay (100, 1.0), (100, 2.0) is sorted ascending by frequency
and (100, 2.0) is a control point at 100 Hz, but the overlay value at 100 Hz is 1.0, the
gain of the first control point with that frequency, whatever `math.Log10` returns. -/
theorem x2GainToAdd_tie :
    overlayTie.Pairwise (fun a b => a.Freq ≤ b.Freq) ∧
      (⟨100, F64.fin 2⟩ : eqPoint) ∈ overlayTie ∧
      (∀ log10 : F64 → F64, x2GainToAdd log10 overlayTie 100 = F64.fin 1) ∧
      F64.fin 1 ≠ F64.fin 2 := by
  refine ⟨by simp [overlayTie], by simp [overlayTie], fun log10 => rfl, by decide⟩

/-- The single-point overlay (1000, 2.0) adds 2.0 at 50 Hz and at 5000 Hz. -/
theorem applyX2EQ_single_point :
    (applyX2EQ (fun x => x) curveEdges overlaySingle [50, 5000]).lookup 50 =
        some (F64.fin 3) ∧
      (applyX2EQ (fun x => x) curveEdges overlaySingle [50, 5000]).lookup 5000 =
        some (F64.fin 5) := by
  decide!



/-! ## applyMovingAverageSmoothing: the configuration precondition -/

theorem findStartIndex_none (sortedFreqs : List Int) (startFreq : F64)
    (h : ∀ f ∈ sortedFreqs, F64.ge (F64.ofInt f) startFreq = false) :
    findStartIndex sortedFreqs startFreq = none := by
  unfold findStartIndex
  simp only
  rw [if_neg]
  rw [List.findIdx_lt_length]
  rintro ⟨f, hf, hge⟩
  rw [h f hf] at hge
  cases hge

/-- C10. `applyMovingAverageSmoothing` returns a curve equal to its input (same keys, same
gains) when `windowSize` is even or at most 1, when no axis frequency is at least
`startFreq`, and when fewer than `windowSize` axis points remain from `startIndex`. -/
theorem smoothing_unchanged (inputEQ : AutoEQData) (sortedFreqs : List Int) (windowSize : Int)
    (startFreq : F64)
    (h : (windowSize ≤ 1 ∨ windowSize % 2 = 0) ∨
      (∀ f ∈ sortedFreqs, F64.ge (F64.ofInt f) startFreq = false) ∨
      (∃ startIndex, findStartIndex sortedFreqs startFreq = some startIndex ∧
        (sortedFreqs.length : Int) - startIndex < windowSize)) :
    ∀ f, (applyMovingAverageSmoothing inputEQ sortedFreqs windowSize startFreq).lookup f =
      inputEQ.lookup f := by
  intro f
  unfold applyMovingAverageSmoothing
  simp only
  by_cases h1 : windowSize ≤ 1 ∨ windowSize % 2 = 0
  · rw [if_pos h1, copyEQ_lookup]
  · rw [if_neg h1]
    by_cases h2 : (sortedFreqs.length : Int) < windowSize
    · rw [if_pos h2, copyEQ_lookup]
    · rw [if_neg h2]
      rcases h with h | h | ⟨i, hi, hlt⟩
      · exact absurd h h1
      · rw [findStartIndex_none _ _ h]
        exact copyEQ_lookup _ _
      · rw [hi]
        simp only
        rw [if_pos hlt, copyEQ_lookup]

theorem smoothing_unchanged_witness :
    (∀ f, (applyMovingAverageSmoothing curveFive [1, 2, 3, 4, 5] 1 (F64.fin 2)).lookup f =
        curveFive.lookup f) ∧
      (∀ f, (applyMovingAverageSmoothing curveFive [1, 2, 3, 4, 5] 4 (F64.fin 2)).lookup f =
        curveFive.lookup f) ∧
      (∀ f, (applyMovingAverageSmoothing curveFive [1, 2, 3, 4, 5] 3 (F64.fin 8000)).lookup f =
        curveFive.lookup f) ∧
      (∀ f, (applyMovingAverageSmoothing curveFive [1, 2, 3, 4, 5] 3 (F64.fin 4)).lookup f =
        curveFive.lookup f) :=
  ⟨smoothing_unchanged curveFive [1, 2, 3, 4, 5] 1 (F64.fin 2) (Or.inl (Or.inl (by decide))),
    smoothing_unchanged curveFive [1, 2, 3, 4, 5] 4 (F64.fin 2) (Or.inl (Or.inr (by decide))),
    smoothing_unchanged curveFive [1, 2, 3, 4, 5] 3 (F64.fin 8000) (Or.inr (Or.inl (by decide!))),
    smoothing_unchanged curveFive [1, 2, 3, 4, 5] 3 (F64.fin 4)
      (Or.inr (Or.inr ⟨3, by decide!, by decide⟩))⟩

/-- With an odd window above 1 and enough points from `startIndex`, smoothing does change
the curve: the configuration precondition is what keeps it unchanged. -/
theorem smoothing_applies_example :
    (applyMovingAverageSmoothing curveFive [1, 2, 3, 4, 5] 3 (F64.fin 2)).lookup 3 =
      some (F64.fin 4) := by
  decide!



/-! ## The frequency axis of `handleConvert` -/

theorem allFreqs_nodup (a b : AutoEQData) : (allFreqs a b).Nodup := by
  unfold allFreqs allFreqsMap
  exact (List.perm_insertionSort _ _).nodup_iff.2 (List.nodup_dedup _)

theorem allFreqs_sorted_le (a b : AutoEQData) : (allFreqs a b).Sorted (· ≤ ·) := by
  unfold allFreqs
  exact List.sorted_insertionSort _ _

/-- C14. The frequency axis `allFreqs` that `handleConvert` builds from two curves is
strictly increasing, has no duplicates, and contains exactly the union of the two key
sets. -/
theorem allFreqs_strictly_increasing (a b : AutoEQData) :
    (allFreqs a b).Sorted (· < ·) ∧ (allFreqs a b).Nodup ∧
      ∀ f, f ∈ allFreqs a b ↔ f ∈ a ∨ f ∈ b :=
  ⟨(allFreqs_sorted_le a b).lt_of_le (allFreqs_nodup a b), allFreqs_nodup a b,
    mem_allFreqs a b⟩

/-- The axis of the curves {100, 1000} and {200}. -/
theorem allFreqs_example : allFreqs curveMinimal curve200 = [100, 200, 1000] := by
  decide



/-! ## formatEQString -/

theorem eqPoints_eq_formatItems (eqData : AutoEQData) (sortedFreqs : List Int) :
    eqPoints eqData sortedFreqs = formatItems eqData sortedFreqs := by
  rw [eqPoints_eq]
  unfold formatItems
  induction sortedFreqs with
  | nil => rfl
  | cons f r ih =>
    rw [List.filterMap_cons]
    cases hl : eqData.lookup f with
    | none =>
      have hm : f ∉ eqData := by rw [AutoEQData.mem_iff_lookup]; simp [hl]
      simp only [Option.map_none']
      rw [List.filter_cons_of_neg (by simpa using hm), ih]
    | some g =>
      have hm : f ∈ eqData := (AutoEQData.mem_iff_lookup _ _).2 ⟨g, hl⟩
      simp only [Option.map_some']
      rw [List.filter_cons_of_pos (by simpa using hm), List.map_cons, ih]
      simp [fmtPoint, AutoEQData.get, hl]

theorem fmtF1_shape (g : F64) :
    ∃ sign ds d, (sign = [] ∨ sign = ['-']) ∧ ds ≠ [] ∧ (∀ c ∈ ds, isDigit c = true) ∧
      isDigit d = true ∧ fmtF1 (sanitize g) = sign ++ ds ++ ['.', d] := by
  obtain ⟨q, hq⟩ := sanitize_fin g
  rw [hq]
  obtain ⟨hne, hall, _⟩ := natToStr_spec (roundHalfEven (|q| * 10) / 10)
  have hlt : roundHalfEven (|q| * 10) % 10 < 10 := Nat.mod_lt _ (by norm_num)
  obtain ⟨hd, _⟩ := digitChar_isDigit _ hlt
  by_cases hneg : q < 0
  · refine ⟨['-'], natToStr (roundHalfEven (|q| * 10) / 10),
      Nat.digitChar (roundHalfEven (|q| * 10) % 10), Or.inr rfl, hne, hall, hd, ?_⟩
    simp only [fmtF1, if_pos hneg, natToStr_digit _ hlt]
    simp
  · refine ⟨[], natToStr (roundHalfEven (|q| * 10) / 10),
      Nat.digitChar (roundHalfEven (|q| * 10) % 10), Or.inl rfl, hne, hall, hd, ?_⟩
    simp only [fmtF1, if_neg hneg, natToStr_digit _ hlt]
    simp

/-- C12. `formatEQString` returns `GraphicEQ: ` followed by one item `<freq> <gain>` for
each axis frequency present in the curve and for no other, in axis order, joined by `; `,
each gain written with one decimal digit; when no axis frequency is present in the curve it
returns the placeholder `GraphicEQ: (No valid points)`. -/
theorem formatEQString_spec (eqData : AutoEQData) (sortedFreqs : List Int) :
    ((∃ f ∈ sortedFreqs, f ∈ eqData) →
        formatEQString eqData sortedFreqs =
          "GraphicEQ: ".toList ++ "; ".toList.intercalate (formatItems eqData sortedFreqs)) ∧
      ((¬ ∃ f ∈ sortedFreqs, f ∈ eqData) →
        formatEQString eqData sortedFreqs = "GraphicEQ: (No valid points)".toList) ∧
      (∀ g : F64, ∃ sign ds d, (sign = [] ∨ sign = ['-']) ∧ ds ≠ [] ∧
        (∀ c ∈ ds, isDigit c = true) ∧ isDigit d = true ∧
        fmtF1 (sanitize g) = sign ++ ds ++ ['.', d]) := by
  refine ⟨?_, ?_, fmtF1_shape⟩
  · intro h
    have hne := eqPoints_ne_nil eqData sortedFreqs h
    unfold formatEQString
    rw [if_pos (List.length_pos.2 hne), eqPoints_eq_formatItems]
    rfl
  · intro h
    have he : eqPoints eqData sortedFreqs = [] := by
      rw [eqPoints_eq, List.filterMap_eq_nil_iff]
      intro f hf
      have hm : f ∉ eqData := fun hm => h ⟨f, hf, hm⟩
      rw [AutoEQData.mem_iff_lookup] at hm
      cases hl : eqData.lookup f with
      | none => rfl
      | some g => exact absurd ⟨g, hl⟩ hm
    unfold formatEQString
    rw [he]
    rfl

theorem formatEQString_spec_witness :
    formatEQString curveMinimal [50, 100, 1000] =
        "GraphicEQ: ".toList ++
          "; ".toList.intercalate (formatItems curveMinimal [50, 100, 1000]) ∧
      formatEQString curveMinimal [50, 100, 1000] = "GraphicEQ: 100 3.0; 1000 3.0".toList ∧
      formatEQString curveMinimal [50] = "GraphicEQ: (No valid points)".toList :=
  ⟨(formatEQString_spec curveMinimal [50, 100, 1000]).1 ⟨100, by decide, by decide⟩,
    by decide!,
    (formatEQString_spec curveMinimal [50]).2.1 (by decide)⟩



/-! ## Only the first marker line counts -/

theorem replaceCRLF_cons_cons (c d : Char) (rest : Str) :
    replaceCRLF (c :: d :: rest) =
      if c = '\r' ∧ d = '\n' then '\n' :: replaceCRLF rest else c :: replaceCRLF (d :: rest) := by
  rw [replaceCRLF]

theorem replaceCRLF_newline_cons (t : Str) :
    replaceCRLF ('\n' :: t) = '\n' :: replaceCRLF t := by
  cases t with
  | nil => rfl
  | cons d rest =>
    rw [replaceCRLF_cons_cons, if_neg (fun h => absurd h.1 (by decide))]

theorem replaceCRLF_append_newline (h t : Str) :
    replaceCRLF (h ++ '\n' :: t) = replaceCRLF (h ++ ['\n']) ++ replaceCRLF t := by
  match h with
  | [] =>
    rw [List.nil_append, List.nil_append, replaceCRLF_newline_cons]; rfl
  | [c] =>
    show replaceCRLF (c :: '\n' :: t) = replaceCRLF (c :: '\n' :: []) ++ replaceCRLF t
    rw [replaceCRLF_cons_cons c '\n' t, replaceCRLF_cons_cons c '\n' []]
    by_cases hc : c = '\r' ∧ '\n' = '\n'
    · rw [if_pos hc, if_pos hc]; rfl
    · rw [if_neg hc, if_neg hc, replaceCRLF_newline_cons]; rfl
  | c :: d :: r =>
    show replaceCRLF (c :: d :: (r ++ '\n' :: t)) =
      replaceCRLF (c :: d :: (r ++ ['\n'])) ++ replaceCRLF t
    rw [replaceCRLF_cons_cons c d (r ++ '\n' :: t), replaceCRLF_cons_cons c d (r ++ ['\n'])]
    by_cases hc : c = '\r' ∧ d = '\n'
    · rw [if_pos hc, if_pos hc, replaceCRLF_append_newline r t]; rfl
    · rw [if_neg hc, if_neg hc]
      have := replaceCRLF_append_newline (d :: r) t
      rw [List.cons_append, List.cons_append] at this
      rw [this]; rfl

theorem replaceCRLF_ends_newline (h : Str) : ∃ x, replaceCRLF (h ++ ['\n']) = x ++ ['\n'] := by
  match h with
  | [] => exact ⟨[], rfl⟩
  | [c] =>
    show ∃ x, replaceCRLF (c :: '\n' :: []) = x ++ ['\n']
    rw [replaceCRLF_cons_cons]
    by_cases hc : c = '\r' ∧ '\n' = '\n'
    · rw [if_pos hc]; exact ⟨[], rfl⟩
    · rw [if_neg hc]; exact ⟨[c], rfl⟩
  | c :: d :: r =>
    show ∃ x, replaceCRLF (c :: d :: (r ++ ['\n'])) = x ++ ['\n']
    rw [replaceCRLF_cons_cons]
    by_cases hc : c = '\r' ∧ d = '\n'
    · rw [if_pos hc]
      obtain ⟨x, hx⟩ := replaceCRLF_ends_newline r
      exact ⟨'\n' :: x, by rw [hx]; rfl⟩
    · rw [if_neg hc]
      obtain ⟨x, hx⟩ := replaceCRLF_ends_newline (d :: r)
      rw [List.cons_append] at hx
      exact ⟨c :: x, by rw [hx]; rfl⟩

theorem split_append_sep (x y : Str) (sep : Char) :
    split (x ++ sep :: y) sep = split x sep ++ split y sep := by
  induction x with
  | nil =>
    rw [List.nil_append, split_cons, if_pos rfl]
    rfl
  | cons c x ih =>
    rw [List.cons_append, split_cons, split_cons, ih]
    by_cases hc : c = sep
    · rw [if_pos hc, if_pos hc]; rfl
    · rw [if_neg hc, if_neg hc]
      obtain ⟨a, r, har⟩ := List.exists_cons_of_ne_nil (split_ne_nil x sep)
      rw [har]; rfl

/-- The lines of a text up to a line break, followed by the lines of the rest. -/
theorem contentLines_append (head tail : Str) :
    ∃ common, contentLines (head ++ ['\n']) = common ++ [[]] ∧
      contentLines (head ++ '\n' :: tail) = common ++ contentLines tail := by
  obtain ⟨x, hx⟩ := replaceCRLF_ends_newline head
  refine ⟨split x '\n', ?_, ?_⟩
  · unfold contentLines
    rw [hx, split_append_sep]; rfl
  · unfold contentLines
    rw [replaceCRLF_append_newline, hx, List.append_assoc, List.singleton_append,
      split_append_sep]

theorem firstMarkerLine_append (common post : List Str)
    (h : ∃ raw ∈ common, hasPrefix (trimSpace raw) marker = true) :
    firstMarkerLine (common ++ post) = firstMarkerLine common ∧
      markerLineNum (common ++ post) = markerLineNum common := by
  induction common with
  | nil => obtain ⟨raw, hr, _⟩ := h; cases hr
  | cons a r ih =>
    by_cases ha : hasPrefix (trimSpace a) marker = true
    · simp [firstMarkerLine, markerLineNum, List.find?_cons, List.findIdx_cons, ha]
    · have h2 : ∃ raw ∈ r, hasPrefix (trimSpace raw) marker = true := by
        obtain ⟨raw, hr, hp⟩ := h
        rcases List.mem_cons.1 hr with h3 | h3
        · rw [h3] at hp; exact absurd hp ha
        · exact ⟨raw, h3, hp⟩
      obtain ⟨ih1, ih2⟩ := ih h2
      unfold firstMarkerLine at ih1 ⊢
      unfold markerLineNum at ih2 ⊢
      simp only [List.cons_append, List.map_cons, List.find?_cons, List.findIdx_cons, ha,
        cond_false]
      constructor
      · simpa using ih1
      · simpa using ih2

/-- C13. Only the first `GraphicEQ:` line is authoritative: when the text up to a line
break has a marker line, the result of `parseAutoEQ` (curve or error) does not depend on
what follows the line break. -/
theorem parseAutoEQ_first_marker_only (head tail1 tail2 : Str)
    (h : ∃ raw ∈ contentLines (head ++ ['\n']), hasPrefix (trimSpace raw) marker = true) :
    parseAutoEQ (head ++ '\n' :: tail1) = parseAutoEQ (head ++ '\n' :: tail2) := by
  obtain ⟨common, hc, h1⟩ := contentLines_append head tail1
  obtain ⟨common2, hc2, h2⟩ := contentLines_append head tail2
  have hcc : common2 = common := by
    rw [hc] at hc2
    exact (List.append_cancel_right hc2).symm
  subst hcc
  have hm : ∃ raw ∈ common2, hasPrefix (trimSpace raw) marker = true := by
    obtain ⟨raw, hr, hp⟩ := h
    rw [hc] at hr
    rcases List.mem_append.1 hr with h3 | h3
    · exact ⟨raw, h3, hp⟩
    · rw [List.mem_singleton.1 h3] at hp
      have hf : hasPrefix (trimSpace []) marker = false := by decide
      rw [hf] at hp; cases hp
  obtain ⟨a1, a2⟩ := firstMarkerLine_append common2 (contentLines tail1) hm
  obtain ⟨b1, b2⟩ := firstMarkerLine_append common2 (contentLines tail2) hm
  rw [parseAutoEQ_spec, parseAutoEQ_spec, h1, h2, a1, a2, b1, b2]

theorem parseAutoEQ_first_marker_only_witness :
    parseAutoEQ ("# c\nGraphicEQ: 100 1.0".toList ++ '\n' :: "GraphicEQ: 200 2.0".toList) =
        parseAutoEQ ("# c\nGraphicEQ: 100 1.0".toList ++ '\n' :: []) ∧
      parseAutoEQ "# c\nGraphicEQ: 100 1.0\nGraphicEQ: 200 2.0".toList =
        Except.ok (buildData [(100, F64.fin 1)]) :=
  ⟨parseAutoEQ_first_marker_only "# c\nGraphicEQ: 100 1.0".toList "GraphicEQ: 200 2.0".toList []
      ⟨"GraphicEQ: 100 1.0".toList, by decide, by decide⟩,
    by decide!⟩



/-! ## applyMovingAverageSmoothing: the loops -/

theorem smoothStep_getElem? (tempGains : List F64) (halfWindow : Nat) (acc : List F64)
    (i j : Nat) :
    (smoothStep tempGains halfWindow acc i)[j]? =
      if i = j then (acc[j]?).map (smoothValue tempGains halfWindow i) else acc[j]? := by
  unfold smoothStep smoothValue
  simp only
  by_cases hc : (windowSum tempGains i halfWindow).2 > 0
  · rw [if_pos hc]
    simp only [if_pos hc]
    by_cases hf : (!(F64.div (windowSum tempGains i halfWindow).1
          (F64.ofInt (windowSum tempGains i halfWindow).2)).isNaN &&
        !(F64.div (windowSum tempGains i halfWindow).1
          (F64.ofInt (windowSum tempGains i halfWindow).2)).isInf) = true
    · rw [if_pos hf]
      simp only [if_pos hf]
      rw [List.getElem?_set']
      rfl
    · rw [if_neg hf]
      simp only [if_neg hf]
      by_cases hij : i = j
      · rw [if_pos hij]; cases acc[j]? <;> rfl
      · rw [if_neg hij]
  · rw [if_neg hc]
    simp only [if_neg hc]
    by_cases hij : i = j
    · rw [if_pos hij]; cases acc[j]? <;> rfl
    · rw [if_neg hij]

theorem smoothFold_getElem? (tempGains : List F64) (halfWindow : Nat) (is : List Nat)
    (hnd : is.Nodup) (acc : List F64) (j : Nat) :
    (is.foldl (smoothStep tempGains halfWindow) acc)[j]? =
      if j ∈ is then (acc[j]?).map (smoothValue tempGains halfWindow j) else acc[j]? := by
  induction is generalizing acc with
  | nil => simp
  | cons i is ih =>
    have hi : i ∉ is := (List.nodup_cons.1 hnd).1
    rw [List.foldl_cons, ih (List.nodup_cons.1 hnd).2, smoothStep_getElem?]
    by_cases hij : i = j
    · subst hij
      rw [if_neg hi, if_pos rfl, if_pos (List.mem_cons_self _ _)]
    · rw [if_neg hij]
      by_cases hm : j ∈ is
      · rw [if_pos hm, if_pos (List.mem_cons_of_mem _ hm)]
      · rw [if_neg hm, if_neg]
        intro h
        rcases List.mem_cons.1 h with h2 | h2
        · exact hij h2.symm
        · exact hm h2

theorem zipFold_lookup_not_mem (axis : List Int) (sm : List F64) (out : AutoEQData) (k : Int)
    (hk : k ∉ axis) :
    ((axis.zip sm).foldl (fun out p => out.insert p.1 p.2) out).lookup k = out.lookup k := by
  induction axis generalizing sm out with
  | nil => rfl
  | cons a ax ih =>
    cases sm with
    | nil => rfl
    | cons b sm =>
      rw [List.zip_cons_cons, List.foldl_cons, ih _ _ (fun h => hk (List.mem_cons_of_mem _ h)),
        AList.lookup_insert_ne (fun h => hk (by simp [h]))]

theorem zipFold_lookup (axis : List Int) (hnd : axis.Nodup) (sm : List F64) (out : AutoEQData)
    (i : Nat) (f : Int) (v : F64) (hf : axis[i]? = some f) (hv : sm[i]? = some v) :
    ((axis.zip sm).foldl (fun out p => out.insert p.1 p.2) out).lookup f = some v := by
  induction axis generalizing sm out i with
  | nil => simp at hf
  | cons a ax ih =>
    cases sm with
    | nil => simp at hv
    | cons b sm =>
      rw [List.zip_cons_cons, List.foldl_cons]
      cases i with
      | zero =>
        simp only [List.getElem?_cons_zero, Option.some.injEq] at hf hv
        subst hf; subst hv
        rw [zipFold_lookup_not_mem _ _ _ _ (List.nodup_cons.1 hnd).1, AList.lookup_insert]
      | succ i =>
        simp only [List.getElem?_cons_succ] at hf hv
        exact ih (List.nodup_cons.1 hnd).2 sm _ i hf hv

theorem zipFold_mem (axis : List Int) (sm : List F64) (out : AutoEQData) (k : Int)
    (hk : k ∈ out) :
    k ∈ (axis.zip sm).foldl (fun out p => out.insert p.1 p.2) out := by
  induction axis generalizing sm out with
  | nil => exact hk
  | cons a ax ih =>
    cases sm with
    | nil => exact hk
    | cons b sm =>
      rw [List.zip_cons_cons, List.foldl_cons]
      exact ih _ _ ((AList.mem_insert _).2 (Or.inr hk))

/-- The smoothed array of `applyMovingAverageSmoothing` when smoothing applies. -/
theorem smoothing_applies_eq (inputEQ : AutoEQData) (sortedFreqs : List Int)
    (windowSize : Int) (startFreq : F64) (h s : Nat) (hw : windowSize = 2 * (h : Int) + 1)
    (hh : 1 ≤ h) (hs : findStartIndex sortedFreqs startFreq = some s)
    (hlen : s + (2 * h + 1) ≤ sortedFreqs.length) :
    applyMovingAverageSmoothing inputEQ sortedFreqs windowSize startFreq =
      (sortedFreqs.zip
        ((List.range' (s + h) (sortedFreqs.length - h - (s + h))).foldl
          (smoothStep (sortedFreqs.map (fun freq => inputEQ.get freq)) h)
          (sortedFreqs.map (fun freq => inputEQ.get freq)))).foldl
        (fun out p => out.insert p.1 p.2) (copyEQ inputEQ) := by
  unfold applyMovingAverageSmoothing
  simp only
  have h1 : ¬ (windowSize ≤ 1 ∨ windowSize % 2 = 0) := by omega
  have h2 : ¬ ((sortedFreqs.length : Int) < windowSize) := by omega
  have h3 : ¬ ((sortedFreqs.length : Int) - (s : Int) < windowSize) := by omega
  have h4 : (windowSize / 2).toNat = h := by omega
  rw [if_neg h1, if_neg h2, hs]
  simp only
  rw [if_neg h3, h4]

/-- Lookup at an axis position in the result of `applyMovingAverageSmoothing` when smoothing
applies: the window average inside the smoothed range, the slot of the dense array outside. -/
theorem smoothing_lookup_index (inputEQ : AutoEQData) (sortedFreqs : List Int)
    (windowSize : Int) (startFreq : F64) (h s : Nat) (hw : windowSize = 2 * (h : Int) + 1)
    (hh : 1 ≤ h) (hs : findStartIndex sortedFreqs startFreq = some s)
    (hlen : s + (2 * h + 1) ≤ sortedFreqs.length) (hnd : sortedFreqs.Nodup)
    (i : Nat) (f : Int) (hf : sortedFreqs[i]? = some f) :
    (applyMovingAverageSmoothing inputEQ sortedFreqs windowSize startFreq).lookup f =
      some (if s + h ≤ i ∧ i + h < sortedFreqs.length then
        smoothValue (sortedFreqs.map (fun freq => inputEQ.get freq)) h i (inputEQ.get f)
      else inputEQ.get f) := by
  rw [smoothing_applies_eq inputEQ sortedFreqs windowSize startFreq h s hw hh hs hlen]
  apply zipFold_lookup _ hnd _ _ i f _ hf
  rw [smoothFold_getElem? _ _ _ (List.nodup_range' _ _), List.getElem?_map, hf]
  simp only [Option.map_some', List.mem_range'_1]
  by_cases hr : s + h ≤ i ∧ i + h < sortedFreqs.length
  · rw [if_pos hr, if_pos (by omega)]
  · rw [if_neg hr, if_neg (by omega)]

theorem smoothing_lookup_not_mem (inputEQ : AutoEQData) (sortedFreqs : List Int)
    (windowSize : Int) (startFreq : F64) (k : Int) (hk : k ∉ sortedFreqs) :
    (applyMovingAverageSmoothing inputEQ sortedFreqs windowSize startFreq).lookup k =
      inputEQ.lookup k := by
  unfold applyMovingAverageSmoothing
  simp only
  split_ifs
  · exact copyEQ_lookup _ _
  · exact copyEQ_lookup _ _
  · split
    · exact copyEQ_lookup _ _
    · split_ifs
      · exact copyEQ_lookup _ _
      · rw [zipFold_lookup_not_mem _ _ _ _ hk, copyEQ_lookup]

theorem smoothing_mem_of_mem (inputEQ : AutoEQData) (sortedFreqs : List Int)
    (windowSize : Int) (startFreq : F64) (k : Int) (hk : k ∈ inputEQ) :
    k ∈ applyMovingAverageSmoothing inputEQ sortedFreqs windowSize startFreq := by
  have hc : k ∈ copyEQ inputEQ := by
    rw [AutoEQData.mem_iff_lookup, copyEQ_lookup, ← AutoEQData.mem_iff_lookup]; exact hk
  unfold applyMovingAverageSmoothing
  simp only
  split_ifs
  · exact hc
  · exact hc
  · split
    · exact hc
    · split_ifs
      · exact hc
      · exact zipFold_mem _ _ _ _ hc



/-! ## applyMovingAverageSmoothing: positions outside the smoothed range -/

theorem F64.ge_mono (a b : ℚ) (x : F64) (h : F64.ge (F64.fin a) x = true) (hab : a ≤ b) :
    F64.ge (F64.fin b) x = true := by
  cases x with
  | fin c =>
    simp only [F64.ge, F64.le, F64.lt, F64.eq, Bool.or_eq_true, decide_eq_true_eq] at h ⊢
    rcases h with h | h
    · exact Or.inl (lt_of_lt_of_le h hab)
    · rcases lt_or_eq_of_le hab with h2 | h2
      · exact Or.inl (by rw [h]; exact h2)
      · exact Or.inr (by rw [h, h2])
  | nan => simp [F64.ge, F64.le, F64.lt, F64.eq] at h
  | pinf => simp [F64.ge, F64.le, F64.lt, F64.eq] at h
  | ninf => simp [F64.ge, F64.le, F64.lt, F64.eq]

theorem findStartIndex_some (sortedFreqs : List Int) (startFreq : F64) (s : Nat)
    (hs : findStartIndex sortedFreqs startFreq = some s) :
    ∃ f, sortedFreqs[s]? = some f ∧ F64.ge (F64.ofInt f) startFreq = true := by
  unfold findStartIndex at hs
  simp only at hs
  by_cases hlt : sortedFreqs.findIdx (fun freq => F64.ge (F64.ofInt freq) startFreq) <
      sortedFreqs.length
  · rw [if_pos hlt] at hs
    have hs2 := Option.some.inj hs
    subst hs2
    refine ⟨sortedFreqs[sortedFreqs.findIdx (fun freq => F64.ge (F64.ofInt freq) startFreq)],
      List.getElem?_eq_getElem hlt, ?_⟩
    exact List.findIdx_getElem (p := fun freq => F64.ge (F64.ofInt freq) startFreq)
  · rw [if_neg hlt] at hs; cases hs

theorem below_start_index (sortedFreqs : List Int) (startFreq : F64) (s : Nat)
    (hs : findStartIndex sortedFreqs startFreq = some s)
    (hsorted : sortedFreqs.Sorted (· < ·)) (j : Nat) (f : Int)
    (hf : sortedFreqs[j]? = some f) (hb : F64.ge (F64.ofInt f) startFreq = false) : j < s := by
  obtain ⟨g, hg, hge⟩ := findStartIndex_some sortedFreqs startFreq s hs
  by_contra hjs
  have hsj : s ≤ j := not_lt.1 hjs
  have hle : g ≤ f := by
    rcases Nat.lt_or_eq_of_le hsj with h1 | h1
    · obtain ⟨hsl, hgs⟩ := List.getElem?_eq_some_iff.1 hg
      obtain ⟨hjl, hfj⟩ := List.getElem?_eq_some_iff.1 hf
      have := List.pairwise_iff_getElem.1 hsorted s j hsl hjl h1
      rw [hgs, hfj] at this
      exact le_of_lt this
    · rw [h1, hf] at hg
      rw [Option.some.inj hg]
  have := F64.ge_mono (roundNearest (g : ℚ)) (roundNearest (f : ℚ)) startFreq hge
    (roundNearest_mono _ _ (by exact_mod_cast hle))
  unfold F64.ofInt at hb
  rw [hb] at this
  cases this

/-- C16. When smoothing applies, every axis position outside the smoothed range
`[startIndex + halfWindow, len - 1 - halfWindow]` keeps its original value (the slot of the
dense array: the input gain, 0 for an axis frequency missing from the input); on an
ascending axis this includes every frequency below `startFreq`. -/
theorem smoothing_frame (inputEQ : AutoEQData) (sortedFreqs : List Int)
    (windowSize : Int) (startFreq : F64) (h s : Nat) (hw : windowSize = 2 * (h : Int) + 1)
    (hh : 1 ≤ h) (hs : findStartIndex sortedFreqs startFreq = some s)
    (hlen : s + (2 * h + 1) ≤ sortedFreqs.length) (hnd : sortedFreqs.Nodup) :
    (∀ i f, sortedFreqs[i]? = some f → (i < s + h ∨ sortedFreqs.length ≤ i + h) →
        (applyMovingAverageSmoothing inputEQ sortedFreqs windowSize startFreq).lookup f =
          some (inputEQ.get f)) ∧
      (sortedFreqs.Sorted (· < ·) → ∀ f ∈ sortedFreqs,
        F64.ge (F64.ofInt f) startFreq = false →
        (applyMovingAverageSmoothing inputEQ sortedFreqs windowSize startFreq).lookup f =
          some (inputEQ.get f)) := by
  have hidx : ∀ i f, sortedFreqs[i]? = some f → (i < s + h ∨ sortedFreqs.length ≤ i + h) →
      (applyMovingAverageSmoothing inputEQ sortedFreqs windowSize startFreq).lookup f =
        some (inputEQ.get f) := by
    intro i f hf hout
    rw [smoothing_lookup_index inputEQ sortedFreqs windowSize startFreq h s hw hh hs hlen hnd
      i f hf, if_neg (by omega)]
  refine ⟨hidx, ?_⟩
  intro hsorted f hf hb
  obtain ⟨j, hj⟩ := List.getElem?_of_mem hf
  have hjs := below_start_index sortedFreqs startFreq s hs hsorted j f hj hb
  exact hidx j f hj (Or.inl (by omega))

theorem smoothing_frame_witness :
    (applyMovingAverageSmoothing curveFive [1, 2, 3, 4, 5] 3 (F64.fin 2)).lookup 2 =
        some (curveFive.get 2) ∧
      (applyMovingAverageSmoothing curveFive [1, 2, 3, 4, 5] 3 (F64.fin 2)).lookup 5 =
        some (curveFive.get 5) ∧
      (applyMovingAverageSmoothing curveFive [1, 2, 3, 4, 5] 3 (F64.fin 2)).lookup 1 =
        some (curveFive.get 1) :=
  ⟨(smoothing_frame curveFive [1, 2, 3, 4, 5] 3 (F64.fin 2) 1 1 (by decide) (by decide)
      (by decide!) (by decide) (by decide)).1 1 2 (by decide) (Or.inl (by decide)),
    (smoothing_frame curveFive [1, 2, 3, 4, 5] 3 (F64.fin 2) 1 1 (by decide) (by decide)
      (by decide!) (by decide) (by decide)).1 4 5 (by decide) (Or.inr (by decide)),
    (smoothing_frame curveFive [1, 2, 3, 4, 5] 3 (F64.fin 2) 1 1 (by decide) (by decide)
      (by decide!) (by decide) (by decide)).2 (by decide) 1 (by decide) (by decide!)⟩


/-! ## applyX2EQ: interpolation between the bracketing control points -/

/-- The loop reaches the bracketing pair: on a strictly ascending overlay, for a target
strictly between the adjacent points `lower` and `upper`, the scan is the value of the
iteration at that pair. -/
theorem x2Scan_bracket (log10 : F64 → F64) (pre post : List eqPoint) (lower upper : eqPoint)
    (targetFreq : Int)
    (hsorted : (pre ++ lower :: upper :: post).Pairwise (fun a b => a.Freq < b.Freq))
    (hlo : lower.Freq < targetFreq) (hup : targetFreq < upper.Freq) :
    x2Scan log10 targetFreq (pre ++ lower :: upper :: post) =
      if F64.lt (F64.sub (log10 (F64.ofInt upper.Freq)) (log10 (F64.ofInt lower.Freq))) eps
      then lower.Gain
      else F64.add lower.Gain
        (F64.mul
          (F64.div (F64.sub (log10 (F64.ofInt targetFreq)) (log10 (F64.ofInt lower.Freq)))
            (F64.sub (log10 (F64.ofInt upper.Freq)) (log10 (F64.ofInt lower.Freq))))
          (F64.sub upper.Gain lower.Gain)) := by
  induction pre with
  | nil =>
    rw [List.nil_append, x2Scan, if_neg (ne_of_gt hlo), if_neg (ne_of_lt hup),
      if_pos ⟨hlo, hup⟩]
  | cons a pre ih =>
    obtain ⟨ha, hr⟩ := List.pairwise_cons.1 hsorted
    have hal : a.Freq < lower.Freq := ha lower (by simp)
    cases pre with
    | nil =>
      rw [List.cons_append, List.nil_append, x2Scan, if_neg (by omega), if_neg (by omega),
        if_neg (by omega)]
      exact ih hr
    | cons b pre2 =>
      have hbl : b.Freq < lower.Freq :=
        (List.pairwise_cons.1 hr).1 lower (by simp)
      rw [List.cons_append, List.cons_append, x2Scan, if_neg (by omega), if_neg (by omega),
        if_neg (by omega)]
      exact ih hr

theorem head?_bracket (pre post : List eqPoint) (lower upper first : eqPoint)
    (hsorted : (pre ++ lower :: upper :: post).Pairwise (fun a b => a.Freq < b.Freq))
    (hfirst : (pre ++ lower :: upper :: post).head? = some first) :
    first.Freq ≤ lower.Freq := by
  cases pre with
  | nil =>
    simp only [List.nil_append, List.head?_cons, Option.some.injEq] at hfirst
    rw [hfirst]
  | cons a pre =>
    simp only [List.cons_append, List.head?_cons, Option.some.injEq] at hfirst
    subst hfirst
    exact le_of_lt ((List.pairwise_cons.1 hsorted).1 lower (by simp))

theorem getLast?_bracket (pre post : List eqPoint) (lower upper last : eqPoint)
    (hsorted : (pre ++ lower :: upper :: post).Pairwise (fun a b => a.Freq < b.Freq))
    (hlast : (pre ++ lower :: upper :: post).getLast? = some last) :
    upper.Freq ≤ last.Freq :=
  pairwise_le_last _ last hlast (hsorted.imp (fun h => le_of_lt h)) upper (by simp)

/-- The value of `x2GainToAdd` for a target strictly between adjacent control points. -/
theorem x2GainToAdd_bracket (log10 : F64 → F64) (pre post : List eqPoint)
    (lower upper : eqPoint) (targetFreq : Int)
    (hsorted : (pre ++ lower :: upper :: post).Pairwise (fun a b => a.Freq < b.Freq))
    (hlo : lower.Freq < targetFreq) (hup : targetFreq < upper.Freq) :
    x2GainToAdd log10 (pre ++ lower :: upper :: post) targetFreq =
      x2Scan log10 targetFreq (pre ++ lower :: upper :: post) := by
  unfold x2GainToAdd
  cases hfirst : (pre ++ lower :: upper :: post).head? with
  | none => simp at hfirst
  | some first =>
    cases hlast : (pre ++ lower :: upper :: post).getLast? with
    | none => simp at hlast
    | some last =>
      have h1 := head?_bracket pre post lower upper first hsorted hfirst
      have h2 := getLast?_bracket pre post lower upper last hsorted hlast
      simp only
      rw [if_neg (by omega), if_neg (by omega), if_neg (fun h => by omega)]

/-- C17. For an overlay sorted strictly ascending by frequency and a target frequency
strictly between two adjacent control points `lower` and `upper` whose log10 span is not
below 1e-9, the overlay value is
`lower.Gain + t * (upper.Gain - lower.Gain)` with
`t = (log10 target - log10 lower.Freq) / (log10 upper.Freq - log10 lower.Freq)`,
and `applyX2EQ` adds it to the base gain at the target (for every function in the place
of `math.Log10`). -/
theorem x2GainToAdd_interpolates (log10 : F64 → F64) (pre post : List eqPoint)
    (lower upper : eqPoint) (targetFreq : Int)
    (hsorted : (pre ++ lower :: upper :: post).Pairwise (fun a b => a.Freq < b.Freq))
    (hlo : lower.Freq < targetFreq) (hup : targetFreq < upper.Freq)
    (hspan : F64.lt (F64.sub (log10 (F64.ofInt upper.Freq)) (log10 (F64.ofInt lower.Freq)))
      eps = false) :
    x2GainToAdd log10 (pre ++ lower :: upper :: post) targetFreq =
        F64.add lower.Gain
          (F64.mul
            (F64.div (F64.sub (log10 (F64.ofInt targetFreq)) (log10 (F64.ofInt lower.Freq)))
              (F64.sub (log10 (F64.ofInt upper.Freq)) (log10 (F64.ofInt lower.Freq))))
            (F64.sub upper.Gain lower.Gain)) ∧
      ∀ (baseEQ : AutoEQData) (allFreqs : List Int) (baseGain : F64), allFreqs.Nodup →
        targetFreq ∈ allFreqs → baseEQ.lookup targetFreq = some baseGain →
        (applyX2EQ log10 baseEQ (pre ++ lower :: upper :: post) allFreqs).lookup targetFreq =
          some (x2Add
            (F64.add lower.Gain
              (F64.mul
                (F64.div
                  (F64.sub (log10 (F64.ofInt targetFreq)) (log10 (F64.ofInt lower.Freq)))
                  (F64.sub (log10 (F64.ofInt upper.Freq)) (log10 (F64.ofInt lower.Freq))))
                (F64.sub upper.Gain lower.Gain)))
            baseGain) := by
  have hval := x2GainToAdd_bracket log10 pre post lower upper targetFreq hsorted hlo hup
  rw [x2Scan_bracket log10 pre post lower upper targetFreq hsorted hlo hup, hspan] at hval
  simp only [Bool.false_eq_true, if_false] at hval
  refine ⟨hval, ?_⟩
  intro baseEQ allFreqs baseGain hnd hmem hbase
  unfold applyX2EQ
  rw [if_neg (by simp), x2Fold_lookup log10 _ allFreqs hnd, if_pos hmem, copyEQ_lookup, hbase,
    Option.map_some', hval]

/-- Between (10 Hz, 1.0) and (1000 Hz, 5.0) the target 100 Hz is half way in log10
frequency: the overlay value is 3.0, and a base gain of 1.0 becomes 4.0. -/
theorem x2GainToAdd_interpolates_witness :
    x2GainToAdd log10Digits overlayDecade 100 = F64.fin 3 ∧
      (applyX2EQ log10Digits curveMid overlayDecade [100]).lookup 100 = some (F64.fin 4) := by
  have h := x2GainToAdd_interpolates log10Digits [] [] ⟨10, F64.fin 1⟩ ⟨1000, F64.fin 5⟩ 100
    (by simp) (by decide) (by decide) (by decide!)
  refine ⟨?_, ?_⟩
  · have h1 := h.1
    have h2 : F64.add (F64.fin 1)
        (F64.mul
          (F64.div (F64.sub (log10Digits (F64.ofInt 100)) (log10Digits (F64.ofInt 10)))
            (F64.sub (log10Digits (F64.ofInt 1000)) (log10Digits (F64.ofInt 10))))
          (F64.sub (F64.fin 5) (F64.fin 1))) = F64.fin 3 := by decide!
    exact h1.trans h2
  · have h1 := h.2 curveMid [100] (F64.fin 1) (by simp) (by simp) (by decide!)
    have h2 : x2Add (F64.add (F64.fin 1)
        (F64.mul
          (F64.div (F64.sub (log10Digits (F64.ofInt 100)) (log10Digits (F64.ofInt 10)))
            (F64.sub (log10Digits (F64.ofInt 1000)) (log10Digits (F64.ofInt 10))))
          (F64.sub (F64.fin 5) (F64.fin 1)))) (F64.fin 1) = F64.fin 4 := by decide!
    exact h1.trans (congrArg some h2)


/-! ## handleConvert: both outputs list the whole axis -/

theorem mem_mergeEQ (a b : AutoEQData) (f : Int) : f ∈ mergeEQ a b ↔ f ∈ a ∨ f ∈ b := by
  rw [AutoEQData.mem_iff_lookup, mergeEQ_lookup]
  by_cases h : f ∈ a ∨ f ∈ b
  · rw [if_pos h]; simp [h]
  · rw [if_neg h]; simp [h]

theorem mem_applyNoPreamp (inputEQ : AutoEQData) (sortedFreqs : List Int) (k : Int) :
    k ∈ applyNoPreamp inputEQ sortedFreqs ↔ k ∈ sortedFreqs ∧ k ∈ inputEQ := by
  obtain ⟨m, _, hl⟩ := applyNoPreamp_lookup inputEQ sortedFreqs
  rw [AutoEQData.mem_iff_lookup, hl]
  by_cases h : k ∈ sortedFreqs ∧ k ∈ inputEQ
  · rw [if_pos h]
    obtain ⟨v, hv⟩ := (AutoEQData.mem_iff_lookup _ _).1 h.2
    simp [h, hv]
  · rw [if_neg h]; simp [h]

theorem mem_applyX2EQ (log10 : F64 → F64) (baseEQ : AutoEQData) (x2EQ : List eqPoint)
    (allFreqs : List Int) (f : Int) :
    f ∈ applyX2EQ log10 baseEQ x2EQ allFreqs ↔ f ∈ baseEQ := by
  have hcopy : f ∈ copyEQ baseEQ ↔ f ∈ baseEQ := by
    rw [AutoEQData.mem_iff_lookup, AutoEQData.mem_iff_lookup, copyEQ_lookup]
  unfold applyX2EQ
  by_cases h0 : x2EQ.length = 0
  · rw [if_pos h0]; exact hcopy
  · rw [if_neg h0, x2Fold_mem]; exact hcopy

theorem formatItems_full (eqData : AutoEQData) (sortedFreqs : List Int)
    (h : ∀ f ∈ sortedFreqs, f ∈ eqData) :
    formatItems eqData sortedFreqs =
      sortedFreqs.map (fun f => fmtInt f ++ " ".toList ++ fmtF1 (sanitize (eqData.get f))) := by
  unfold formatItems
  rw [List.filter_eq_self.2 (fun f hf => by simpa using h f hf)]

/-- On an axis whose frequencies are all present in the curve, `formatEQString` writes
one item for every axis frequency. -/
theorem formatEQString_full (eqData : AutoEQData) (sortedFreqs : List Int)
    (hne : sortedFreqs ≠ []) (h : ∀ f ∈ sortedFreqs, f ∈ eqData) :
    formatEQString eqData sortedFreqs =
      "GraphicEQ: ".toList ++ "; ".toList.intercalate
        (sortedFreqs.map
          (fun f => fmtInt f ++ " ".toList ++ fmtF1 (sanitize (eqData.get f)))) := by
  obtain ⟨f, hf⟩ := List.exists_mem_of_ne_nil _ hne
  have hne2 := eqPoints_ne_nil eqData sortedFreqs ⟨f, hf, h f hf⟩
  unfold formatEQString
  rw [if_pos (List.length_pos.2 hne2), eqPoints_eq_formatItems, formatItems_full _ _ h]
  rfl

/-- C18. For every non-empty input curve (a successfully parsed curve has an entry), the
two texts produced by `handleConvert` consist of `GraphicEQ: ` and one item
`<freq> <gain>` for every frequency of the same axis, in axis order: the axis is strictly
ascending and holds exactly the frequencies of the input curve and of the constant
correction curve; the two texts differ at most in the gains. -/
theorem handleConvert_same_axis (log10 : F64 → F64) (sourceHarmanData : AutoEQData)
    (h : ∃ f, f ∈ sourceHarmanData) :
    (allFreqs sourceHarmanData harmanToVdsfEQ).Sorted (· < ·) ∧
      (∀ f, f ∈ allFreqs sourceHarmanData harmanToVdsfEQ ↔
        f ∈ sourceHarmanData ∨ f ∈ harmanToVdsfEQ) ∧
      ∃ gain1 gain2 : Int → F64,
        (handleConvert log10 sourceHarmanData).1 =
            "GraphicEQ: ".toList ++ "; ".toList.intercalate
              ((allFreqs sourceHarmanData harmanToVdsfEQ).map
                (fun f => fmtInt f ++ " ".toList ++ fmtF1 (gain1 f))) ∧
          (handleConvert log10 sourceHarmanData).2 =
            "GraphicEQ: ".toList ++ "; ".toList.intercalate
              ((allFreqs sourceHarmanData harmanToVdsfEQ).map
                (fun f => fmtInt f ++ " ".toList ++ fmtF1 (gain2 f))) := by
  refine ⟨(allFreqs_sorted_le _ _).lt_of_le (allFreqs_nodup _ _), mem_allFreqs _ _, ?_⟩
  obtain ⟨f0, hf0⟩ := h
  have hne : allFreqs sourceHarmanData harmanToVdsfEQ ≠ [] :=
    List.ne_nil_of_mem ((mem_allFreqs _ _ f0).2 (Or.inl hf0))
  have hmerge : ∀ f ∈ allFreqs sourceHarmanData harmanToVdsfEQ,
      f ∈ mergeEQ sourceHarmanData harmanToVdsfEQ :=
    fun f hf => (mem_mergeEQ _ _ f).2 ((mem_allFreqs _ _ f).1 hf)
  have h1 : ∀ f ∈ allFreqs sourceHarmanData harmanToVdsfEQ,
      f ∈ applyNoPreamp
        (applyMovingAverageSmoothing (mergeEQ sourceHarmanData harmanToVdsfEQ)
          (allFreqs sourceHarmanData harmanToVdsfEQ) movingAverageWindow smoothStartFreq)
        (allFreqs sourceHarmanData harmanToVdsfEQ) :=
    fun f hf => (mem_applyNoPreamp _ _ f).2
      ⟨hf, smoothing_mem_of_mem _ _ _ _ f (hmerge f hf)⟩
  have h2 : ∀ f ∈ allFreqs sourceHarmanData harmanToVdsfEQ,
      f ∈ applyNoPreamp
        (applyMovingAverageSmoothing
          (applyX2EQ log10
            (applyMovingAverageSmoothing (mergeEQ sourceHarmanData harmanToVdsfEQ)
              (allFreqs sourceHarmanData harmanToVdsfEQ) movingAverageWindow smoothStartFreq)
            x2EQPoints (allFreqs sourceHarmanData harmanToVdsfEQ))
          (allFreqs sourceHarmanData harmanToVdsfEQ) movingAverageWindow smoothStartFreq)
        (allFreqs sourceHarmanData harmanToVdsfEQ) :=
    fun f hf => (mem_applyNoPreamp _ _ f).2
      ⟨hf, smoothing_mem_of_mem _ _ _ _ f
        ((mem_applyX2EQ _ _ _ _ f).2 (smoothing_mem_of_mem _ _ _ _ f (hmerge f hf)))⟩
  exact ⟨_, _, formatEQString_full _ _ hne h1, formatEQString_full _ _ hne h2⟩

/-- Both texts computed from the curve with entries at 100 Hz and 1000 Hz list the axis of
that curve and the constant correction curve. -/
theorem handleConvert_same_axis_witness :
    (allFreqs curveMinimal harmanToVdsfEQ).Sorted (· < ·) ∧
      (∀ f, f ∈ allFreqs curveMinimal harmanToVdsfEQ ↔
        f ∈ curveMinimal ∨ f ∈ harmanToVdsfEQ) ∧
      ∃ gain1 gain2 : Int → F64,
        (handleConvert log10Digits curveMinimal).1 =
            "GraphicEQ: ".toList ++ "; ".toList.intercalate
              ((allFreqs curveMinimal harmanToVdsfEQ).map
                (fun f => fmtInt f ++ " ".toList ++ fmtF1 (gain1 f))) ∧
          (handleConvert log10Digits curveMinimal).2 =
            "GraphicEQ: ".toList ++ "; ".toList.intercalate
              ((allFreqs curveMinimal harmanToVdsfEQ).map
                (fun f => fmtInt f ++ " ".toList ++ fmtF1 (gain2 f))) :=
  handleConvert_same_axis log10Digits curveMinimal ⟨100, by decide⟩



/-! ## applyNoPreamp: the shift -/

theorem noPreampStep_maxGain (inputEQ : AutoEQData) (st : NoPreampScan) (freq : Int) :
    (noPreampStep inputEQ st freq).maxGain = st.maxGain ∨
      ∃ v, inputEQ.lookup freq = some v ∧
        (noPreampStep inputEQ st freq).maxGain = sanitize v := by
  unfold noPreampStep
  cases hl : inputEQ.lookup freq with
  | none => exact Or.inl rfl
  | some g0 =>
    simp only
    by_cases hgt : F64.gt (if (g0.isNaN || g0.isInf) = true then (0 : F64) else g0) st.maxGain
        = true
    · rw [if_pos hgt]
      exact Or.inr ⟨g0, rfl, rfl⟩
    · rw [if_neg hgt]
      exact Or.inl rfl

/-- The maximum found by the scan is the initial value or the stored gain of an entry. -/
theorem scan_maxGain (inputEQ : AutoEQData) (fs : List Int) (st : NoPreampScan) :
    (fs.foldl (noPreampStep inputEQ) st).maxGain = st.maxGain ∨
      ∃ f ∈ fs, ∃ v, inputEQ.lookup f = some v ∧
        (fs.foldl (noPreampStep inputEQ) st).maxGain = sanitize v := by
  induction fs generalizing st with
  | nil => exact Or.inl rfl
  | cons f fs ih =>
    rw [List.foldl_cons]
    rcases ih (noPreampStep inputEQ st f) with h | ⟨f2, hf2, v, hv, hmax⟩
    · rcases noPreampStep_maxGain inputEQ st f with h2 | ⟨v, hv, h2⟩
      · exact Or.inl (h.trans h2)
      · exact Or.inr ⟨f, by simp, v, hv, h.trans h2⟩
    · exact Or.inr ⟨f2, List.mem_cons_of_mem _ hf2, v, hv, hmax⟩

/-- Lookup in the result of `applyNoPreamp` in terms of the maximum found by the scan. -/
theorem applyNoPreamp_lookup_max (inputEQ : AutoEQData) (sortedFreqs : List Int) (m : ℚ)
    (hm : (sortedFreqs.foldl (noPreampStep inputEQ) scanInit).maxGain = F64.fin m)
    (hdata : ∃ f ∈ sortedFreqs, f ∈ inputEQ) (k : Int) (v : F64) (hk : k ∈ sortedFreqs)
    (hv : inputEQ.lookup k = some v) :
    (applyNoPreamp inputEQ sortedFreqs).lookup k =
      some (shifted (if F64.gt (F64.fin m) eps then F64.fin m else (0 : F64)) (sanitize v)) := by
  have hd : (sortedFreqs.foldl (noPreampStep inputEQ) scanInit).hasData = true :=
    (scan_hasData _ _ _).2 (Or.inr hdata)
  have hfin : ((sortedFreqs.foldl (noPreampStep inputEQ) scanInit).maxGain.isNaN ||
      (sortedFreqs.foldl (noPreampStep inputEQ) scanInit).maxGain.isInf) = false := by
    rw [hm]; rfl
  have hmem : k ∈ sortedFreqs ∧ k ∈ inputEQ := ⟨hk, (AutoEQData.mem_iff_lookup _ _).2 ⟨v, hv⟩⟩
  have hk2 : k ∈ (sortedFreqs.foldl (noPreampStep inputEQ) scanInit).outputEQ.keys :=
    AList.mem_keys.1 ((scan_mem _ _ _).2 hmem)
  rw [applyNoPreamp_eq]
  simp only [hd, hfin, Bool.not_true, Bool.false_eq_true, if_false]
  rw [shiftLoop_lookup _ _ (AList.keys_nodup _), hm, if_pos hk2]
  simp only [AutoEQData.get, scan_outputEQ_lookup, if_pos hmem, hv, Option.map_some',
    Option.getD_some]



theorem maxFloat64_large : (1000000 : ℚ) ≤ F64.maxFloat64 := by
  unfold F64.maxFloat64
  have h1 : (1000000 : ℚ) ≤ 2 ^ 53 - 1 := by norm_num
  have h2 : (1 : ℚ) ≤ 2 ^ 971 := one_le_pow₀ (by norm_num)
  nlinarith

theorem shifted_fin (q s : ℚ) :
    shifted (F64.fin s) (F64.fin q) =
      if F64.maxFloat64 < roundNearest (q - s) ∨ roundNearest (q - s) < -F64.maxFloat64 then
        F64.fin 0
      else F64.fin (roundNearest (q - s)) := by
  unfold shifted
  rw [sub_fin_fin]
  rcases round_cases (q - s) with ⟨h1, h2⟩ | ⟨h1, h2⟩ | ⟨h1, h2⟩
  · obtain ⟨a1, a2⟩ := abs_le.1 h2
    rw [h1, if_neg (show ¬ (F64.maxFloat64 < roundNearest (q - s) ∨
      roundNearest (q - s) < -F64.maxFloat64) by rintro (h | h) <;> linarith)]
    rfl
  · rw [h1, if_pos (Or.inl h2)]; rfl
  · rw [h1, if_pos (Or.inr h2)]; rfl

/-- C11. For every curve with an entry on the axis whose gains on the axis are finite
float64 values, `applyNoPreamp` subtracts one shift from every entry on the axis: with
`maxGain` the maximum gain over the axis entries, the shift is `maxGain` when
`maxGain > 1e-9` and 0 otherwise, so it is never negative; each output gain is the float64
difference of the input gain and the shift (the exact difference rounded to the nearest
float64, which differs from it by at most one rounding error), and 0 where that difference
falls below `-math.MaxFloat64`. -/
theorem applyNoPreamp_shift (inputEQ : AutoEQData) (sortedFreqs : List Int)
    (hdata : ∃ f ∈ sortedFreqs, f ∈ inputEQ)
    (hfin : ∀ f ∈ sortedFreqs, ∀ v, inputEQ.lookup f = some v →
      ∃ q, v = F64.fin q ∧ |q| ≤ F64.maxFloat64) :
    ∃ maxGain shift : ℚ,
      (∃ f ∈ sortedFreqs, inputEQ.lookup f = some (F64.fin maxGain)) ∧
      (∀ f ∈ sortedFreqs, ∀ q, inputEQ.lookup f = some (F64.fin q) → q ≤ maxGain) ∧
      shift = (if F64.gt (F64.fin maxGain) eps = true then maxGain else 0) ∧
      0 ≤ shift ∧
      ∀ f ∈ sortedFreqs, ∀ q, inputEQ.lookup f = some (F64.fin q) →
        (applyNoPreamp inputEQ sortedFreqs).lookup f =
            some (if roundNearest (q - shift) < -F64.maxFloat64 then F64.fin 0
              else F64.fin (roundNearest (q - shift))) ∧
          |roundNearest (q - shift) - (q - shift)| ≤
            |q - shift| * unitRoundoff + minSubnormal / 2 := by
  obtain ⟨m, hm, hb⟩ := scan_inv inputEQ sortedFreqs scanInit scanInit_inv
  have hbound : ∀ f ∈ sortedFreqs, ∀ q, inputEQ.lookup f = some (F64.fin q) → q ≤ m := by
    intro f hf q hq
    have hmem : f ∈ inputEQ := (AutoEQData.mem_iff_lookup _ _).2 ⟨_, hq⟩
    obtain ⟨q2, h1, h2⟩ := hb f (F64.fin q)
      (by rw [scan_outputEQ_lookup, if_pos ⟨hf, hmem⟩, hq]; rfl)
    cases h1
    exact h2
  have hshift : (0 : ℚ) ≤ (if F64.gt (F64.fin m) eps = true then m else 0) := by
    by_cases h9 : F64.gt (F64.fin m) eps = true
    · rw [if_pos h9]
      rw [eps_eq] at h9
      have h10 : roundNearest (1 / 10 ^ 9) < m := by simpa [F64.gt, F64.lt] using h9
      have := eps_pos
      linarith
    · rw [if_neg h9]
  refine ⟨m, _, ?_, hbound, rfl, hshift, ?_⟩
  · rcases scan_maxGain inputEQ sortedFreqs scanInit with h | ⟨f, hf, v, hv, hmax⟩
    · obtain ⟨f0, hf0, hmem0⟩ := hdata
      obtain ⟨v0, hv0⟩ := (AutoEQData.mem_iff_lookup _ _).1 hmem0
      obtain ⟨q0, hq0, habs⟩ := hfin f0 hf0 v0 hv0
      subst hq0
      have h1 : q0 ≤ m := hbound f0 hf0 q0 hv0
      have h2 : m = -F64.maxFloat64 := by
        rw [hm] at h
        exact F64.fin.inj h
      have h3 : -F64.maxFloat64 ≤ q0 := by
        have := neg_abs_le q0; linarith
      have h4 : q0 = m := le_antisymm h1 (by rw [h2]; exact h3)
      exact ⟨f0, hf0, by rw [← h4]; exact hv0⟩
    · obtain ⟨q, hq, _⟩ := hfin f hf v hv
      subst hq
      rw [hm] at hmax
      have h4 : m = q := F64.fin.inj hmax
      exact ⟨f, hf, by rw [h4]; exact hv⟩
  · intro f hf q hq
    refine ⟨?_, roundNearest_err _⟩
    obtain ⟨q2, hq2, habs⟩ := hfin f hf _ hq
    cases hq2
    have hqmax : q ≤ F64.maxFloat64 := le_trans (le_abs_self q) habs
    rw [applyNoPreamp_lookup_max inputEQ sortedFreqs m hm hdata f _ hf hq]
    have hsan : sanitize (F64.fin q) = F64.fin q := rfl
    have hsh : (if F64.gt (F64.fin m) eps = true then F64.fin m else (0 : F64)) =
        F64.fin (if F64.gt (F64.fin m) eps = true then m else 0) := by
      by_cases h9 : F64.gt (F64.fin m) eps = true
      · rw [if_pos h9, if_pos h9]
      · rw [if_neg h9, if_neg h9]
        rfl
    have hup : ¬ F64.maxFloat64 <
        roundNearest (q - (if F64.gt (F64.fin m) eps = true then m else 0)) := by
      have h1 := roundNearest_mono (q - (if F64.gt (F64.fin m) eps = true then m else 0))
        F64.maxFloat64 (by linarith)
      rw [roundNearest_maxFloat64] at h1
      exact not_lt.2 h1
    rw [hsan, hsh, shifted_fin]
    by_cases hlow : roundNearest (q - (if F64.gt (F64.fin m) eps = true then m else 0)) <
        -F64.maxFloat64
    · rw [if_pos (Or.inr hlow), if_pos hlow]
    · rw [if_neg (by rintro (h | h); exact hup h; exact hlow h), if_neg hlow]

/-- The minimal scenario: both gains 3.0, the maximum 3.0 is the shift, and both entries
become 0.0. -/
theorem applyNoPreamp_shift_witness :
    (∃ maxGain shift : ℚ,
      (∃ f ∈ [100, 1000], curveMinimal.lookup f = some (F64.fin maxGain)) ∧
      (∀ f ∈ [100, 1000], ∀ q, curveMinimal.lookup f = some (F64.fin q) → q ≤ maxGain) ∧
      shift = (if F64.gt (F64.fin maxGain) eps = true then maxGain else 0) ∧
      0 ≤ shift ∧
      ∀ f ∈ [100, 1000], ∀ q, curveMinimal.lookup f = some (F64.fin q) →
        (applyNoPreamp curveMinimal [100, 1000]).lookup f =
            some (if roundNearest (q - shift) < -F64.maxFloat64 then F64.fin 0
              else F64.fin (roundNearest (q - shift))) ∧
          |roundNearest (q - shift) - (q - shift)| ≤
            |q - shift| * unitRoundoff + minSubnormal / 2) ∧
      (applyNoPreamp curveMinimal [100, 1000]).lookup 100 = some (F64.fin 0) ∧
      (applyNoPreamp curveMinimal [100, 1000]).lookup 1000 = some (F64.fin 0) :=
  ⟨applyNoPreamp_shift curveMinimal [100, 1000] ⟨100, by decide, by decide⟩
    (by
      intro f hf v hv
      have h3 : |(3 : ℚ)| ≤ F64.maxFloat64 := by
        rw [abs_of_pos (by norm_num)]
        have := maxFloat64_large
        linarith
      rcases List.mem_cons.1 hf with h | h
      · subst h
        have : curveMinimal.lookup 100 = some (F64.fin 3) := by decide!
        rw [this] at hv
        exact ⟨3, (Option.some.inj hv).symm, h3⟩
      · have h2 : f = 1000 := by simpa using h
        subst h2
        have : curveMinimal.lookup 1000 = some (F64.fin 3) := by decide!
        rw [this] at hv
        exact ⟨3, (Option.some.inj hv).symm, h3⟩),
    by decide!, by decide!⟩

/-- A maximum gain that is positive but not above 1e-9 is not subtracted: the single gain
2^-40 stays, where `value - max(max_gain, 0)` is 0; and the entry `-math.MaxFloat64` of a
curve with maximum `math.MaxFloat64` becomes 0, not the difference. -/
theorem applyNoPreamp_small_max_kept :
    curveTiny.lookup 100 = some (F64.fin (1 / 2 ^ 40)) ∧
      (applyNoPreamp curveTiny [100]).lookup 100 = some (F64.fin (1 / 2 ^ 40)) ∧
      (1 / 2 ^ 40 : ℚ) - max (1 / 2 ^ 40) 0 = 0 ∧
      F64.fin (1 / 2 ^ 40) ≠ F64.fin 0 ∧
      (applyNoPreamp curveExtremes [1, 2]).lookup 2 = some (F64.fin 0) := by
  decide!

/-- Subtraction rounds: with the maximum 1.0 the entry `-math.MaxFloat64` stays
`-math.MaxFloat64`, the float64 nearest to `-math.MaxFloat64 - 1`, and is not replaced. -/
theorem applyNoPreamp_rounds_example :
    (applyNoPreamp curveOneAndLowest [1, 2]).lookup 1 = some (F64.fin 0) ∧
      (applyNoPreamp curveOneAndLowest [1, 2]).lookup 2 = some (F64.fin (-F64.maxFloat64)) := by
  decide!



/-! ## applyNoPreamp: key set and idempotence -/

theorem zero_valid : |(0 : ℚ)| ≤ F64.maxFloat64 := by
  rw [abs_zero]
  exact le_of_lt (lt_trans one_pos maxFloat64_pos)

/-- The shift loop stores a float64 within the float64 range. -/
theorem shifted_valid (s v : F64) :
    ∃ r, shifted s v = F64.fin r ∧ |r| ≤ F64.maxFloat64 ∧ roundNearest r = r := by
  have hzero : ∃ r, (0 : F64) = F64.fin r ∧ |r| ≤ F64.maxFloat64 ∧ roundNearest r = r :=
    ⟨0, rfl, zero_valid, roundNearest_zero⟩
  unfold shifted
  cases hsub : F64.sub v s with
  | nan => exact hzero
  | pinf => exact hzero
  | ninf => exact hzero
  | fin r =>
    refine ⟨r, rfl, ?_⟩
    cases v with
    | fin a =>
      cases s with
      | fin b =>
        rw [sub_fin_fin] at hsub
        rcases round_cases (a - b) with ⟨h1, h2⟩ | ⟨h1, _⟩ | ⟨h1, _⟩
        · rw [h1] at hsub
          cases hsub
          exact ⟨h2, roundNearest_idem _⟩
        · rw [h1] at hsub; cases hsub
        · rw [h1] at hsub; cases hsub
      | nan => cases hsub
      | pinf => cases hsub
      | ninf => cases hsub
    | nan => cases s <;> cases hsub
    | pinf => cases s <;> cases hsub
    | ninf => cases s <;> cases hsub

/-- Subtracting the shift 0 from a stored float64 leaves it as it is. -/
theorem shifted_zero (r : ℚ) (h : |r| ≤ F64.maxFloat64) (hrep : roundNearest r = r) :
    shifted (0 : F64) (sanitize (F64.fin r)) = F64.fin r := by
  have h1 : sanitize (F64.fin r) = F64.fin r := rfl
  have h2 : F64.sub (F64.fin r) (0 : F64) = F64.fin r := by
    rw [zero_eq_fin, sub_fin_fin, sub_zero, round_of_abs_le r (by rw [hrep]; exact h), hrep]
  unfold shifted
  rw [h1, h2]
  rfl

/-- Every gain in the result of `applyNoPreamp` is a float64 within the float64 range and
at most 1e-9. -/
theorem applyNoPreamp_entry (inputEQ : AutoEQData) (sortedFreqs : List Int) (f : Int) (g : F64)
    (hg : (applyNoPreamp inputEQ sortedFreqs).lookup f = some g) :
    ∃ r, g = F64.fin r ∧ |r| ≤ F64.maxFloat64 ∧ roundNearest r = r ∧
      r ≤ roundNearest (1 / 10 ^ 9) := by
  obtain ⟨m, hb, hl⟩ := applyNoPreamp_lookup inputEQ sortedFreqs
  rw [hl f] at hg
  by_cases hk : f ∈ sortedFreqs ∧ f ∈ inputEQ
  · rw [if_pos hk] at hg
    obtain ⟨v, hv⟩ := (AutoEQData.mem_iff_lookup _ _).1 hk.2
    rw [hv] at hg
    obtain ⟨q, hq, hle⟩ := hb f v hk.1 hv
    have hge : g = shifted (if F64.gt (F64.fin m) eps = true then F64.fin m else (0 : F64))
        (sanitize v) := (Option.some.inj hg).symm
    obtain ⟨r, hr, hrb, hrep⟩ := shifted_valid
      (if F64.gt (F64.fin m) eps = true then F64.fin m else (0 : F64)) (sanitize v)
    have hle2 := shifted_le_eps m q hle
    rw [← hq, hr, eps_eq] at hle2
    refine ⟨r, by rw [hge, hr], hrb, hrep, ?_⟩
    simp only [F64.le, F64.lt, F64.eq, Bool.or_eq_true, decide_eq_true_eq] at hle2
    rcases hle2 with h | h
    · exact le_of_lt h
    · exact le_of_eq h
  · rw [if_neg hk] at hg; cases hg

/-- C22. The key set of the result of `applyNoPreamp` is exactly the set of the curve
frequencies that occur on the axis: no frequency is added, an entry whose frequency is not
on the axis is dropped, and when no curve entry lies on the axis the result is the empty
curve. -/
theorem applyNoPreamp_keys (inputEQ : AutoEQData) (sortedFreqs : List Int) :
    (∀ f, f ∈ applyNoPreamp inputEQ sortedFreqs ↔ f ∈ inputEQ ∧ f ∈ sortedFreqs) ∧
      (∀ f, f ∈ applyNoPreamp inputEQ sortedFreqs → f ∈ inputEQ) ∧
      (∀ f, f ∈ inputEQ → f ∉ sortedFreqs → f ∉ applyNoPreamp inputEQ sortedFreqs) ∧
      ((∀ f ∈ sortedFreqs, f ∉ inputEQ) → applyNoPreamp inputEQ sortedFreqs = ∅) := by
  have hiff : ∀ f, f ∈ applyNoPreamp inputEQ sortedFreqs ↔ f ∈ inputEQ ∧ f ∈ sortedFreqs :=
    fun f => (mem_applyNoPreamp inputEQ sortedFreqs f).trans and_comm
  refine ⟨hiff, fun f hf => ((hiff f).1 hf).1, fun f _ hna hf => hna ((hiff f).1 hf).2, ?_⟩
  intro hno
  have hkeys : (applyNoPreamp inputEQ sortedFreqs).keys = [] := by
    apply List.eq_nil_iff_forall_not_mem.2
    intro f hf
    have := (hiff f).1 (AList.mem_keys.2 hf)
    exact hno f this.2 this.1
  apply AList.ext
  have : (applyNoPreamp inputEQ sortedFreqs).entries.map Sigma.fst = [] := hkeys
  rw [List.map_eq_nil_iff] at this
  rw [this]
  rfl

/-- The curve {100, 1000} on the axis [50, 100] keeps the key 100 only, and on the axis
[50] nothing. -/
theorem applyNoPreamp_keys_witness :
    100 ∈ applyNoPreamp curveMinimal [50, 100] ∧
      1000 ∉ applyNoPreamp curveMinimal [50, 100] ∧
      50 ∉ applyNoPreamp curveMinimal [50, 100] ∧
      applyNoPreamp curveMinimal [50] = ∅ :=
  ⟨((applyNoPreamp_keys curveMinimal [50, 100]).1 100).2 ⟨by decide, by decide⟩,
    (applyNoPreamp_keys curveMinimal [50, 100]).2.2.1 1000 (by decide) (by decide),
    fun h => absurd ((applyNoPreamp_keys curveMinimal [50, 100]).2.1 50 h) (by decide),
    (applyNoPreamp_keys curveMinimal [50]).2.2.2 (by decide)⟩

/-- The maximum found by the scan over a result of `applyNoPreamp` is at most 1e-9. -/
theorem rescan_maxGain_le (inputEQ : AutoEQData) (sortedFreqs axis2 : List Int) (m2 : ℚ)
    (hm2 : (axis2.foldl (noPreampStep (applyNoPreamp inputEQ sortedFreqs)) scanInit).maxGain =
      F64.fin m2) :
    m2 ≤ roundNearest (1 / 10 ^ 9) := by
  rcases scan_maxGain (applyNoPreamp inputEQ sortedFreqs) axis2 scanInit with
    h | ⟨f, _, w, hw, hmax⟩
  · rw [hm2] at h
    have h2 : m2 = -F64.maxFloat64 := F64.fin.inj h
    have hM := maxFloat64_pos
    have := eps_pos
    linarith
  · obtain ⟨r, hr, _, _, hle⟩ := applyNoPreamp_entry inputEQ sortedFreqs f w hw
    rw [hm2, hr] at hmax
    have h2 : m2 = r := F64.fin.inj hmax
    rw [h2]
    exact hle

/-- C21. `applyNoPreamp` is idempotent: for every curve (with finite gains or not) and
every axis, applying it to its own result on the same axis gives a curve with the same
entries, that is the same gain or absence at every frequency, so the two maps hold the
same entries up to the order of the representation. -/
theorem applyNoPreamp_idempotent (inputEQ : AutoEQData) (sortedFreqs : List Int) :
    (∀ f, (applyNoPreamp (applyNoPreamp inputEQ sortedFreqs) sortedFreqs).lookup f =
        (applyNoPreamp inputEQ sortedFreqs).lookup f) ∧
      List.Perm (applyNoPreamp (applyNoPreamp inputEQ sortedFreqs) sortedFreqs).entries
        (applyNoPreamp inputEQ sortedFreqs).entries := by
  have hlook : ∀ f, (applyNoPreamp (applyNoPreamp inputEQ sortedFreqs) sortedFreqs).lookup f =
      (applyNoPreamp inputEQ sortedFreqs).lookup f := by
    intro f
    cases hR : (applyNoPreamp inputEQ sortedFreqs).lookup f with
    | none =>
      have hnot : f ∉ applyNoPreamp inputEQ sortedFreqs := by
        rw [AutoEQData.mem_iff_lookup, hR]; simp
      have hnot2 : f ∉ applyNoPreamp (applyNoPreamp inputEQ sortedFreqs) sortedFreqs :=
        fun h => hnot ((mem_applyNoPreamp _ _ f).1 h).2
      rw [AutoEQData.mem_iff_lookup] at hnot2
      cases h2 : (applyNoPreamp (applyNoPreamp inputEQ sortedFreqs) sortedFreqs).lookup f with
      | none => rfl
      | some v => exact absurd ⟨v, h2⟩ hnot2
    | some w =>
      have hmemR : f ∈ applyNoPreamp inputEQ sortedFreqs :=
        (AutoEQData.mem_iff_lookup _ _).2 ⟨w, hR⟩
      have hax : f ∈ sortedFreqs := ((mem_applyNoPreamp _ _ f).1 hmemR).1
      obtain ⟨m2, hm2, _⟩ := scan_inv (applyNoPreamp inputEQ sortedFreqs) sortedFreqs scanInit
        scanInit_inv
      have hle := rescan_maxGain_le inputEQ sortedFreqs sortedFreqs m2 hm2
      obtain ⟨r, hr, hrb, hrep, _⟩ := applyNoPreamp_entry inputEQ sortedFreqs f w hR
      rw [applyNoPreamp_lookup_max (applyNoPreamp inputEQ sortedFreqs) sortedFreqs m2 hm2
        ⟨f, hax, hmemR⟩ f w hax hR,
        if_neg (by rw [eps_eq]; simpa [F64.gt, F64.lt] using hle), hr, shifted_zero r hrb hrep]
  refine ⟨hlook, ?_⟩
  apply List.lookup_ext (AList.nodupKeys _) (AList.nodupKeys _)
  intro x y
  have := hlook x
  unfold AList.lookup at this
  rw [this]

/-- The curve {100: 3, 1000: 3} is normalised to {100: 0, 1000: 0}, and normalising again
leaves it there; so does the curve with the single gain 2^-40, which is not shifted. -/
theorem applyNoPreamp_idempotent_example :
    (applyNoPreamp (applyNoPreamp curveMinimal [100, 1000]) [100, 1000]).lookup 100 =
        some (F64.fin 0) ∧
      (applyNoPreamp curveMinimal [100, 1000]).lookup 100 = some (F64.fin 0) ∧
      (applyNoPreamp (applyNoPreamp curveTiny [100]) [100]).lookup 100 =
        some (F64.fin (1 / 2 ^ 40)) ∧
      (applyNoPreamp (applyNoPreamp curveExtremes [1, 2]) [1, 2]).lookup 2 =
        (applyNoPreamp curveExtremes [1, 2]).lookup 2 := by
  decide!



/-! ## applyMovingAverageSmoothing: the window average -/

theorem windowSum_nat (tempGains : List F64) (i h : Nat) :
    windowSum tempGains i h =
      (List.range (2 * h + 1)).foldl
        (fun (acc : F64 × Nat) (k : Nat) =>
          if 0 ≤ (i : Int) - h + k ∧ (i : Int) - h + k < tempGains.length then
            (if !(tempGains.getD ((i : Int) - h + k).toNat 0).isNaN &&
                !(tempGains.getD ((i : Int) - h + k).toNat 0).isInf then
              (F64.add acc.1 (tempGains.getD ((i : Int) - h + k).toNat 0), acc.2 + 1)
            else acc)
          else acc)
        (0, 0) := by
  unfold windowSum
  have hl : ∀ (l : List Nat) (f : F64 × Nat → Int → F64 × Nat) (acc : F64 × Nat),
      List.foldl f acc (l : List Int) = List.foldl (fun a (k : Nat) => f a k) acc l := by
    intro l f
    induction l with
    | nil => intro acc; rfl
    | cons a l ih =>
      intro acc
      have := ih (f acc a)
      simpa using this
  rw [hl]

theorem windowSum_eq (tempGains : List F64) (i h : Nat) (q : Nat → ℚ) (hi : h ≤ i)
    (hlen : i + h < tempGains.length)
    (hq : ∀ j, j < tempGains.length → tempGains[j]? = some (F64.fin (q j))) :
    windowSum tempGains i h = (sumF (windowGains q i h) 0, 2 * h + 1) := by
  have hstep : ∀ (acc : F64 × Nat), ∀ k ∈ List.range (2 * h + 1),
      (fun (acc : F64 × Nat) (k : Nat) =>
          if 0 ≤ (i : Int) - h + k ∧ (i : Int) - h + k < tempGains.length then
            (if !(tempGains.getD ((i : Int) - h + k).toNat 0).isNaN &&
                !(tempGains.getD ((i : Int) - h + k).toNat 0).isInf then
              (F64.add acc.1 (tempGains.getD ((i : Int) - h + k).toNat 0), acc.2 + 1)
            else acc)
          else acc) acc k =
      (fun (acc : F64 × Nat) k => (F64.add acc.1 (F64.fin (q (i - h + k))), acc.2 + 1)) acc k := by
    intro acc k hk
    have hk2 : k < 2 * h + 1 := List.mem_range.1 hk
    have hj : ((i : Int) - h + k).toNat = i - h + k := by omega
    have hget : tempGains.getD (i - h + k) 0 = F64.fin (q (i - h + k)) := by
      rw [List.getD_eq_getElem?_getD, hq _ (by omega)]; rfl
    simp only [hj, hget]
    rw [if_pos (by omega)]
    rfl
  rw [windowSum_nat, List.foldl_ext _ _ _ hstep]
  unfold sumF windowGains
  rw [List.foldl_map]
  generalize (0 : F64) = a0
  have hgen : ∀ (l : List Nat) (a : F64) (n : Nat),
      l.foldl (fun (acc : F64 × Nat) k => (F64.add acc.1 (F64.fin (q (i - h + k))), acc.2 + 1))
        (a, n) =
      (l.foldl (fun acc k => F64.add acc (F64.fin (q (i - h + k)))) a, n + l.length) := by
    intro l
    induction l with
    | nil => intro a n; rfl
    | cons k l ih =>
      intro a n
      rw [List.foldl_cons, List.foldl_cons, ih]
      simp only [List.length_cons]
      congr 1
      omega
  rw [hgen]
  simp

theorem sumF_stuck (qs : List ℚ) :
    sumF qs F64.pinf = F64.pinf ∧ sumF qs F64.ninf = F64.ninf := by
  induction qs with
  | nil => exact ⟨rfl, rfl⟩
  | cons x qs ih =>
    unfold sumF at ih ⊢
    exact ⟨by rw [List.foldl_cons]; exact ih.1, by rw [List.foldl_cons]; exact ih.2⟩

theorem windowGains_length (q : Nat → ℚ) (i h : Nat) : (windowGains q i h).length = 2 * h + 1 := by
  simp [windowGains]

theorem tempGains_getElem? (inputEQ : AutoEQData) (sortedFreqs : List Int) (q : Nat → ℚ)
    (hq : ∀ j f, sortedFreqs[j]? = some f → inputEQ.get f = F64.fin (q j)) (j : Nat)
    (hj : j < (sortedFreqs.map (fun freq => inputEQ.get freq)).length) :
    (sortedFreqs.map (fun freq => inputEQ.get freq))[j]? = some (F64.fin (q j)) := by
  rw [List.length_map] at hj
  rw [List.getElem?_map, List.getElem?_eq_getElem hj, Option.map_some',
    hq j _ (List.getElem?_eq_getElem hj)]

theorem unitRoundoff_pos : (0 : ℚ) < unitRoundoff := by unfold unitRoundoff; positivity

theorem minSubnormal_pos : (0 : ℚ) < minSubnormal := by unfold minSubnormal; positivity

/-- One rounded addition of the running sum: the distance to the exact sum grows by at most
`δ = 2 * U * B + minSubnormal`, where `U` is the unit roundoff times the length of the sum
and `2 * U ≤ 1`. -/
theorem sum_step_err (a A x B U δ : ℚ) (k n : Nat) (hk : k + 1 ≤ n)
    (hU : U = (n : ℚ) * unitRoundoff) (hU2 : 2 * U ≤ 1)
    (hδ : δ = 2 * (U * B) + minSubnormal) (hB0 : 0 ≤ B)
    (ha : |a - A| ≤ (k : ℚ) * δ) (hA : |A| ≤ (k : ℚ) * B) (hx : |x| ≤ B) :
    |roundNearest (a + x) - (A + x)| ≤ ((k + 1 : Nat) : ℚ) * δ ∧
      |A + x| ≤ ((k + 1 : Nat) : ℚ) * B ∧
      |roundNearest (a + x)| ≤ (n : ℚ) * (B + δ) := by
  have hu := unitRoundoff_pos
  have hm := minSubnormal_pos
  have hU0 : 0 ≤ U := by rw [hU]; positivity
  have hδ0 : 0 ≤ δ := by
    rw [hδ]; have := mul_nonneg hU0 hB0; linarith
  have hkn : (k : ℚ) + 1 ≤ (n : ℚ) := by exact_mod_cast hk
  have hk0 : (0 : ℚ) ≤ (k : ℚ) := by positivity
  have hAx : |A + x| ≤ ((k : ℚ) + 1) * B := by
    have := abs_add A x; linarith
  have hax : |a + x| ≤ (n : ℚ) * B + (n : ℚ) * δ := by
    have e : a + x = (a - A) + (A + x) := by ring
    rw [e]
    have h1 := abs_add (a - A) (A + x)
    have h2 : (k : ℚ) * δ ≤ (n : ℚ) * δ := mul_le_mul_of_nonneg_right (by linarith) hδ0
    have h3 : ((k : ℚ) + 1) * B ≤ (n : ℚ) * B := mul_le_mul_of_nonneg_right hkn hB0
    linarith
  have herr := roundNearest_err (a + x)
  have h4 : |a + x| * unitRoundoff ≤ U * B + U * δ := by
    have := mul_le_mul_of_nonneg_right hax (le_of_lt hu)
    have e : ((n : ℚ) * B + (n : ℚ) * δ) * unitRoundoff = U * B + U * δ := by
      rw [hU]; ring
    linarith
  have h5 : U * δ ≤ δ / 2 := by
    have := mul_le_mul_of_nonneg_right hU2 hδ0
    linarith
  have h6 : |roundNearest (a + x) - (a + x)| ≤ δ := by
    linarith
  have hsum : |roundNearest (a + x) - (A + x)| ≤ ((k : ℚ) + 1) * δ := by
    have e : roundNearest (a + x) - (A + x) = (roundNearest (a + x) - (a + x)) + (a - A) := by
      ring
    rw [e]
    have := abs_add (roundNearest (a + x) - (a + x)) (a - A)
    linarith
  refine ⟨by push_cast; exact hsum, by push_cast; exact hAx, ?_⟩
  have e : roundNearest (a + x) = (roundNearest (a + x) - (A + x)) + (A + x) := by ring
  rw [e]
  have h7 := abs_add (roundNearest (a + x) - (A + x)) (A + x)
  have h8 : ((k : ℚ) + 1) * δ ≤ (n : ℚ) * δ := mul_le_mul_of_nonneg_right hkn hδ0
  have h9 : ((k : ℚ) + 1) * B ≤ (n : ℚ) * B := mul_le_mul_of_nonneg_right hkn hB0
  linarith

/-- A finite running sum is within `length * δ` of the exact sum: no step overflowed, and
each step rounded once. -/
theorem sumF_err (qs : List ℚ) (B U δ : ℚ) (n : Nat)
    (hU : U = (n : ℚ) * unitRoundoff) (hU2 : 2 * U ≤ 1)
    (hδ : δ = 2 * (U * B) + minSubnormal) (hB0 : 0 ≤ B) (hB : ∀ x ∈ qs, |x| ≤ B)
    (k : Nat) (a A r : ℚ) (hk : k + qs.length ≤ n)
    (ha : |a - A| ≤ (k : ℚ) * δ) (hA : |A| ≤ (k : ℚ) * B)
    (h : sumF qs (F64.fin a) = F64.fin r) :
    |r - (A + qs.sum)| ≤ ((k + qs.length : Nat) : ℚ) * δ := by
  induction qs generalizing k a A with
  | nil =>
    have e : a = r := by
      simpa [sumF] using h
    rw [← e, List.sum_nil, add_zero, List.length_nil, add_zero]
    exact ha
  | cons x qs ih =>
    have hunf : sumF (x :: qs) (F64.fin a) = sumF qs (F64.round (a + x)) := rfl
    rw [hunf] at h
    rw [List.length_cons] at hk
    obtain ⟨s1, s2, _⟩ := sum_step_err a A x B U δ k n (by omega) hU hU2 hδ hB0 ha hA
      (hB x (by simp))
    rcases round_cases (a + x) with ⟨h1, _⟩ | ⟨h1, _⟩ | ⟨h1, _⟩
    · rw [h1] at h
      have := ih (fun y hy => hB y (List.mem_cons_of_mem _ hy)) (k + 1) (roundNearest (a + x))
        (A + x) (by omega) s1 s2 h
      rw [List.sum_cons, List.length_cons]
      have e1 : A + (x + qs.sum) = A + x + qs.sum := by ring
      have e2 : k + (qs.length + 1) = k + 1 + qs.length := by omega
      rw [e1, e2]
      exact this
    · rw [h1, (sumF_stuck qs).1] at h; cases h
    · rw [h1, (sumF_stuck qs).2] at h; cases h

/-- When `n * (B + δ)` is within the float64 range the running sum stays finite. -/
theorem sumF_finite (qs : List ℚ) (B U δ : ℚ) (n : Nat)
    (hU : U = (n : ℚ) * unitRoundoff) (hU2 : 2 * U ≤ 1)
    (hδ : δ = 2 * (U * B) + minSubnormal) (hB0 : 0 ≤ B) (hB : ∀ x ∈ qs, |x| ≤ B)
    (hmax : (n : ℚ) * (B + δ) ≤ F64.maxFloat64)
    (k : Nat) (a A : ℚ) (hk : k + qs.length ≤ n)
    (ha : |a - A| ≤ (k : ℚ) * δ) (hA : |A| ≤ (k : ℚ) * B) :
    ∃ r, sumF qs (F64.fin a) = F64.fin r := by
  induction qs generalizing k a A with
  | nil => exact ⟨a, rfl⟩
  | cons x qs ih =>
    have hunf : sumF (x :: qs) (F64.fin a) = sumF qs (F64.round (a + x)) := rfl
    rw [hunf]
    rw [List.length_cons] at hk
    obtain ⟨s1, s2, s3⟩ := sum_step_err a A x B U δ k n (by omega) hU hU2 hδ hB0 ha hA
      (hB x (by simp))
    rw [round_of_abs_le _ (le_trans s3 hmax)]
    exact ih (fun y hy => hB y (List.mem_cons_of_mem _ hy)) (k + 1) (roundNearest (a + x))
      (A + x) (by omega) s1 s2

/-- The rounded quotient of a sum within `n * δ` of the exact sum is within `2 * δ` of the
exact mean. -/
theorem mean_err (r S B U δ : ℚ) (n : Nat) (hn : 1 ≤ n)
    (hU : U = (n : ℚ) * unitRoundoff) (hU2 : 2 * U ≤ 1)
    (hδ : δ = 2 * (U * B) + minSubnormal) (hB0 : 0 ≤ B)
    (hS : |S| ≤ (n : ℚ) * B) (hr : |r - S| ≤ (n : ℚ) * δ) :
    |roundNearest (r / (n : ℚ)) - S / (n : ℚ)| ≤ 2 * δ ∧
      |roundNearest (r / (n : ℚ))| ≤ B + 2 * δ := by
  have hu := unitRoundoff_pos
  have hm := minSubnormal_pos
  have hU0 : 0 ≤ U := by rw [hU]; positivity
  have hδ0 : 0 ≤ δ := by
    rw [hδ]; have := mul_nonneg hU0 hB0; linarith
  have hn0 : (0 : ℚ) < (n : ℚ) := by exact_mod_cast hn
  have hn1 : (1 : ℚ) ≤ (n : ℚ) := by exact_mod_cast hn
  have hS2 : |S / (n : ℚ)| ≤ B := by
    rw [abs_div, abs_of_pos hn0, div_le_iff₀ hn0]; linarith
  have hd : |r / (n : ℚ) - S / (n : ℚ)| ≤ δ := by
    rw [← sub_div, abs_div, abs_of_pos hn0, div_le_iff₀ hn0]; linarith
  have hrn : |r / (n : ℚ)| ≤ B + δ := by
    have e : r / (n : ℚ) = (r / (n : ℚ) - S / (n : ℚ)) + S / (n : ℚ) := by ring
    rw [e]
    have := abs_add (r / (n : ℚ) - S / (n : ℚ)) (S / (n : ℚ))
    linarith
  have herr := roundNearest_err (r / (n : ℚ))
  have h1 : |r / (n : ℚ)| * unitRoundoff ≤ (B + δ) * unitRoundoff :=
    mul_le_mul_of_nonneg_right hrn (le_of_lt hu)
  have h2 : B * unitRoundoff ≤ U * B := by
    rw [hU]
    have := mul_le_mul_of_nonneg_right hn1 (mul_nonneg hB0 (le_of_lt hu))
    linarith
  have h3 : δ * unitRoundoff ≤ U * δ := by
    rw [hU]
    have := mul_le_mul_of_nonneg_right hn1 (mul_nonneg hδ0 (le_of_lt hu))
    linarith
  have h4 : U * δ ≤ δ / 2 := by
    have := mul_le_mul_of_nonneg_right hU2 hδ0
    linarith
  have h5 : |roundNearest (r / (n : ℚ)) - r / (n : ℚ)| ≤ δ := by linarith
  constructor
  · have e : roundNearest (r / (n : ℚ)) - S / (n : ℚ) =
        (roundNearest (r / (n : ℚ)) - r / (n : ℚ)) + (r / (n : ℚ) - S / (n : ℚ)) := by ring
    rw [e]
    have := abs_add (roundNearest (r / (n : ℚ)) - r / (n : ℚ)) (r / (n : ℚ) - S / (n : ℚ))
    linarith
  · have e : roundNearest (r / (n : ℚ)) =
        (roundNearest (r / (n : ℚ)) - r / (n : ℚ)) + r / (n : ℚ) := by ring
    rw [e]
    have := abs_add (roundNearest (r / (n : ℚ)) - r / (n : ℚ)) (r / (n : ℚ))
    linarith

/-- The mean of a non-empty list lies between two of its elements. -/
theorem mean_between (qs : List ℚ) (hne : qs ≠ []) :
    (∃ x ∈ qs, x ≤ qs.sum / qs.length) ∧ (∃ y ∈ qs, qs.sum / qs.length ≤ y) := by
  have hlen : (0 : ℚ) < qs.length := by exact_mod_cast List.length_pos.2 hne
  have hc : ∀ (l : List ℚ) (c : ℚ), (l.map (fun _ => c)).sum = (l.length : ℚ) * c := by
    intro l c
    induction l with
    | nil => simp
    | cons a l ih =>
      rw [List.map_cons, List.sum_cons, ih, List.length_cons]
      push_cast
      ring
  have hconst : (qs.map (fun _ => qs.sum / (qs.length : ℚ))).sum = qs.sum := by
    rw [hc]
    field_simp
  have hid : (qs.map (fun x => x)).sum = qs.sum := by simp
  constructor
  · exact List.exists_le_of_sum_le hne (fun x => x) (fun _ => qs.sum / (qs.length : ℚ))
      (by rw [hconst, hid])
  · exact List.exists_le_of_sum_le hne (fun _ => qs.sum / (qs.length : ℚ)) (fun x => x)
      (by rw [hconst, hid])

theorem curveFive_gain (j : Nat) (f : Int) (hj : [1, 2, 3, 4, 5][j]? = some f) :
    curveFive.get f = F64.fin (curveFiveGain j) := by
  match j, hj with
  | 0, hj => cases hj; decide!
  | 1, hj => cases hj; decide!
  | 2, hj => cases hj; decide!
  | 3, hj => cases hj; decide!
  | 4, hj => cases hj; decide!
  | (j + 5), hj => cases hj

theorem abs_sum_le (qs : List ℚ) (B : ℚ) (hB : ∀ x ∈ qs, |x| ≤ B) :
    |qs.sum| ≤ (qs.length : ℚ) * B := by
  induction qs with
  | nil => simp
  | cons x l ih =>
    rw [List.sum_cons, List.length_cons]
    have h1 := hB x (by simp)
    have h2 := ih (fun y hy => hB y (List.mem_cons_of_mem _ hy))
    have h3 := abs_add x l.sum
    push_cast
    linarith

theorem sumF_eq_foldl_range (q : Nat → ℚ) (i h : Nat) (a : F64) :
    sumF (windowGains q i h) a =
      (List.range (2 * h + 1)).foldl (fun acc k => F64.add acc (F64.fin (q (i - h + k)))) a := by
  unfold sumF windowGains
  rw [List.foldl_map]

theorem ofInt_natCast (n : Nat) (h : n ≤ 2 ^ 53) : F64.ofInt (n : Int) = F64.fin (n : ℚ) := by
  unfold F64.ofInt
  rw [Int.cast_natCast, roundNearest_natCast n h]

/-- The value the loop leaves at a position with a full window of finite gains: the
float64 average when it is finite, the value found there otherwise. -/
theorem smoothValue_eq (tempGains : List F64) (i h : Nat) (q : Nat → ℚ) (cur : F64)
    (hi : h ≤ i) (hlen : i + h < tempGains.length)
    (hq : ∀ j, j < tempGains.length → tempGains[j]? = some (F64.fin (q j))) :
    smoothValue tempGains h i cur =
      if (F64.div (sumF (windowGains q i h) 0) (F64.ofInt ((2 * h + 1 : Nat) : Int))).isNaN ||
          (F64.div (sumF (windowGains q i h) 0) (F64.ofInt ((2 * h + 1 : Nat) : Int))).isInf
      then cur
      else F64.div (sumF (windowGains q i h) 0) (F64.ofInt ((2 * h + 1 : Nat) : Int)) := by
  unfold smoothValue
  rw [windowSum_eq tempGains i h q hi hlen hq]
  simp only
  rw [if_pos (Nat.succ_pos _)]
  cases hc : (F64.div (sumF (windowGains q i h) 0) (F64.ofInt ((2 * h + 1 : Nat) : Int))).isNaN <;>
    cases hc2 : (F64.div (sumF (windowGains q i h) 0)
      (F64.ofInt ((2 * h + 1 : Nat) : Int))).isInf <;> simp

/-- The tolerance of the window average of `n` gains of absolute value at most `B`. -/
theorem tol_eq (n : Nat) (B : ℚ) :
    2 * (2 * ((n : ℚ) * unitRoundoff * B) + minSubnormal) =
      (n : ℚ) * (4 * unitRoundoff) * B + 2 * minSubnormal := by ring

theorem pow52_le_pow53 : (2 : Nat) ^ 52 ≤ 2 ^ 53 := by norm_num

theorem two_U_le (n : Nat) (hn : n ≤ 2 ^ 52) : 2 * ((n : ℚ) * unitRoundoff) ≤ 1 := by
  have h1 : (n : ℚ) ≤ ((2 ^ 52 : Nat) : ℚ) := by exact_mod_cast hn
  unfold unitRoundoff
  have e : ((2 ^ 52 : Nat) : ℚ) = 2 ^ 52 := by norm_num
  rw [e] at h1
  have h2 : (n : ℚ) * (1 / 2 ^ 53) ≤ 2 ^ 52 * (1 / 2 ^ 53) :=
    mul_le_mul_of_nonneg_right h1 (by positivity)
  have e2 : (2 : ℚ) ^ 52 * (1 / 2 ^ 53) = 1 / 2 := by norm_num
  linarith

/-- The value the loop leaves at a position with a full window of finite gains lies
between the smallest and the largest gain of the window, up to the rounding tolerance. -/
theorem smoothValue_between (tempGains : List F64) (i h : Nat) (q : Nat → ℚ)
    (hi : h ≤ i) (hlen : i + h < tempGains.length) (hn : 2 * h + 1 ≤ 2 ^ 52)
    (hq : ∀ j, j < tempGains.length → tempGains[j]? = some (F64.fin (q j))) :
    ∃ v, smoothValue tempGains h i (F64.fin (q i)) = F64.fin v ∧
      ∀ lo hi B : ℚ, (∀ x ∈ windowGains q i h, lo ≤ x ∧ x ≤ hi ∧ |x| ≤ B) →
        lo - (((2 * h + 1 : Nat) : ℚ) * (4 * unitRoundoff) * B + 2 * minSubnormal) ≤ v ∧
        v ≤ hi + (((2 * h + 1 : Nat) : ℚ) * (4 * unitRoundoff) * B + 2 * minSubnormal) := by
  have hcur : q i ∈ windowGains q i h :=
    List.mem_map.2 ⟨h, List.mem_range.2 (by omega), by rw [Nat.sub_add_cancel hi]⟩
  have hu := unitRoundoff_pos
  have hm := minSubnormal_pos
  have htol0 : ∀ B : ℚ, 0 ≤ B →
      0 ≤ ((2 * h + 1 : Nat) : ℚ) * (4 * unitRoundoff) * B + 2 * minSubnormal := by
    intro B hB
    have : 0 ≤ ((2 * h + 1 : Nat) : ℚ) * (4 * unitRoundoff) * B := by positivity
    linarith
  have hkeep : ∃ v, F64.fin (q i) = F64.fin v ∧
      ∀ lo hi B : ℚ, (∀ x ∈ windowGains q i h, lo ≤ x ∧ x ≤ hi ∧ |x| ≤ B) →
        lo - (((2 * h + 1 : Nat) : ℚ) * (4 * unitRoundoff) * B + 2 * minSubnormal) ≤ v ∧
        v ≤ hi + (((2 * h + 1 : Nat) : ℚ) * (4 * unitRoundoff) * B + 2 * minSubnormal) := by
    refine ⟨q i, rfl, ?_⟩
    intro lo hi B hb
    obtain ⟨b1, b2, b3⟩ := hb (q i) hcur
    have := htol0 B (le_trans (abs_nonneg _) b3)
    constructor <;> linarith
  have hn0 : ((2 * h + 1 : Nat) : ℚ) ≠ 0 := Nat.cast_ne_zero.2 (Nat.succ_ne_zero _)
  rw [smoothValue_eq tempGains i h q _ hi hlen hq,
    ofInt_natCast _ (le_trans hn pow52_le_pow53)]
  cases hS : sumF (windowGains q i h) 0 with
  | nan => exact hkeep
  | pinf =>
    have : F64.div F64.pinf (F64.fin ((2 * h + 1 : Nat) : ℚ)) = F64.pinf := by
      simp only [F64.div, F64.signed]
      rw [if_pos (by simp only [decide_eq_true_eq]; positivity)]
    rw [this]
    exact hkeep
  | ninf =>
    have : F64.div F64.ninf (F64.fin ((2 * h + 1 : Nat) : ℚ)) = F64.ninf := by
      simp only [F64.div, F64.signed]
      rw [if_neg (by
        simp only [decide_eq_true_eq, not_lt]
        exact_mod_cast Nat.zero_le _)]
    rw [this]
    exact hkeep
  | fin r =>
    rw [div_fin_fin _ _ hn0]
    rcases round_cases (r / ((2 * h + 1 : Nat) : ℚ)) with ⟨h1, _⟩ | ⟨h1, _⟩ | ⟨h1, _⟩
    · rw [h1]
      refine ⟨_, rfl, ?_⟩
      intro lo hi B hb
      have hB : ∀ x ∈ windowGains q i h, |x| ≤ B := fun x hx => (hb x hx).2.2
      have hB0 : 0 ≤ B := le_trans (abs_nonneg _) (hB _ hcur)
      have hne : windowGains q i h ≠ [] := List.ne_nil_of_mem hcur
      have herr := sumF_err (windowGains q i h) B (((2 * h + 1 : Nat) : ℚ) * unitRoundoff)
        (2 * (((2 * h + 1 : Nat) : ℚ) * unitRoundoff * B) + minSubnormal) (2 * h + 1) rfl
        (two_U_le _ hn) rfl hB0 hB 0 0 0 r
        (by rw [windowGains_length]; omega) (by simp) (by simp) hS
      rw [zero_add, windowGains_length, Nat.zero_add] at herr
      have hsum := abs_sum_le (windowGains q i h) B hB
      rw [windowGains_length] at hsum
      obtain ⟨e1, _⟩ := mean_err r (windowGains q i h).sum B
        (((2 * h + 1 : Nat) : ℚ) * unitRoundoff)
        (2 * (((2 * h + 1 : Nat) : ℚ) * unitRoundoff * B) + minSubnormal) (2 * h + 1)
        (Nat.succ_pos _) rfl (two_U_le _ hn) rfl hB0 hsum herr
      rw [tol_eq] at e1
      obtain ⟨⟨x, hx, hxm⟩, ⟨y, hy, hym⟩⟩ := mean_between (windowGains q i h) hne
      rw [windowGains_length] at hxm hym
      have hlo := (hb x hx).1
      have hhi := (hb y hy).2.1
      obtain ⟨a1, a2⟩ := abs_le.1 e1
      constructor <;> linarith
    · rw [h1]; exact hkeep
    · rw [h1]; exact hkeep

/-- When the sum cannot overflow the value the loop leaves is the float64 average, within
the rounding tolerance of the arithmetic mean. -/
theorem smoothValue_mean (tempGains : List F64) (i h : Nat) (q : Nat → ℚ) (B : ℚ) (cur : F64)
    (hh : 1 ≤ h) (hi : h ≤ i) (hlen : i + h < tempGains.length) (hn : 2 * h + 1 ≤ 2 ^ 52)
    (hq : ∀ j, j < tempGains.length → tempGains[j]? = some (F64.fin (q j)))
    (hB : ∀ x ∈ windowGains q i h, |x| ≤ B)
    (hmax : ((2 * h + 1 : Nat) : ℚ) * (2 * B + minSubnormal) ≤ F64.maxFloat64) :
    ∃ v, smoothValue tempGains h i cur = F64.fin v ∧
      |v - (windowGains q i h).sum / ((2 * h + 1 : Nat) : ℚ)| ≤
        ((2 * h + 1 : Nat) : ℚ) * (4 * unitRoundoff) * B + 2 * minSubnormal := by
  have hcur : q (i - h + 0) ∈ windowGains q i h :=
    List.mem_map.2 ⟨0, List.mem_range.2 (by omega), rfl⟩
  have hB0 : 0 ≤ B := le_trans (abs_nonneg _) (hB _ hcur)
  have hu := unitRoundoff_pos
  have hm := minSubnormal_pos
  have hn0 : ((2 * h + 1 : Nat) : ℚ) ≠ 0 := Nat.cast_ne_zero.2 (Nat.succ_ne_zero _)
  have hn1 : (1 : ℚ) ≤ ((2 * h + 1 : Nat) : ℚ) := by exact_mod_cast Nat.succ_pos _
  have hU2 := two_U_le _ hn
  have hδle : 2 * (((2 * h + 1 : Nat) : ℚ) * unitRoundoff * B) + minSubnormal ≤
      B + minSubnormal := by
    have := mul_le_mul_of_nonneg_right hU2 hB0
    linarith
  have hδ0 : 0 ≤ 2 * (((2 * h + 1 : Nat) : ℚ) * unitRoundoff * B) + minSubnormal := by
    have : 0 ≤ ((2 * h + 1 : Nat) : ℚ) * unitRoundoff * B := by positivity
    linarith
  have hmax2 : ((2 * h + 1 : Nat) : ℚ) *
      (B + (2 * (((2 * h + 1 : Nat) : ℚ) * unitRoundoff * B) + minSubnormal)) ≤
      F64.maxFloat64 := by
    have : ((2 * h + 1 : Nat) : ℚ) *
        (B + (2 * (((2 * h + 1 : Nat) : ℚ) * unitRoundoff * B) + minSubnormal)) ≤
        ((2 * h + 1 : Nat) : ℚ) * (2 * B + minSubnormal) :=
      mul_le_mul_of_nonneg_left (by linarith) (by positivity)
    linarith
  obtain ⟨r, hr⟩ := sumF_finite (windowGains q i h) B (((2 * h + 1 : Nat) : ℚ) * unitRoundoff)
    (2 * (((2 * h + 1 : Nat) : ℚ) * unitRoundoff * B) + minSubnormal) (2 * h + 1) rfl
    hU2 rfl hB0 hB hmax2 0 0 0 (by rw [windowGains_length]; omega) (by simp) (by simp)
  have herr := sumF_err (windowGains q i h) B (((2 * h + 1 : Nat) : ℚ) * unitRoundoff)
    (2 * (((2 * h + 1 : Nat) : ℚ) * unitRoundoff * B) + minSubnormal) (2 * h + 1) rfl
    hU2 rfl hB0 hB 0 0 0 r (by rw [windowGains_length]; omega) (by simp) (by simp) hr
  rw [zero_add, windowGains_length, Nat.zero_add] at herr
  have hsum := abs_sum_le (windowGains q i h) B hB
  rw [windowGains_length] at hsum
  obtain ⟨e1, e2⟩ := mean_err r (windowGains q i h).sum B
    (((2 * h + 1 : Nat) : ℚ) * unitRoundoff)
    (2 * (((2 * h + 1 : Nat) : ℚ) * unitRoundoff * B) + minSubnormal) (2 * h + 1)
    (Nat.succ_pos _) rfl hU2 rfl hB0 hsum herr
  have hfin : |roundNearest (r / ((2 * h + 1 : Nat) : ℚ))| ≤ F64.maxFloat64 := by
    have h3 : B + 2 * (2 * (((2 * h + 1 : Nat) : ℚ) * unitRoundoff * B) + minSubnormal) ≤
        1 * (2 * B + minSubnormal) + 2 * (B + minSubnormal) := by linarith
    have h5 : (3 : ℚ) ≤ ((2 * h + 1 : Nat) : ℚ) := by
      have : 3 ≤ 2 * h + 1 := by omega
      exact_mod_cast this
    have h6 : (3 : ℚ) * (2 * B + minSubnormal) ≤
        ((2 * h + 1 : Nat) : ℚ) * (2 * B + minSubnormal) :=
      mul_le_mul_of_nonneg_right h5 (by linarith)
    linarith
  have hr2 : sumF (windowGains q i h) 0 = F64.fin r := hr
  refine ⟨roundNearest (r / ((2 * h + 1 : Nat) : ℚ)), ?_, by rw [← tol_eq]; exact e1⟩
  rw [smoothValue_eq tempGains i h q _ hi hlen hq,
    ofInt_natCast _ (le_trans hn pow52_le_pow53), hr2, div_fin_fin _ _ hn0,
    round_of_abs_le _ hfin]
  rfl


/-- C15. When smoothing applies (odd window `2 * h + 1 > 1`, start index `s`, at least a
window of axis points from `s`), on an axis without repetition, with every original gain
(the input gain at the axis frequency, 0 for a frequency missing from the input) finite:
for every axis index `i` with `s + h ≤ i ≤ last - h` the output gain at `axis[i]` is the
float64 average of the original gains at the indices `i - h .. i + h`, summed in that
order and divided by the window size, when that average is finite, and the original gain
otherwise.  When the window size is at most `2 ^ 52` and the gains of the window are at
most `B` in absolute value with `windowSize * (2 * B + minSubnormal)` within
`math.MaxFloat64`, the average is finite and differs from the arithmetic mean by at most
`windowSize * 4 * unitRoundoff * B + 2 * minSubnormal`. -/
theorem smoothing_window_mean (inputEQ : AutoEQData) (sortedFreqs : List Int)
    (windowSize : Int) (startFreq : F64) (h s : Nat) (hw : windowSize = 2 * (h : Int) + 1)
    (hh : 1 ≤ h) (hs : findStartIndex sortedFreqs startFreq = some s)
    (hlen : s + (2 * h + 1) ≤ sortedFreqs.length) (hnd : sortedFreqs.Nodup)
    (q : Nat → ℚ)
    (hq : ∀ j f, sortedFreqs[j]? = some f → inputEQ.get f = F64.fin (q j))
    (i : Nat) (f : Int) (hf : sortedFreqs[i]? = some f)
    (hi : s + h ≤ i) (hi2 : i + h < sortedFreqs.length) :
    (applyMovingAverageSmoothing inputEQ sortedFreqs windowSize startFreq).lookup f =
        some
          (if (F64.div
                ((List.range (2 * h + 1)).foldl
                  (fun acc k => F64.add acc (F64.fin (q (i - h + k)))) 0)
                (F64.ofInt ((2 * h + 1 : Nat) : Int))).isNaN ||
              (F64.div
                ((List.range (2 * h + 1)).foldl
                  (fun acc k => F64.add acc (F64.fin (q (i - h + k)))) 0)
                (F64.ofInt ((2 * h + 1 : Nat) : Int))).isInf
            then F64.fin (q i)
            else F64.div
              ((List.range (2 * h + 1)).foldl
                (fun acc k => F64.add acc (F64.fin (q (i - h + k)))) 0)
              (F64.ofInt ((2 * h + 1 : Nat) : Int))) ∧
      ∀ B : ℚ, (∀ k, k < 2 * h + 1 → |q (i - h + k)| ≤ B) → 2 * h + 1 ≤ 2 ^ 52 →
        ((2 * h + 1 : Nat) : ℚ) * (2 * B + minSubnormal) ≤ F64.maxFloat64 →
        ∃ v, (applyMovingAverageSmoothing inputEQ sortedFreqs windowSize startFreq).lookup f =
            some (F64.fin v) ∧
          |v - ((List.range (2 * h + 1)).map (fun k => q (i - h + k))).sum /
              ((2 * h + 1 : Nat) : ℚ)| ≤
            ((2 * h + 1 : Nat) : ℚ) * (4 * unitRoundoff) * B + 2 * minSubnormal := by
  have hlk := smoothing_lookup_index inputEQ sortedFreqs windowSize startFreq h s hw hh hs hlen
    hnd i f hf
  rw [if_pos ⟨hi, hi2⟩, hq i f hf] at hlk
  have htemp := tempGains_getElem? inputEQ sortedFreqs q hq
  have hl2 : i + h < (sortedFreqs.map (fun freq => inputEQ.get freq)).length := by
    rw [List.length_map]; exact hi2
  constructor
  · rw [hlk, smoothValue_eq _ i h q _ (by omega) hl2 htemp, sumF_eq_foldl_range]
  · intro B hB hn hmax
    have hB2 : ∀ x ∈ windowGains q i h, |x| ≤ B := by
      intro x hx
      obtain ⟨k, hk, rfl⟩ := List.mem_map.1 hx
      exact hB k (List.mem_range.1 hk)
    obtain ⟨v, hv, herr⟩ := smoothValue_mean (sortedFreqs.map (fun freq => inputEQ.get freq))
      i h q B (F64.fin (q i)) hh (by omega) hl2 hn htemp hB2 hmax
    exact ⟨v, by rw [hlk, hv], herr⟩

/-- The smoothed middle value of `curveFive` is the float64 average of 2, 6 and 4, which
is 4. -/
theorem smoothing_window_mean_witness :
    ((applyMovingAverageSmoothing curveFive [1, 2, 3, 4, 5] 3 (F64.fin 2)).lookup 3 =
        some
          (if (F64.div
                ((List.range (2 * 1 + 1)).foldl
                  (fun acc k => F64.add acc (F64.fin (curveFiveGain (2 - 1 + k)))) 0)
                (F64.ofInt ((2 * 1 + 1 : Nat) : Int))).isNaN ||
              (F64.div
                ((List.range (2 * 1 + 1)).foldl
                  (fun acc k => F64.add acc (F64.fin (curveFiveGain (2 - 1 + k)))) 0)
                (F64.ofInt ((2 * 1 + 1 : Nat) : Int))).isInf
            then F64.fin (curveFiveGain 2)
            else F64.div
              ((List.range (2 * 1 + 1)).foldl
                (fun acc k => F64.add acc (F64.fin (curveFiveGain (2 - 1 + k)))) 0)
              (F64.ofInt ((2 * 1 + 1 : Nat) : Int))) ∧
      ∀ B : ℚ, (∀ k, k < 2 * 1 + 1 → |curveFiveGain (2 - 1 + k)| ≤ B) → 2 * 1 + 1 ≤ 2 ^ 52 →
        ((2 * 1 + 1 : Nat) : ℚ) * (2 * B + minSubnormal) ≤ F64.maxFloat64 →
        ∃ v, (applyMovingAverageSmoothing curveFive [1, 2, 3, 4, 5] 3 (F64.fin 2)).lookup 3 =
            some (F64.fin v) ∧
          |v - ((List.range (2 * 1 + 1)).map (fun k => curveFiveGain (2 - 1 + k))).sum /
              ((2 * 1 + 1 : Nat) : ℚ)| ≤
            ((2 * 1 + 1 : Nat) : ℚ) * (4 * unitRoundoff) * B + 2 * minSubnormal) ∧
      (applyMovingAverageSmoothing curveFive [1, 2, 3, 4, 5] 3 (F64.fin 2)).lookup 3 =
        some (F64.fin 4) :=
  ⟨smoothing_window_mean curveFive [1, 2, 3, 4, 5] 3 (F64.fin 2) 1 1 (by decide) (by decide)
    (by decide!) (by decide) (by decide) curveFiveGain curveFive_gain 2 3 rfl
    (by decide) (by decide), by decide!⟩

/-- Window sums overflow: with two gains equal to `math.MaxFloat64` in the window the sum
is `+Inf`, the average is not written, and the centre keeps its original gain 0 although
all gains are finite and the arithmetic mean, two thirds of `math.MaxFloat64`, is not 0. -/
theorem smoothing_mean_overflow :
    (curveHuge.lookup 1 = some (F64.fin F64.maxFloat64) ∧
      curveHuge.lookup 2 = some (F64.fin 0) ∧
      curveHuge.lookup 3 = some (F64.fin F64.maxFloat64)) ∧
    findStartIndex [1, 2, 3] (F64.fin 1) = some 0 ∧
    (applyMovingAverageSmoothing curveHuge [1, 2, 3] 3 (F64.fin 1)).lookup 2 =
      some (F64.fin 0) ∧
    (F64.maxFloat64 + 0 + F64.maxFloat64) / 3 ≠ 0 := by
  decide!

/-- The average rounds twice: at position 4 of `curveFive` the gains 6, 4 and 7 have the
mean 17/3, and the value written is the float64 nearest to it. -/
theorem smoothing_rounds_example :
    (applyMovingAverageSmoothing curveFive [1, 2, 3, 4, 5] 3 (F64.fin 2)).lookup 4 =
        some (F64.fin (6380099472108203 / 2 ^ 50)) ∧
      roundNearest (17 / 3) = 6380099472108203 / 2 ^ 50 := by
  decide!

/-- C19. When smoothing applies on an axis without repetition, with a window of at most
`2 ^ 52` points and all original gains finite: the value at every smoothed position lies
between the smallest and the largest original gain of its window up to the rounding
tolerance `windowSize * 4 * unitRoundoff * B + 2 * minSubnormal`, where `B` bounds the
absolute gains of the window; and bounds `lo`, `hi`, `B` that hold for all original gains
on the axis hold for all output gains on the axis up to that tolerance, so the maximum
increases and the minimum decreases by at most the tolerance. -/
theorem smoothing_contraction (inputEQ : AutoEQData) (sortedFreqs : List Int)
    (windowSize : Int) (startFreq : F64) (h s : Nat) (hw : windowSize = 2 * (h : Int) + 1)
    (hh : 1 ≤ h) (hs : findStartIndex sortedFreqs startFreq = some s)
    (hlen : s + (2 * h + 1) ≤ sortedFreqs.length) (hnd : sortedFreqs.Nodup)
    (hn : 2 * h + 1 ≤ 2 ^ 52) (q : Nat → ℚ)
    (hq : ∀ j f, sortedFreqs[j]? = some f → inputEQ.get f = F64.fin (q j)) :
    (∀ (i : Nat) (f : Int), sortedFreqs[i]? = some f → s + h ≤ i →
      i + h < sortedFreqs.length →
      ∃ v, (applyMovingAverageSmoothing inputEQ sortedFreqs windowSize startFreq).lookup f =
          some (F64.fin v) ∧
        ∀ lo hi B : ℚ,
          (∀ k, k < 2 * h + 1 →
            lo ≤ q (i - h + k) ∧ q (i - h + k) ≤ hi ∧ |q (i - h + k)| ≤ B) →
          lo - (((2 * h + 1 : Nat) : ℚ) * (4 * unitRoundoff) * B + 2 * minSubnormal) ≤ v ∧
          v ≤ hi + (((2 * h + 1 : Nat) : ℚ) * (4 * unitRoundoff) * B + 2 * minSubnormal)) ∧
      (∀ lo hi B : ℚ,
        (∀ j, j < sortedFreqs.length → lo ≤ q j ∧ q j ≤ hi ∧ |q j| ≤ B) →
        ∀ (i : Nat) (f : Int), sortedFreqs[i]? = some f →
          ∃ v, (applyMovingAverageSmoothing inputEQ sortedFreqs windowSize startFreq).lookup f =
              some (F64.fin v) ∧
            lo - (((2 * h + 1 : Nat) : ℚ) * (4 * unitRoundoff) * B + 2 * minSubnormal) ≤ v ∧
            v ≤ hi + (((2 * h + 1 : Nat) : ℚ) * (4 * unitRoundoff) * B + 2 * minSubnormal)) := by
  have hpart : ∀ (i : Nat) (f : Int), sortedFreqs[i]? = some f → s + h ≤ i →
      i + h < sortedFreqs.length →
      ∃ v, (applyMovingAverageSmoothing inputEQ sortedFreqs windowSize startFreq).lookup f =
          some (F64.fin v) ∧
        ∀ lo hi B : ℚ,
          (∀ k, k < 2 * h + 1 →
            lo ≤ q (i - h + k) ∧ q (i - h + k) ≤ hi ∧ |q (i - h + k)| ≤ B) →
          lo - (((2 * h + 1 : Nat) : ℚ) * (4 * unitRoundoff) * B + 2 * minSubnormal) ≤ v ∧
          v ≤ hi + (((2 * h + 1 : Nat) : ℚ) * (4 * unitRoundoff) * B + 2 * minSubnormal) := by
    intro i f hf hi hi2
    rw [smoothing_lookup_index inputEQ sortedFreqs windowSize startFreq h s hw hh hs hlen hnd
      i f hf, if_pos ⟨hi, hi2⟩, hq i f hf]
    obtain ⟨v, hv, hbet⟩ :=
      smoothValue_between (sortedFreqs.map (fun freq => inputEQ.get freq)) i h q (by omega)
        (by rw [List.length_map]; exact hi2) hn (tempGains_getElem? inputEQ sortedFreqs q hq)
    refine ⟨v, by rw [hv], ?_⟩
    intro lo hi B hb
    apply hbet lo hi B
    intro x hx
    obtain ⟨k, hk, rfl⟩ := List.mem_map.1 hx
    exact hb k (List.mem_range.1 hk)
  refine ⟨hpart, ?_⟩
  intro lo hi B hb i f hf
  have hilt : i < sortedFreqs.length := by
    by_contra hc
    rw [List.getElem?_eq_none (not_lt.1 hc)] at hf
    cases hf
  by_cases hr : s + h ≤ i ∧ i + h < sortedFreqs.length
  · obtain ⟨v, hv, hbet⟩ := hpart i f hf hr.1 hr.2
    exact ⟨v, hv, hbet lo hi B (fun k hk => hb (i - h + k) (by omega))⟩
  · rw [smoothing_lookup_index inputEQ sortedFreqs windowSize startFreq h s hw hh hs hlen hnd
      i f hf, if_neg hr, hq i f hf]
    obtain ⟨b1, b2, b3⟩ := hb i hilt
    have hu := unitRoundoff_pos
    have hm := minSubnormal_pos
    have hB0 : 0 ≤ B := le_trans (abs_nonneg _) b3
    have : 0 ≤ ((2 * h + 1 : Nat) : ℚ) * (4 * unitRoundoff) * B := by positivity
    exact ⟨q i, rfl, by linarith, by linarith⟩

/-- The smoothed middle value of `curveFive` lies between gains of its window 2, 6, 4 up
to the tolerance. -/
theorem smoothing_contraction_witness :
    ∃ v, (applyMovingAverageSmoothing curveFive [1, 2, 3, 4, 5] 3 (F64.fin 2)).lookup 3 =
        some (F64.fin v) ∧
      ∀ lo hi B : ℚ,
        (∀ k, k < 2 * 1 + 1 →
          lo ≤ curveFiveGain (2 - 1 + k) ∧ curveFiveGain (2 - 1 + k) ≤ hi ∧
            |curveFiveGain (2 - 1 + k)| ≤ B) →
        lo - (((2 * 1 + 1 : Nat) : ℚ) * (4 * unitRoundoff) * B + 2 * minSubnormal) ≤ v ∧
        v ≤ hi + (((2 * 1 + 1 : Nat) : ℚ) * (4 * unitRoundoff) * B + 2 * minSubnormal) :=
  (smoothing_contraction curveFive [1, 2, 3, 4, 5] 3 (F64.fin 2) 1 1 (by decide) (by decide)
    (by decide!) (by decide) (by decide) (by norm_num) curveFiveGain curveFive_gain).1 2 3 rfl
    (by decide) (by decide)

/-- The average of a window can leave the window: for the curve whose three gains are the
float64 `0.1`, with window 3, the sum rounds to 0.30000000000000004 and the value written
at the middle is 0.10000000000000002, one unit in the last place above every gain. -/
theorem smoothing_rounding_exceeds_window :
    roundNearest (1 / 10) = tenth ∧
      (curveTenths.lookup 1 = some (F64.fin tenth) ∧
        curveTenths.lookup 2 = some (F64.fin tenth) ∧
        curveTenths.lookup 3 = some (F64.fin tenth)) ∧
      (applyMovingAverageSmoothing curveTenths [1, 2, 3] 3 (F64.fin 1)).lookup 2 =
        some (F64.fin (tenth + 1 / 2 ^ 56)) ∧
      tenth < tenth + 1 / 2 ^ 56 := by
  decide!



/-! ## applyX2EQ: the overlay value stays within the control-point gains -/

/-- A target within the overlay range that is no control-point frequency lies strictly
between two adjacent control points. -/
theorem bracket_exists (l : List eqPoint) (first last : eqPoint) (targetFreq : Int)
    (hfirst : l.head? = some first) (hlast : l.getLast? = some last)
    (h1 : first.Freq ≤ targetFreq) (h2 : targetFreq ≤ last.Freq)
    (hno : ∀ p ∈ l, targetFreq ≠ p.Freq) :
    ∃ pre lower upper post, l = pre ++ lower :: upper :: post ∧
      lower.Freq < targetFreq ∧ targetFreq < upper.Freq := by
  induction l generalizing first with
  | nil => cases hfirst
  | cons a r ih =>
    simp only [List.head?_cons, Option.some.injEq] at hfirst
    subst hfirst
    cases r with
    | nil =>
      simp only [List.getLast?_singleton, Option.some.injEq] at hlast
      subst hlast
      exact absurd (le_antisymm h2 h1) (hno a (by simp))
    | cons b r2 =>
      rw [List.getLast?_cons_cons] at hlast
      have ha : a.Freq < targetFreq := lt_of_le_of_ne h1 (fun h => hno a (by simp) h.symm)
      by_cases hb : targetFreq < b.Freq
      · exact ⟨[], a, b, r2, rfl, ha, hb⟩
      · have hb2 : b.Freq ≤ targetFreq := not_lt.1 hb
        obtain ⟨pre, lower, upper, post, hl, hlo, hup⟩ :=
          ih b rfl hlast hb2 (fun p hp => hno p (List.mem_cons_of_mem _ hp))
        exact ⟨a :: pre, lower, upper, post, by rw [hl]; rfl, hlo, hup⟩

/-- The overlay value is the gain of a control point, or the target lies strictly between
two adjacent control points. -/
theorem x2GainToAdd_point_or_bracket (log10 : F64 → F64) (x2EQ : List eqPoint)
    (targetFreq : Int) (hne : x2EQ ≠ [])
    (hstrict : x2EQ.Pairwise (fun a b => a.Freq < b.Freq)) :
    (∃ p ∈ x2EQ, x2GainToAdd log10 x2EQ targetFreq = p.Gain) ∨
      ∃ pre lower upper post, x2EQ = pre ++ lower :: upper :: post ∧
        lower.Freq < targetFreq ∧ targetFreq < upper.Freq := by
  have hsorted : x2EQ.Pairwise (fun a b => a.Freq ≤ b.Freq) :=
    hstrict.imp (fun h => le_of_lt h)
  cases hfirst : x2EQ.head? with
  | none => exact absurd (List.head?_eq_none_iff.1 hfirst) hne
  | some first =>
    cases hlast : x2EQ.getLast? with
    | none => exact absurd (List.getLast?_eq_none_iff.1 hlast) hne
    | some last =>
      have hfirstmem : first ∈ x2EQ := List.mem_of_mem_head? hfirst
      have hlastmem : last ∈ x2EQ := List.mem_of_getLast?_eq_some hlast
      by_cases hA : targetFreq < first.Freq
      · refine Or.inl ⟨first, hfirstmem, ?_⟩
        unfold x2GainToAdd
        simp only [hfirst, hlast]
        rw [if_pos hA]
      · by_cases hB : targetFreq > last.Freq
        · refine Or.inl ⟨last, hlastmem, ?_⟩
          unfold x2GainToAdd
          simp only [hfirst, hlast]
          rw [if_neg hA, if_pos hB]
        · by_cases hex : ∃ p ∈ x2EQ, targetFreq = p.Freq
          · obtain ⟨p, hp, ht⟩ := hex
            refine Or.inl ⟨p, hp, ?_⟩
            unfold x2GainToAdd
            simp only [hfirst, hlast]
            rw [if_neg hA, if_neg hB]
            by_cases hlen : 2 ≤ x2EQ.length
            · rw [x2Scan_match log10 targetFreq x2EQ hstrict p hp ht hlen]
              by_cases hc : F64.eq p.Gain 0 = true ∧ targetFreq = last.Freq
              · rw [if_pos hc]
                have : p = last :=
                  pairwise_lt_unique _ hstrict p last hp hlastmem (by rw [← ht, hc.2])
                rw [this]
              · rw [if_neg hc]
            · have hone : x2EQ = [p] := by
                match x2EQ, hp, hlen with
                | [a], hp, _ => rw [List.mem_singleton.1 hp]
                | a :: b :: r, _, hlen => simp at hlen
              subst hone
              simp only [List.getLast?_singleton, Option.some.injEq] at hlast
              subst hlast
              rw [if_pos ⟨by rfl, ht⟩]
          · refine Or.inr (bracket_exists x2EQ first last targetFreq hfirst hlast
              (not_lt.1 hA) (not_lt.1 hB) ?_)
            intro p hp ht
            exact hex ⟨p, hp, ht⟩

theorem unitRoundoff_le : unitRoundoff ≤ 1 / 8 := by
  unfold unitRoundoff; norm_num

theorem minSubnormal_le_one : minSubnormal ≤ 1 := by
  unfold minSubnormal
  rw [div_le_one (by positivity)]
  exact one_le_pow₀ (by norm_num)

/-- Rounding errors of the interpolation formula, on rationals: `d`, `p` and `g` are the
rounded difference, product and sum. -/
theorem interp_err (gl gu B t d p g : ℚ) (ht0 : 0 ≤ t) (ht1 : t ≤ 1)
    (hgl : |gl| ≤ B) (hgu : |gu| ≤ B)
    (hd : |d - (gu - gl)| ≤ |gu - gl| * unitRoundoff + minSubnormal / 2)
    (hp : |p - t * d| ≤ |t * d| * unitRoundoff + minSubnormal / 2) :
    |t * d| ≤ 3 * B + minSubnormal ∧ |gl + p| ≤ 4 * B + 2 * minSubnormal ∧
      (|g - (gl + p)| ≤ |gl + p| * unitRoundoff + minSubnormal / 2 →
        |g - (gl + t * (gu - gl))| ≤ 8 * unitRoundoff * B + 4 * minSubnormal) := by
  have hu := unitRoundoff_pos
  have hu8 := unitRoundoff_le
  have hm := minSubnormal_pos
  have hB0 : 0 ≤ B := le_trans (abs_nonneg _) hgl
  have hΔ : |gu - gl| ≤ 2 * B := by
    have := abs_sub gu gl; linarith
  -- products with the unit roundoff
  have hBu : 0 ≤ B * unitRoundoff := mul_nonneg hB0 (le_of_lt hu)
  have hBu8 : B * unitRoundoff ≤ B / 8 := by
    have := mul_le_mul_of_nonneg_left hu8 hB0; linarith
  have hBuu : B * unitRoundoff * unitRoundoff ≤ B * unitRoundoff / 8 := by
    have := mul_le_mul_of_nonneg_left hu8 hBu; linarith
  have hmu : minSubnormal * unitRoundoff ≤ minSubnormal / 8 := by
    have := mul_le_mul_of_nonneg_left hu8 (le_of_lt hm); linarith
  have hΔu : |gu - gl| * unitRoundoff ≤ 2 * (B * unitRoundoff) := by
    have := mul_le_mul_of_nonneg_right hΔ (le_of_lt hu); linarith
  have hdabs : |d| ≤ 2 * B + 2 * (B * unitRoundoff) + minSubnormal / 2 := by
    have e : d = (d - (gu - gl)) + (gu - gl) := by ring
    rw [e]
    have := abs_add (d - (gu - gl)) (gu - gl)
    linarith
  have htd : |t * d| ≤ |d| := by
    rw [abs_mul, abs_of_nonneg ht0]
    have := mul_le_mul_of_nonneg_right ht1 (abs_nonneg d)
    linarith
  have htdu : |t * d| * unitRoundoff ≤
      2 * (B * unitRoundoff) + B * unitRoundoff / 4 + minSubnormal / 16 := by
    have h1 := mul_le_mul_of_nonneg_right (le_trans htd hdabs) (le_of_lt hu)
    have e : (2 * B + 2 * (B * unitRoundoff) + minSubnormal / 2) * unitRoundoff =
        2 * (B * unitRoundoff) + 2 * (B * unitRoundoff * unitRoundoff) +
          minSubnormal * unitRoundoff / 2 := by ring
    linarith
  have htΔ : |t * d - t * (gu - gl)| ≤ 2 * (B * unitRoundoff) + minSubnormal / 2 := by
    rw [← mul_sub, abs_mul, abs_of_nonneg ht0]
    have := mul_le_mul_of_nonneg_right ht1 (abs_nonneg (d - (gu - gl)))
    linarith
  have hX : |p - t * (gu - gl)| ≤ 5 * (B * unitRoundoff) + 2 * minSubnormal := by
    have e : p - t * (gu - gl) = (p - t * d) + (t * d - t * (gu - gl)) := by ring
    rw [e]
    have := abs_add (p - t * d) (t * d - t * (gu - gl))
    linarith
  -- the exact value lies between the gains
  have hexact : |gl + t * (gu - gl)| ≤ B := by
    obtain ⟨a1, a2⟩ := abs_le.1 hgl
    obtain ⟨b1, b2⟩ := abs_le.1 hgu
    have e : gl + t * (gu - gl) = (1 - t) * gl + t * gu := by ring
    rw [e, abs_le]
    have c1 := mul_le_mul_of_nonneg_left a2 (sub_nonneg.2 ht1)
    have c2 := mul_le_mul_of_nonneg_left b2 ht0
    have c3 := mul_le_mul_of_nonneg_left a1 (sub_nonneg.2 ht1)
    have c4 := mul_le_mul_of_nonneg_left b1 ht0
    constructor <;> nlinarith
  have hglp : |gl + p| ≤ B + 5 * (B * unitRoundoff) + 2 * minSubnormal := by
    have e : gl + p = (gl + t * (gu - gl)) + (p - t * (gu - gl)) := by ring
    rw [e]
    have := abs_add (gl + t * (gu - gl)) (p - t * (gu - gl))
    linarith
  refine ⟨by linarith, by linarith, ?_⟩
  intro hg
  have hglpu : |gl + p| * unitRoundoff ≤ 2 * (B * unitRoundoff) + minSubnormal / 4 := by
    have h1 := mul_le_mul_of_nonneg_right hglp (le_of_lt hu)
    have e : (B + 5 * (B * unitRoundoff) + 2 * minSubnormal) * unitRoundoff =
        B * unitRoundoff + 5 * (B * unitRoundoff * unitRoundoff) +
          2 * (minSubnormal * unitRoundoff) := by ring
    linarith
  have e : g - (gl + t * (gu - gl)) = (g - (gl + p)) + (p - t * (gu - gl)) := by ring
  rw [e]
  have := abs_add (g - (gl + p)) (p - t * (gu - gl))
  have e2 : 8 * unitRoundoff * B = 8 * (B * unitRoundoff) := by ring
  rw [e2]
  linarith

/-- The exact interpolated value lies between the two gains. -/
theorem interp_exact_between (gl gu t : ℚ) (ht0 : 0 ≤ t) (ht1 : t ≤ 1) :
    min gl gu ≤ gl + t * (gu - gl) ∧ gl + t * (gu - gl) ≤ max gl gu := by
  by_cases hg : gl ≤ gu
  · rw [min_eq_left hg, max_eq_right hg]
    have h1 := mul_nonneg ht0 (sub_nonneg.2 hg)
    have h2 := mul_nonneg (sub_nonneg.2 ht1) (sub_nonneg.2 hg)
    constructor <;> nlinarith
  · have hg2 : gu ≤ gl := le_of_lt (not_le.1 hg)
    rw [min_eq_right hg2, max_eq_left hg2]
    have h1 := mul_nonneg ht0 (sub_nonneg.2 hg2)
    have h2 := mul_nonneg (sub_nonneg.2 ht1) (sub_nonneg.2 hg2)
    constructor <;> nlinarith

/-- The interpolation formula in float64, on finite operands: the result is finite and lies
between the two gains up to the rounding tolerance. -/
theorem interp_between (ll lt lu gl gu B : ℚ) (h1 : ll ≤ lt) (h2 : lt ≤ lu)
    (hspan : F64.lt (F64.sub (F64.fin lu) (F64.fin ll)) eps = false)
    (hll : |ll| ≤ F64.maxFloat64 / 2) (hlt : |lt| ≤ F64.maxFloat64 / 2)
    (hlu : |lu| ≤ F64.maxFloat64 / 2)
    (hgl : |gl| ≤ B) (hgu : |gu| ≤ B) (hBmax : 4 * B + 2 * minSubnormal ≤ F64.maxFloat64) :
    ∃ v, F64.add (F64.fin gl)
        (F64.mul (F64.div (F64.sub (F64.fin lt) (F64.fin ll)) (F64.sub (F64.fin lu) (F64.fin ll)))
          (F64.sub (F64.fin gu) (F64.fin gl))) = F64.fin v ∧
      min gl gu - (8 * unitRoundoff * B + 4 * minSubnormal) ≤ v ∧
      v ≤ max gl gu + (8 * unitRoundoff * B + 4 * minSubnormal) := by
  have hM := maxFloat64_pos
  have hm := minSubnormal_pos
  have hB0 : 0 ≤ B := le_trans (abs_nonneg _) hgl
  obtain ⟨hll1, hll2⟩ := abs_le.1 hll
  obtain ⟨hlt1, hlt2⟩ := abs_le.1 hlt
  obtain ⟨hlu1, hlu2⟩ := abs_le.1 hlu
  -- the two differences of logarithms
  have hN : F64.sub (F64.fin lt) (F64.fin ll) = F64.fin (roundNearest (lt - ll)) := by
    rw [sub_fin_fin]
    exact round_of_abs_le _ (roundNearest_abs_le _ (abs_le.2 ⟨by linarith, by linarith⟩))
  have hD : F64.sub (F64.fin lu) (F64.fin ll) = F64.fin (roundNearest (lu - ll)) := by
    rw [sub_fin_fin]
    exact round_of_abs_le _ (roundNearest_abs_le _ (abs_le.2 ⟨by linarith, by linarith⟩))
  have hN0 : 0 ≤ roundNearest (lt - ll) := roundNearest_nonneg _ (by linarith)
  have hND : roundNearest (lt - ll) ≤ roundNearest (lu - ll) :=
    roundNearest_mono _ _ (by linarith)
  have hDpos : 0 < roundNearest (lu - ll) := by
    rw [hD, eps_eq] at hspan
    have : ¬ roundNearest (lu - ll) < roundNearest (1 / 10 ^ 9) := by
      simpa [F64.lt] using hspan
    have := eps_pos
    linarith
  -- the proportion
  have hq0 : 0 ≤ roundNearest (lt - ll) / roundNearest (lu - ll) :=
    div_nonneg hN0 (le_of_lt hDpos)
  have hq1 : roundNearest (lt - ll) / roundNearest (lu - ll) ≤ 1 := by
    rw [div_le_one hDpos]; exact hND
  have ht0 : 0 ≤ roundNearest (roundNearest (lt - ll) / roundNearest (lu - ll)) :=
    roundNearest_nonneg _ hq0
  have ht1 : roundNearest (roundNearest (lt - ll) / roundNearest (lu - ll)) ≤ 1 := by
    have := roundNearest_mono _ _ hq1
    rwa [roundNearest_one] at this
  have hT : F64.div (F64.fin (roundNearest (lt - ll))) (F64.fin (roundNearest (lu - ll))) =
      F64.fin (roundNearest (roundNearest (lt - ll) / roundNearest (lu - ll))) := by
    rw [div_fin_fin _ _ (ne_of_gt hDpos)]
    exact round_of_abs_le _ (abs_le.2 ⟨by linarith, by linarith⟩)
  -- the difference of the gains
  have hΔ : |gu - gl| ≤ 2 * B := by
    have := abs_sub gu gl; linarith
  have hd : F64.sub (F64.fin gu) (F64.fin gl) = F64.fin (roundNearest (gu - gl)) := by
    rw [sub_fin_fin]
    exact round_of_abs_le _ (roundNearest_abs_le _ (by linarith))
  obtain ⟨b1, b2, b3⟩ := interp_err gl gu B
    (roundNearest (roundNearest (lt - ll) / roundNearest (lu - ll)))
    (roundNearest (gu - gl))
    (roundNearest (roundNearest (roundNearest (lt - ll) / roundNearest (lu - ll)) *
      roundNearest (gu - gl)))
    (roundNearest (gl + roundNearest
      (roundNearest (roundNearest (lt - ll) / roundNearest (lu - ll)) * roundNearest (gu - gl))))
    ht0 ht1 hgl hgu (roundNearest_err _) (roundNearest_err _)
  have hp : F64.mul
      (F64.fin (roundNearest (roundNearest (lt - ll) / roundNearest (lu - ll))))
      (F64.fin (roundNearest (gu - gl))) =
      F64.fin (roundNearest (roundNearest (roundNearest (lt - ll) / roundNearest (lu - ll)) *
        roundNearest (gu - gl))) := by
    rw [mul_fin_fin]
    exact round_of_abs_le _ (roundNearest_abs_le _ (by linarith))
  have hg : F64.add (F64.fin gl)
      (F64.fin (roundNearest (roundNearest (roundNearest (lt - ll) / roundNearest (lu - ll)) *
        roundNearest (gu - gl)))) =
      F64.fin (roundNearest (gl + roundNearest
        (roundNearest (roundNearest (lt - ll) / roundNearest (lu - ll)) *
          roundNearest (gu - gl)))) := by
    rw [add_fin_fin]
    exact round_of_abs_le _ (roundNearest_abs_le _ (by linarith))
  rw [hN, hD, hT, hd, hp, hg]
  refine ⟨_, rfl, ?_⟩
  have herr := b3 (roundNearest_err _)
  obtain ⟨c1, c2⟩ := interp_exact_between gl gu
    (roundNearest (roundNearest (lt - ll) / roundNearest (lu - ll))) ht0 ht1
  obtain ⟨e1, e2⟩ := abs_le.1 herr
  constructor <;> linarith


theorem ofInt_pos (f : Int) (hf : 0 < f) : (1 : ℚ) ≤ roundNearest (f : ℚ) := by
  have h1 : (1 : ℚ) ≤ (f : ℚ) := by exact_mod_cast hf
  have := roundNearest_mono _ _ h1
  rwa [roundNearest_one] at this

/-- Between a bracketing pair the overlay value lies between the two bracketing gains, up
to the rounding tolerance. -/
theorem x2GainToAdd_bracket_between (log10 : F64 → F64) (lg : ℚ → ℚ)
    (pre post : List eqPoint) (lower upper : eqPoint) (targetFreq : Int) (gl gu B : ℚ)
    (hsorted : (pre ++ lower :: upper :: post).Pairwise (fun a b => a.Freq < b.Freq))
    (hlo : lower.Freq < targetFreq) (hup : targetFreq < upper.Freq)
    (hpos : 0 < lower.Freq)
    (hlog : ∀ x, 0 < x → log10 (F64.fin x) = F64.fin (lg x))
    (hmono : ∀ x y, 0 < x → x ≤ y → lg x ≤ lg y)
    (hlgb : ∀ x, 0 < x → |lg x| ≤ F64.maxFloat64 / 2)
    (hgl : lower.Gain = F64.fin gl) (hgu : upper.Gain = F64.fin gu)
    (hglb : |gl| ≤ B) (hgub : |gu| ≤ B)
    (hBmax : 4 * B + 2 * minSubnormal ≤ F64.maxFloat64) :
    ∃ v, x2GainToAdd log10 (pre ++ lower :: upper :: post) targetFreq = F64.fin v ∧
      min gl gu - (8 * unitRoundoff * B + 4 * minSubnormal) ≤ v ∧
      v ≤ max gl gu + (8 * unitRoundoff * B + 4 * minSubnormal) := by
  have ht : 0 < targetFreq := lt_trans hpos hlo
  have hu : 0 < upper.Freq := lt_trans ht hup
  have pL := lt_of_lt_of_le one_pos (ofInt_pos _ hpos)
  have pT := lt_of_lt_of_le one_pos (ofInt_pos _ ht)
  have pU := lt_of_lt_of_le one_pos (ofInt_pos _ hu)
  have mLT : roundNearest (lower.Freq : ℚ) ≤ roundNearest (targetFreq : ℚ) :=
    roundNearest_mono _ _ (by exact_mod_cast le_of_lt hlo)
  have mTU : roundNearest (targetFreq : ℚ) ≤ roundNearest (upper.Freq : ℚ) :=
    roundNearest_mono _ _ (by exact_mod_cast le_of_lt hup)
  rw [x2GainToAdd_bracket log10 pre post lower upper targetFreq hsorted hlo hup,
    x2Scan_bracket log10 pre post lower upper targetFreq hsorted hlo hup]
  unfold F64.ofInt
  rw [hlog _ pL, hlog _ pT, hlog _ pU, hgl, hgu]
  have hu0 := unitRoundoff_pos
  have hm := minSubnormal_pos
  have hB0 : 0 ≤ B := le_trans (abs_nonneg _) hglb
  have htol : 0 ≤ 8 * unitRoundoff * B + 4 * minSubnormal := by
    have : 0 ≤ 8 * unitRoundoff * B := by positivity
    linarith
  by_cases hspan : F64.lt (F64.sub (F64.fin (lg (roundNearest (upper.Freq : ℚ))))
      (F64.fin (lg (roundNearest (lower.Freq : ℚ))))) eps = true
  · rw [if_pos hspan]
    exact ⟨gl, rfl, by have := min_le_left gl gu; linarith,
      by have := le_max_left gl gu; linarith⟩
  · rw [if_neg hspan]
    exact interp_between _ _ _ _ _ B (hmono _ _ pL mLT) (hmono _ _ pT mTU)
      (by simpa using hspan) (hlgb _ pL) (hlgb _ pT) (hlgb _ pU) hglb hgub hBmax

/-- C20. For every non-empty overlay sorted strictly ascending by positive frequency whose
gains are finite and at most `B` in absolute value, with `4 * B + 2 * minSubnormal` within
`math.MaxFloat64`, and every target frequency, the overlay value is finite and lies between
the gains of two control points, hence between the smallest and the largest gain, up to the
rounding tolerance `8 * unitRoundoff * B + 4 * minSubnormal`; for a target strictly between
two adjacent control points it lies between the two bracketing gains up to that tolerance.
`math.Log10` enters through its properties on positive float64 values: finite, monotone,
within half the float64 range. -/
theorem x2GainToAdd_within_gains (log10 : F64 → F64) (lg : ℚ → ℚ) (x2EQ : List eqPoint)
    (targetFreq : Int) (B : ℚ) (hne : x2EQ ≠ [])
    (hstrict : x2EQ.Pairwise (fun a b => a.Freq < b.Freq))
    (hpos : ∀ p ∈ x2EQ, 0 < p.Freq)
    (hgain : ∀ p ∈ x2EQ, ∃ g, p.Gain = F64.fin g ∧ |g| ≤ B)
    (hBmax : 4 * B + 2 * minSubnormal ≤ F64.maxFloat64)
    (hlog : ∀ x, 0 < x → log10 (F64.fin x) = F64.fin (lg x))
    (hmono : ∀ x y, 0 < x → x ≤ y → lg x ≤ lg y)
    (hlgb : ∀ x, 0 < x → |lg x| ≤ F64.maxFloat64 / 2) :
    ∃ v, x2GainToAdd log10 x2EQ targetFreq = F64.fin v ∧
      (∃ p ∈ x2EQ, ∃ g, p.Gain = F64.fin g ∧
        g - (8 * unitRoundoff * B + 4 * minSubnormal) ≤ v) ∧
      (∃ p ∈ x2EQ, ∃ g, p.Gain = F64.fin g ∧
        v ≤ g + (8 * unitRoundoff * B + 4 * minSubnormal)) ∧
      ∀ pre lower upper post gl gu, x2EQ = pre ++ lower :: upper :: post →
        lower.Freq < targetFreq → targetFreq < upper.Freq →
        lower.Gain = F64.fin gl → upper.Gain = F64.fin gu →
        min gl gu - (8 * unitRoundoff * B + 4 * minSubnormal) ≤ v ∧
          v ≤ max gl gu + (8 * unitRoundoff * B + 4 * minSubnormal) := by
  have hbr : ∀ pre lower upper post gl gu, x2EQ = pre ++ lower :: upper :: post →
      lower.Freq < targetFreq → targetFreq < upper.Freq →
      lower.Gain = F64.fin gl → upper.Gain = F64.fin gu →
      ∃ v, x2GainToAdd log10 x2EQ targetFreq = F64.fin v ∧
        min gl gu - (8 * unitRoundoff * B + 4 * minSubnormal) ≤ v ∧
        v ≤ max gl gu + (8 * unitRoundoff * B + 4 * minSubnormal) := by
    intro pre lower upper post gl gu hx hlo hup hgl hgu
    subst hx
    obtain ⟨g1, hg1, hb1⟩ := hgain lower (by simp)
    obtain ⟨g2, hg2, hb2⟩ := hgain upper (by simp)
    rw [hgl] at hg1
    rw [hgu] at hg2
    cases hg1
    cases hg2
    exact x2GainToAdd_bracket_between log10 lg pre post lower upper targetFreq gl gu B hstrict
      hlo hup (hpos lower (by simp)) hlog hmono hlgb hgl hgu hb1 hb2 hBmax
  have hbr2 : ∀ v, x2GainToAdd log10 x2EQ targetFreq = F64.fin v →
      ∀ pre lower upper post gl gu, x2EQ = pre ++ lower :: upper :: post →
        lower.Freq < targetFreq → targetFreq < upper.Freq →
        lower.Gain = F64.fin gl → upper.Gain = F64.fin gu →
        min gl gu - (8 * unitRoundoff * B + 4 * minSubnormal) ≤ v ∧
          v ≤ max gl gu + (8 * unitRoundoff * B + 4 * minSubnormal) := by
    intro v hv pre lower upper post gl gu hx hlo hup hgl hgu
    obtain ⟨v2, hv2, h1, h2⟩ := hbr pre lower upper post gl gu hx hlo hup hgl hgu
    rw [hv] at hv2
    cases hv2
    exact ⟨h1, h2⟩
  have hu0 := unitRoundoff_pos
  have hm := minSubnormal_pos
  have htol : ∀ g, |g| ≤ B → 0 ≤ 8 * unitRoundoff * B + 4 * minSubnormal := by
    intro g hg
    have hB0 : 0 ≤ B := le_trans (abs_nonneg _) hg
    have : 0 ≤ 8 * unitRoundoff * B := by positivity
    linarith
  rcases x2GainToAdd_point_or_bracket log10 x2EQ targetFreq hne hstrict with
    ⟨p, hp, hval⟩ | ⟨pre, lower, upper, post, hx, hlo, hup⟩
  · obtain ⟨g, hg, hgb⟩ := hgain p hp
    rw [hg] at hval
    have := htol g hgb
    exact ⟨g, hval, ⟨p, hp, g, hg, by linarith⟩, ⟨p, hp, g, hg, by linarith⟩, hbr2 g hval⟩
  · have hlm : lower ∈ x2EQ := by rw [hx]; simp
    have hum : upper ∈ x2EQ := by rw [hx]; simp
    obtain ⟨gl, hgl, _⟩ := hgain lower hlm
    obtain ⟨gu, hgu, _⟩ := hgain upper hum
    obtain ⟨v, hv, h1, h2⟩ := hbr pre lower upper post gl gu hx hlo hup hgl hgu
    refine ⟨v, hv, ?_, ?_, hbr2 v hv⟩
    · by_cases hg : gl ≤ gu
      · rw [min_eq_left hg] at h1
        exact ⟨lower, hlm, gl, hgl, h1⟩
      · rw [min_eq_right (le_of_lt (not_le.1 hg))] at h1
        exact ⟨upper, hum, gu, hgu, h1⟩
    · by_cases hg : gl ≤ gu
      · rw [max_eq_right hg] at h2
        exact ⟨upper, hum, gu, hgu, h2⟩
      · rw [max_eq_left (le_of_lt (not_le.1 hg))] at h2
        exact ⟨lower, hlm, gl, hgl, h2⟩

theorem log10Digits_fin (x : ℚ) (hx : 0 < x) :
    log10Digits (F64.fin x) =
      F64.fin (if x < 10 then 0 else if x < 100 then 1 else if x < 1000 then 2
        else if x < 10000 then 3 else 4) := by
  simp only [log10Digits, if_neg (not_lt.2 (le_of_lt hx)), if_neg (ne_of_gt hx)]
  split_ifs <;> rfl

/-- Between (10 Hz, 1.0) and (1000 Hz, 5.0) the value at 100 Hz lies between 1.0 and
5.0 up to the tolerance; it is 3.0. -/
theorem x2GainToAdd_within_gains_witness :
    (∃ v, x2GainToAdd log10Digits overlayDecade 100 = F64.fin v ∧
      (∃ p ∈ overlayDecade, ∃ g, p.Gain = F64.fin g ∧
        g - (8 * unitRoundoff * 5 + 4 * minSubnormal) ≤ v) ∧
      (∃ p ∈ overlayDecade, ∃ g, p.Gain = F64.fin g ∧
        v ≤ g + (8 * unitRoundoff * 5 + 4 * minSubnormal)) ∧
      ∀ pre lower upper post gl gu, overlayDecade = pre ++ lower :: upper :: post →
        lower.Freq < 100 → 100 < upper.Freq →
        lower.Gain = F64.fin gl → upper.Gain = F64.fin gu →
        min gl gu - (8 * unitRoundoff * 5 + 4 * minSubnormal) ≤ v ∧
          v ≤ max gl gu + (8 * unitRoundoff * 5 + 4 * minSubnormal)) ∧
      x2GainToAdd log10Digits overlayDecade 100 = F64.fin 3 :=
  ⟨x2GainToAdd_within_gains log10Digits
    (fun x => if x < 10 then 0 else if x < 100 then 1 else if x < 1000 then 2
      else if x < 10000 then 3 else 4)
    overlayDecade 100 5 (by simp [overlayDecade]) (by simp [overlayDecade])
    (by
      intro p hp
      simp only [overlayDecade, List.mem_cons, List.mem_singleton, List.not_mem_nil,
        or_false] at hp
      rcases hp with h | h <;> rw [h] <;> decide)
    (by
      intro p hp
      simp only [overlayDecade, List.mem_cons, List.mem_singleton, List.not_mem_nil,
        or_false] at hp
      rcases hp with h | h
      · rw [h]; exact ⟨1, rfl, by rw [abs_of_pos (by norm_num)]; norm_num⟩
      · rw [h]; exact ⟨5, rfl, by rw [abs_of_pos (by norm_num)]⟩)
    (by
      have hM := maxFloat64_large
      have := minSubnormal_le_one
      linarith)
    log10Digits_fin
    (by
      intro x y hx hxy
      simp only
      split_ifs <;> first | (exfalso; linarith) | norm_num)
    (by
      have hM := maxFloat64_large
      intro x hx
      simp only
      split_ifs <;> norm_num <;> linarith),
    by decide!⟩

/-- The overlay value can leave the range of the gains.  The difference of the gains
overflows: for the strictly ascending overlay (10 Hz, `-math.MaxFloat64`),
(1000 Hz, `math.MaxFloat64`) with positive frequencies and finite gains the value computed
for 100 Hz is `+Inf`, and `applyX2EQ` then leaves the base gain as it is.  And the
operations round: for the overlay (1 Hz, -1.0), (2^53 + 1 Hz, 3 * 2^-54) the target 2^53 is
below the upper frequency but `float64(2^53 + 1)` is `2^53`, so the proportion is 1 and the
value is `-1 + (1 + 2^-52) = 2^-52`, above the largest gain `3 * 2^-54`. -/
theorem x2GainToAdd_overflow :
    overlayExtremes.Pairwise (fun a b => a.Freq < b.Freq) ∧
      (∀ p ∈ overlayExtremes, 0 < p.Freq ∧ p.Gain.isFinite = true) ∧
      x2GainToAdd log10Digits overlayExtremes 100 = F64.pinf ∧
      (applyX2EQ log10Digits curveMid overlayExtremes [100]).lookup 100 =
        some (F64.fin 1) ∧
      overlayWide.Pairwise (fun a b => a.Freq < b.Freq) ∧
      x2GainToAdd log10Digits overlayWide (2 ^ 53) = F64.fin (1 / 2 ^ 52) ∧
      (3 / 2 ^ 54 : ℚ) < 1 / 2 ^ 52 := by
  refine ⟨by simp [overlayExtremes], ?_, by decide!, by decide!, by simp [overlayWide],
    by decide!, by norm_num⟩
  intro p hp
  simp only [overlayExtremes, List.mem_cons, List.mem_singleton, List.not_mem_nil,
    or_false] at hp
  rcases hp with h | h <;> rw [h] <;> exact ⟨by decide, rfl⟩



/-! ## The round trip rounds twice -/

/-- The gain 0.75 is printed as `0.8` and read back as the float64 nearest to 0.8. -/
theorem parse_format_rounds_example :
    formatEQString curve075 [100] = "GraphicEQ: 100 0.8".toList ∧
      (parseAutoEQ (formatEQString curve075 [100])).map (fun data => data.entries) =
        Except.ok [⟨100, F64.fin (3602879701896397 / 2 ^ 52)⟩] ∧
      roundNearest (8 / 10) = 3602879701896397 / 2 ^ 52 := by
  decide!


end AHTVC
